import Mathlib

/-!
# hcl-parser-go: `pkg/parser/hcl/hcl.go`

A shallow embedding of the Terraform/HCL flattening code: the value formatter
(`convertValueToString`), the traversal resolver (`buildVarExpressions`), the
recursive expression evaluator (`evaluateExpression`,
`evaluateFunctionExpression`), the block extractors (`parseModule`,
`parseResource`, `parseResourcesFromBlock`, `parseLocals`, `parseConfig`) and
the orchestrator (`parseHCLFile`, `parseSingleFile`, `parseDirectory`, `Parse`).

Modelling conventions
* Go `any` holding `string` or `map[string]any` is the inductive `Value`.
* A Go map is a key-unique association list; `mapSet` is the assignment
  `m[k] = v`.  The order of the list is a representation detail: Go code can
  observe an order only through `range`, and the order of a `range` over a map
  is chosen by the runtime.  That choice is the explicit parameter `RangeOrder`.
* A failed type assertion `x.(string)` and an index out of range panic; a panic
  is `none`.  No function of the file recovers from a panic.
* A returned pair `(*Config, error)` is a pair of options: `none` in the first
  place is `nil`, `none` in the second place is the `nil` error.
* The file system and the HCL parser are the parameter `World`.
* Diagnostic printing (`fmtcolor.Yellow.Println`) does not influence any
  returned value and is left out.
-/

namespace Hcl

/-! ## Numbers: `cty.Number` values and `(*big.Float).String` -/

/-- Multi-precision decimal of Go's `math/big`: the value is `0.mant * 10 ^ exp`,
with `mant` the decimal digits, most significant first.  Zero has no digits. -/
structure Decimal where
  mant : List (Fin 10)
  exp : Int
  deriving DecidableEq, Repr

/-- A finite `big.Float`, given by its sign and its exact decimal expansion (the
binary-to-decimal conversion `decimal.init` is exact, so every finite
`big.Float` has one). -/
structure BigFloat where
  neg : Bool
  dec : Decimal
  deriving DecidableEq, Repr

/-- Go `trim`: cut trailing zeros off the mantissa; an empty mantissa gets
exponent 0. -/
def Decimal.trim (x : Decimal) : Decimal :=
  let m := x.mant.rdropWhile (fun c => c = 0)
  if m = [] then ⟨[], 0⟩ else ⟨m, x.exp⟩

/-- Go `shouldRoundUp`: round half to even on an exact tie, else by the first
dropped digit. -/
def Decimal.shouldRoundUp (x : Decimal) (n : Nat) : Bool :=
  if x.mant.getD n 0 = 5 ∧ n + 1 = x.mant.length then
    decide (0 < n) && decide ((x.mant.getD (n - 1) 0).val % 2 ≠ 0)
  else
    decide (5 ≤ (x.mant.getD n 0).val)

/-- Go `decimal.roundUp` for `0 ≤ n < len(mant)`. -/
def Decimal.roundUp (x : Decimal) (n : Nat) : Decimal :=
  let kept := (x.mant.take n).rdropWhile (fun c => 9 ≤ c.val)
  match kept.getLast? with
  | none => ⟨[1], x.exp + 1⟩
  | some c => ⟨kept.dropLast ++ [c + 1], x.exp⟩

/-- Go `decimal.roundDown` for `0 ≤ n < len(mant)`. -/
def Decimal.roundDown (x : Decimal) (n : Nat) : Decimal :=
  Decimal.trim ⟨x.mant.take n, x.exp⟩

/-- Go `decimal.round`: round to `n` mantissa digits; nothing to do when
`n < 0` or `n ≥ len(mant)`. -/
def Decimal.round (x : Decimal) (n : Int) : Decimal :=
  if n < 0 ∨ (x.mant.length : Int) ≤ n then x
  else if x.shouldRoundUp n.toNat then x.roundUp n.toNat else x.roundDown n.toNat

/-- Go `decimal.at`: the digit at position `i`, `'0'` outside the mantissa. -/
def Decimal.at (d : Decimal) (i : Int) : Char :=
  if 0 ≤ i ∧ i < d.mant.length then Nat.digitChar (d.mant.getD i.toNat 0).val else '0'

/-- Go `fmtE` with format byte `'e'`: `d.ddddde±dd`. -/
def fmtE (prec : Int) (d : Decimal) : List Char :=
  let ch : Char := match d.mant with
    | [] => '0'
    | c :: _ => Nat.digitChar c.val
  let more : List Char :=
    if 0 < prec then
      let m := min d.mant.length (prec + 1).toNat
      let i := if 1 < m then m else 1
      '.' :: (((d.mant.take m).drop 1).map (fun c => Nat.digitChar c.val)
        ++ List.replicate (prec.toNat + 1 - i) '0')
    else []
  let exp : Int := if d.mant.length > 0 then d.exp - 1 else 0
  let sign : Char := if exp < 0 then '-' else '+'
  let mag : Nat := exp.natAbs
  let pad : List Char := if mag < 10 then ['0'] else []
  ch :: (more ++ 'e' :: sign :: (pad ++ Nat.toDigits 10 mag))

/-- Go `fmtF`: `ddddddd.ddddd`. -/
def fmtF (prec : Int) (d : Decimal) : List Char :=
  let int : List Char :=
    if 0 < d.exp then
      let m := min d.mant.length d.exp.toNat
      (d.mant.take m).map (fun c => Nat.digitChar c.val) ++ List.replicate (d.exp.toNat - m) '0'
    else ['0']
  let frac : List Char :=
    if 0 < prec then '.' :: (List.range prec.toNat).map (fun (i : Nat) => d.at (d.exp + (i : Int)))
    else []
  int ++ frac

/-- Go `(*big.Float).Text('g', prec)` for a finite value and `prec ≥ 0`:
round to `prec` significant digits, then `%e` when the exponent is below `-4`
or not below the precision, else `%f`. -/
def BigFloat.textG (x : BigFloat) (prec : Int) : List Char :=
  let sign : List Char := if x.neg then ['-'] else []
  let prec : Int := if prec = 0 then 1 else prec
  let d := x.dec.round prec
  let len : Int := d.mant.length
  let eprec : Int := if prec > len ∧ len ≥ d.exp then len else prec
  let exp := d.exp - 1
  if exp < -4 ∨ exp ≥ eprec then
    let prec := if prec > len then len else prec
    sign ++ fmtE (prec - 1) d
  else
    let prec := if prec > d.exp then len else prec
    sign ++ fmtF (max (prec - d.exp) 0) d

/-- Go `(*big.Float).String`: "String formats x like x.Text('g', 10)". -/
def BigFloat.toText (x : BigFloat) : String :=
  String.mk (x.textG 10)

/-- Value of a sequence of decimal digits, most significant first. -/
def digitsVal (ds : List Nat) : Nat :=
  ds.foldl (fun a d => 10 * a + d) 0

/-- The exact rational value of a decimal: `0.mant * 10 ^ exp`. -/
def Decimal.value (d : Decimal) : ℚ :=
  (digitsVal (d.mant.map (fun c => c.val)) : ℚ) * (10 : ℚ) ^ (d.exp - (d.mant.length : Int))

/-- The exact rational value of a finite `big.Float`. -/
def BigFloat.value (x : BigFloat) : ℚ :=
  if x.neg then - x.dec.value else x.dec.value

/-! ## `cty.Value` literals -/

/-- The `cty.Value` of a literal, by the `cty.Type` that `val.Type()` reports:
`cty.Number`, `cty.String`, `cty.Bool`, or any other type (the literal `null`
has `cty.DynamicPseudoType`). -/
inductive CtyValue where
  | NumberVal (n : BigFloat)
  | StringVal (s : String)
  | BoolVal (b : Bool)
  | OtherVal (typeName : String)
  deriving DecidableEq, Repr

/-- Go `convertValueToString`. -/
def convertValueToString (val : CtyValue) : String :=
  match val with
  | .NumberVal n => n.toText
  | .StringVal s => s
  | .BoolVal v => if v then "true" else "false"
  | .OtherVal _ => ""

/-! ## Traversals -/

/-- The steps of an `hcl.Traversal`. -/
inductive Traverser where
  | TraverseRoot (name : String)
  | TraverseAttr (name : String)
  | TraverseIndex (key : CtyValue)
  | TraverseSplat
  deriving DecidableEq, Repr

/-- The loop of `buildVarExpressions`: `varExp` is the slice built so far. -/
def buildVarExpressionsLoop : List Traverser → List String → List String
  | [], varExp => varExp
  | v :: rest, varExp =>
    match v with
    | .TraverseRoot name =>
      if name ≠ "" then buildVarExpressionsLoop rest (varExp ++ [name])
      else buildVarExpressionsLoop rest varExp
    | .TraverseAttr name =>
      if name ≠ "" then buildVarExpressionsLoop rest (varExp ++ [name])
      else buildVarExpressionsLoop rest varExp
    | _ => buildVarExpressionsLoop rest varExp

/-- Go `buildVarExpressions`: `strings.Join(varExp, ".")`. -/
def buildVarExpressions (traversal : List Traverser) : String :=
  ".".intercalate (buildVarExpressionsLoop traversal [])

/-! ## Expressions and evaluated values -/

/-- The `hclsyntax` expression nodes.  `OtherExpr` stands for every node kind
that the type switch of `evaluateExpression` does not list (conditionals,
operators, `for` expressions, splats, ...), with its sub-expressions. -/
inductive Expr where
  | ScopeTraversalExpr (traversal : List Traverser)
  | LiteralValueExpr (val : CtyValue)
  | TemplateExpr (parts : List Expr)
  | TupleConsExpr (exprs : List Expr)
  | ObjectConsKeyExpr (wrapped : Expr)
  | ObjectConsExpr (items : List (Expr × Expr))
  | IndexExpr (collection : Expr) (key : Expr)
  | FunctionCallExpr (name : String) (args : List Expr)
  | OtherExpr (kind : String) (children : List Expr)

/-- What `evaluateExpression` returns: a Go `any` holding a `string` or a
`map[string]any`. -/
inductive Value where
  | str (s : String)
  | map (m : List (String × Value))

/-- The order in which one `range` statement visits the entries of a map.  Go
leaves it unspecified; the runtime picks it, and may pick differently each
time. -/
abbrev RangeOrder := List (String × Value) → List (String × Value)

/-- A `range` visits every entry exactly once. -/
def RangeOrder.Valid (ord : RangeOrder) : Prop :=
  ∀ m, (ord m).Perm m

/-- Go map assignment `m[k] = v` on a key-unique association list. -/
def mapSet {β : Type} (m : List (String × β)) (k : String) (v : β) : List (String × β) :=
  match m with
  | [] => [(k, v)]
  | (k', v') :: rest => if k' = k then (k, v) :: rest else (k', v') :: mapSet rest k v

/-- Go map read `m[k]` with the comma-ok form. -/
def mapGet {β : Type} (m : List (String × β)) (k : String) : Option β :=
  match m with
  | [] => none
  | (k', v') :: rest => if k' = k then some v' else mapGet rest k

/-- The inner loop of `evaluateFunctionExpression` over the entries of a
mapping argument, in the order the `range` visits them: `values += k`, then
`values += ":" + v` when `v` is a string. -/
def renderValues : List (String × Value) → String → String
  | [], values => values
  | (k, v) :: rest, values =>
    match v with
    | .str s => renderValues rest (values ++ k ++ (":" ++ s))
    | .map _ => renderValues rest (values ++ k)

mutual
/-- Go `evaluateExpression`. -/
def evaluateExpression (ord : RangeOrder) : Expr → Option Value
  | .ScopeTraversalExpr traversal => some (.str (buildVarExpressions traversal))
  | .LiteralValueExpr val => some (.str (convertValueToString val))
  | .TemplateExpr parts => (templateLoop ord parts "").map Value.str
  | .TupleConsExpr exprs => (tupleLoop ord exprs "").map Value.str
  | .ObjectConsKeyExpr wrapped =>
    match evaluateExpression ord wrapped with
    | some (.str s) => some (.str s)
    | _ => none
  | .ObjectConsExpr items => (objectLoop ord items []).map Value.map
  | .IndexExpr collection _ =>
    match evaluateExpression ord collection with
    | some (.str s) => some (.str s)
    | _ => none
  | .FunctionCallExpr name args => (evaluateFunctionExpression ord name args "").map Value.str
  | .OtherExpr _ _ => some (.str "")
/-- The `TemplateExpr` loop: `resultString += evaluateExpression(part).(string)`. -/
def templateLoop (ord : RangeOrder) : List Expr → String → Option String
  | [], resultString => some resultString
  | part :: rest, resultString =>
    match evaluateExpression ord part with
    | some (.str s) => templateLoop ord rest (resultString ++ s)
    | _ => none
/-- The `TupleConsExpr` loop: `resultString += evaluateExpression(elem).(string) + ","`. -/
def tupleLoop (ord : RangeOrder) : List Expr → String → Option String
  | [], resultString => some resultString
  | elem :: rest, resultString =>
    match evaluateExpression ord elem with
    | some (.str s) => tupleLoop ord rest (resultString ++ (s ++ ","))
    | _ => none
/-- The `ObjectConsExpr` loop:
`resultMap[evaluateExpression(item.KeyExpr).(string)] = evaluateExpression(item.ValueExpr)`. -/
def objectLoop (ord : RangeOrder) :
    List (Expr × Expr) → List (String × Value) → Option (List (String × Value))
  | [], resultMap => some resultMap
  | (keyExpr, valueExpr) :: rest, resultMap =>
    match evaluateExpression ord keyExpr with
    | some (.str k) =>
      match evaluateExpression ord valueExpr with
      | some v => objectLoop ord rest (mapSet resultMap k v)
      | none => none
    | _ => none
/-- Go `evaluateFunctionExpression`, as its loop over `expr.Args` with the
string `args` built so far; after the last argument it returns
`fmt.Sprintf("%s(%s)", expr.Name, args)`. -/
def evaluateFunctionExpression (ord : RangeOrder) (name : String) :
    List Expr → String → Option String
  | [], args => some (name ++ "(" ++ args ++ ")")
  | arg :: rest, args =>
    match evaluateExpression ord arg with
    | some (.str exp) => evaluateFunctionExpression ord name rest (args ++ exp)
    | some (.map exp) =>
      evaluateFunctionExpression ord name rest (args ++ "\x7b" ++ renderValues (ord exp) "" ++ "\x7d")
    | none => none
end

mutual
/-- Decidable equality of evaluated values. -/
def Value.decEq : (a b : Value) → Decidable (a = b)
  | .str s, .str t =>
    if h : s = t then isTrue (by rw [h]) else isFalse (by intro h'; cases h'; exact h rfl)
  | .str _, .map _ => isFalse (by intro h; cases h)
  | .map _, .str _ => isFalse (by intro h; cases h)
  | .map m, .map n =>
    match Value.decEqEntries m n with
    | isTrue h => isTrue (by rw [h])
    | isFalse h => isFalse (by intro h'; cases h'; exact h rfl)
/-- Decidable equality of the entries of a mapping. -/
def Value.decEqEntries : (a b : List (String × Value)) → Decidable (a = b)
  | [], [] => isTrue rfl
  | [], _ :: _ => isFalse (by intro h; cases h)
  | _ :: _, [] => isFalse (by intro h; cases h)
  | (k, v) :: as, (k', v') :: bs =>
    if hk : k = k' then
      match Value.decEq v v' with
      | isTrue hv =>
        match Value.decEqEntries as bs with
        | isTrue ht => isTrue (by rw [hk, hv, ht])
        | isFalse ht => isFalse (by intro h'; cases h'; exact ht rfl)
      | isFalse hv => isFalse (by intro h'; cases h'; exact hv rfl)
    else isFalse (by intro h'; cases h'; exact hk rfl)
end

instance : DecidableEq Value := Value.decEq

/-! ## Predicates and inputs used by the statements -/

mutual
/-- No function-call argument that evaluation reaches in `e` evaluates (under
`ord`) to a mapping with two or more entries. -/
def smallMapArgs (ord : RangeOrder) : Expr → Bool
  | .TemplateExpr parts => smallMapArgsList ord parts
  | .TupleConsExpr exprs => smallMapArgsList ord exprs
  | .ObjectConsKeyExpr wrapped => smallMapArgs ord wrapped
  | .ObjectConsExpr items => smallMapArgsItems ord items
  | .IndexExpr collection _ => smallMapArgs ord collection
  | .FunctionCallExpr _ args => smallMapArgsList ord args && smallMapArgsCall ord args
  | _ => true
/-- The predicate `smallMapArgs` for every expression of a list. -/
def smallMapArgsList (ord : RangeOrder) : List Expr → Bool
  | [] => true
  | e :: rest => smallMapArgs ord e && smallMapArgsList ord rest
/-- The predicate `smallMapArgs` for every key and value expression of the items. -/
def smallMapArgsItems (ord : RangeOrder) : List (Expr × Expr) → Bool
  | [] => true
  | (k, v) :: rest => smallMapArgs ord k && smallMapArgs ord v && smallMapArgsItems ord rest
/-- Every argument that evaluates to a mapping gives at most one entry. -/
def smallMapArgsCall (ord : RangeOrder) : List Expr → Bool
  | [] => true
  | a :: rest =>
    (match evaluateExpression ord a with
      | some (.map m) => decide (m.length ≤ 1)
      | _ => true) && smallMapArgsCall ord rest
end

/-- The key `name` of an object item, as the parser gives it: a key wrapper
around a one-step traversal. -/
def keyExpr (name : String) : Expr :=
  .ObjectConsKeyExpr (.ScopeTraversalExpr [.TraverseRoot name])

/-- The quoted string `"s"`: a template with one literal part. -/
def quoted (s : String) : Expr :=
  .TemplateExpr [.LiteralValueExpr (.StringVal s)]

/-- The call `f({a = "1", b = "2"})`. -/
def callTwoEntries : Expr :=
  .FunctionCallExpr "f" [.ObjectConsExpr [(keyExpr "a", quoted "1"), (keyExpr "b", quoted "2")]]

/-- The call `f({a = "1"}, "x")`. -/
def callOneEntry : Expr :=
  .FunctionCallExpr "f" [.ObjectConsExpr [(keyExpr "a", quoted "1")], quoted "x"]

/-- The object `{a = "1", a = "2"}`, with the key `a` given twice. -/
def objectDupKey : Expr :=
  .ObjectConsExpr [(keyExpr "a", quoted "1"), (keyExpr "a", quoted "2")]

/-- The object `{a = "1", b = "2"}`. -/
def objectTwoKeys : Expr :=
  .ObjectConsExpr [(keyExpr "a", quoted "1"), (keyExpr "b", quoted "2")]

/-- The reference `var.k`. -/
def varK : Expr :=
  .ScopeTraversalExpr [.TraverseRoot "var", .TraverseAttr "k"]

/-- The name a traversal step contributes to the resolved string: the name of a
root or attribute step when it is not empty. -/
def stepName (v : Traverser) : Option String :=
  match v with
  | .TraverseRoot name => if name = "" then none else some name
  | .TraverseAttr name => if name = "" then none else some name
  | _ => none

/-- What one evaluated argument contributes to the argument text of a call: a
string contributes itself, a mapping whose entries (in the order the `range`
visits them) are `kvs`, all with string values, contributes `{k1:v1k2:v2...}`. -/
def ArgText (ord : RangeOrder) (arg : Expr) (c : String) : Prop :=
  evaluateExpression ord arg = some (.str c) ∨
  ∃ (m : List (String × Value)) (kvs : List (String × String)),
    evaluateExpression ord arg = some (.map m) ∧
    ord m = kvs.map (fun kv => (kv.1, Value.str kv.2)) ∧
    c = "\x7b" ++ String.join (kvs.map (fun kv => kv.1 ++ ":" ++ kv.2)) ++ "\x7d"

/-! ## Reading a decimal text back -/

/-- Read the longest prefix of decimal digit characters: the digits read and
the rest of the input. -/
def takeDigits : List Char → List Nat × List Char
  | [] => ([], [])
  | c :: cs =>
    if c.isDigit then ((c.toNat - 48) :: (takeDigits cs).1, (takeDigits cs).2)
    else ([], c :: cs)

/-- Read an optional sign: whether it is a minus, and the rest of the input. -/
def parseSign : List Char → Bool × List Char
  | [] => (false, [])
  | c :: cs => if c = '-' then (true, cs) else if c = '+' then (false, cs) else (false, c :: cs)

/-- Read an optional fraction `.ddd`: its digits and the rest of the input. -/
def parseFraction : List Char → List Nat × List Char
  | [] => ([], [])
  | c :: cs => if c = '.' then takeDigits cs else ([], c :: cs)

/-- Read an optional exponent `e±dd`: its value (0 when absent) and the rest of
the input; an exponent without digits is an error. -/
def parseExponent : List Char → Option (Int × List Char)
  | [] => some (0, [])
  | c :: cs =>
    if c = 'e' ∨ c = 'E' then
      let s := parseSign cs
      let ds := takeDigits s.2
      if ds.1 = [] then none
      else some (if s.1 then - (digitsVal ds.1 : Int) else (digitsVal ds.1 : Int), ds.2)
    else some (0, c :: cs)

/-- Parse a decimal number `[±]ddd[.ddd][e[±]dd]` to its exact value; `none`
when the text is not of that form. -/
def parseDecimalChars (cs : List Char) : Option ℚ :=
  let s := parseSign cs
  let ip := takeDigits s.2
  let fp := parseFraction ip.2
  if ip.1 = [] ∧ fp.1 = [] then none
  else
    match parseExponent fp.2 with
    | some (e, []) =>
      some ((if s.1 then -1 else 1) * (digitsVal (ip.1 ++ fp.1) : ℚ)
        * (10 : ℚ) ^ (e - (fp.1.length : Int)))
    | _ => none

/-- Parse a string back as a decimal number. -/
def parseDecimal (s : String) : Option ℚ :=
  parseDecimalChars s.data


/-! ### The parts of a decimal text -/

/-- The parts of a decimal text: sign, integer digits, fraction digits when
there is a point, sign and digits of the exponent when there is one. -/
structure Rendered where
  neg : Bool
  int : List (Fin 10)
  frac : Option (List (Fin 10))
  expo : Option (Bool × List (Fin 10))

/-- The characters of the exponent part. -/
def expoChars : Option (Bool × List (Fin 10)) → List Char
  | none => []
  | some (n, e) => 'e' :: (if n then '-' else '+') :: e.map (fun c => Nat.digitChar c.val)

/-- The characters of the fraction part. -/
def fracChars : Option (List (Fin 10)) → List Char
  | none => []
  | some f => '.' :: f.map (fun c => Nat.digitChar c.val)

/-- The characters of a decimal text. -/
def Rendered.chars (r : Rendered) : List Char :=
  (if r.neg then ['-'] else []) ++
    (r.int.map (fun c => Nat.digitChar c.val) ++ (fracChars r.frac ++ expoChars r.expo))

/-- The value of the exponent part. -/
def expoVal : Option (Bool × List (Fin 10)) → Int
  | none => 0
  | some (n, e) =>
    if n then - (digitsVal (e.map (fun c => c.val)) : Int)
    else (digitsVal (e.map (fun c => c.val)) : Int)

/-- The digits of the fraction part. -/
def fracDigits : Option (List (Fin 10)) → List (Fin 10)
  | none => []
  | some f => f

/-- The number a decimal text denotes. -/
def Rendered.value (r : Rendered) : ℚ :=
  (if r.neg then -1 else 1)
    * (digitsVal (r.int.map (fun c => c.val) ++ (fracDigits r.frac).map (fun c => c.val)) : ℚ)
    * (10 : ℚ) ^ (expoVal r.expo - ((fracDigits r.frac).length : Int))

/-- The integer 12345678901: eleven significant digits. -/
def elevenDigits : BigFloat :=
  ⟨false, ⟨[1, 2, 3, 4, 5, 6, 7, 8, 9, 0, 1], 11⟩⟩

/-- The integer 1234567891: ten significant digits. -/
def tenDigits : BigFloat :=
  ⟨false, ⟨[1, 2, 3, 4, 5, 6, 7, 8, 9, 1], 10⟩⟩

/-- The fraction 0.375 (three eighths), which a binary float holds exactly. -/
def threeEighths : BigFloat :=
  ⟨false, ⟨[3, 7, 5], 0⟩⟩

/-- The value of the literal `0.1`.  A number literal is read into a
`big.Float` of 512 bits of precision, rounded to nearest; one tenth is not a
binary fraction, and the nearest 512-bit value has an exact decimal expansion of
515 digits. -/
def tenthLiteral : BigFloat :=
  ⟨false, ⟨1 :: (List.replicate 154 0 ++ [
      1, 8, 6, 4, 5, 8, 5, 1, 8, 2, 8, 0, 0, 0, 5, 1, 6, 8, 5, 8, 2, 2, 7, 4, 1, 3, 2, 8, 8, 6,
      5, 7, 3, 3, 4, 5, 9, 3, 4, 4, 1, 1, 7, 8, 8, 3, 6, 5, 0, 1, 0, 1, 7, 2, 3, 5, 6, 7, 8, 7,
      9, 5, 8, 3, 3, 0, 1, 5, 6, 9, 5, 9, 6, 2, 6, 7, 5, 2, 9, 5, 7, 6, 2, 3, 4, 0, 4, 3, 7, 2,
      2, 6, 0, 0, 1, 0, 6, 9, 5, 0, 8, 4, 0, 3, 7, 7, 9, 0, 0, 8, 1, 3, 9, 5, 9, 0, 2, 5, 3, 6,
      3, 3, 5, 3, 1, 8, 2, 0, 2, 3, 8, 0, 6, 3, 2, 5, 6, 6, 5, 1, 2, 1, 5, 4, 1, 2, 0, 7, 3, 9,
      8, 0, 2, 1, 1, 7, 2, 8, 7, 0, 3, 1, 5, 1, 9, 8, 0, 7, 9, 6, 9, 5, 3, 4, 4, 3, 7, 3, 8, 0,
      1, 0, 1, 8, 5, 6, 6, 6, 0, 8, 8, 1, 5, 7, 3, 5, 3, 6, 1, 6, 3, 8, 5, 9, 1, 2, 6, 5, 9, 7,
      8, 6, 9, 1, 3, 5, 3, 5, 5, 4, 3, 1, 5, 1, 4, 7, 1, 2, 6, 7, 8, 0, 0, 0, 7, 9, 2, 1, 7, 0,
      5, 7, 5, 0, 8, 0, 5, 6, 8, 5, 5, 7, 4, 3, 9, 0, 9, 2, 4, 8, 1, 6, 3, 3, 7, 5, 5, 3, 8, 3,
      4, 3, 0, 1, 5, 1, 4, 5, 8, 4, 1, 2, 9, 1, 5, 7, 1, 6, 1, 5, 0, 0, 9, 0, 3, 2, 3, 1, 8, 5,
      8, 3, 8, 7, 9, 6, 1, 7, 4, 2, 1, 6, 4, 3, 3, 1, 6, 2, 4, 7, 5, 2, 0, 3, 8, 3, 2, 9, 9, 7,
      2, 9, 4, 7, 3, 9, 4, 7, 0, 8, 1, 7, 1, 4, 8, 6, 8, 5, 4, 5, 5, 3, 2, 2, 2, 6, 5, 6, 2, 5]),
    0⟩⟩

/-! ## Where the evaluator asserts a string -/

/-- The node is an object construction. -/
def isObject : Expr → Bool
  | .ObjectConsExpr _ => true
  | _ => false

mutual
/-- Evaluation of `e` reaches a position where a string is asserted (a template
part, a tuple element, the wrapped expression of a key wrapper, the key of an
object item, the collection of an index expression) and finds an object
construction there.  The key of an index expression and the sub-expressions of
an unlisted node kind are not evaluated, so they are not searched. -/
def reachesAssertedObject : Expr → Bool
  | .TemplateExpr parts => reachesAssertedObjectParts parts
  | .TupleConsExpr exprs => reachesAssertedObjectParts exprs
  | .ObjectConsKeyExpr wrapped => isObject wrapped || reachesAssertedObject wrapped
  | .ObjectConsExpr items => reachesAssertedObjectItems items
  | .IndexExpr collection _ => isObject collection || reachesAssertedObject collection
  | .FunctionCallExpr _ args => reachesAssertedObjectArgs args
  | _ => false
/-- The search in the parts of a template or the elements of a tuple, each of
them asserted to be a string. -/
def reachesAssertedObjectParts : List Expr → Bool
  | [] => false
  | e :: rest => isObject e || reachesAssertedObject e || reachesAssertedObjectParts rest
/-- The search in the items of an object construction: the key is asserted to
be a string, the value is not. -/
def reachesAssertedObjectItems : List (Expr × Expr) → Bool
  | [] => false
  | (k, v) :: rest =>
    isObject k || reachesAssertedObject k || reachesAssertedObject v
      || reachesAssertedObjectItems rest
/-- The search in the arguments of a function call, none of them asserted to be
a string. -/
def reachesAssertedObjectArgs : List Expr → Bool
  | [] => false
  | a :: rest => reachesAssertedObject a || reachesAssertedObjectArgs rest
end

mutual
/-- Somewhere in `e`, in any sub-expression at all, an object construction
occurs directly as a template part, a tuple element, the wrapped expression of
a key wrapper, the key of an object item or the collection of an index
expression. -/
def hasAssertedObject : Expr → Bool
  | .TemplateExpr parts => hasAssertedObjectParts parts
  | .TupleConsExpr exprs => hasAssertedObjectParts exprs
  | .ObjectConsKeyExpr wrapped => isObject wrapped || hasAssertedObject wrapped
  | .ObjectConsExpr items => hasAssertedObjectItems items
  | .IndexExpr collection key =>
    isObject collection || hasAssertedObject collection || hasAssertedObject key
  | .FunctionCallExpr _ args => hasAssertedObjectAny args
  | .OtherExpr _ children => hasAssertedObjectAny children
  | _ => false
/-- The occurrence search in template parts and tuple elements. -/
def hasAssertedObjectParts : List Expr → Bool
  | [] => false
  | e :: rest => isObject e || hasAssertedObject e || hasAssertedObjectParts rest
/-- The occurrence search in the items of an object construction. -/
def hasAssertedObjectItems : List (Expr × Expr) → Bool
  | [] => false
  | (k, v) :: rest =>
    isObject k || hasAssertedObject k || hasAssertedObject v || hasAssertedObjectItems rest
/-- The occurrence search in sub-expressions that are not themselves asserted
to be strings. -/
def hasAssertedObjectAny : List Expr → Bool
  | [] => false
  | a :: rest => hasAssertedObject a || hasAssertedObjectAny rest
end

/-- The conditional `true ? [{}] : []`: a node kind outside the type switch,
with a tuple that has an object as an element. -/
def conditionalWithObjectTuple : Expr :=
  .OtherExpr "ConditionalExpr"
    [.LiteralValueExpr (.BoolVal true), .TupleConsExpr [.ObjectConsExpr []], .TupleConsExpr []]

/-- The tuple `[{}]`. -/
def tupleWithObject : Expr :=
  .TupleConsExpr [.ObjectConsExpr []]

/-! ## Blocks and extracted entities -/

/-- An attribute `Name = Expr` of a body (`hclsyntax.Attribute`). -/
structure Attribute where
  Name : String
  Expr : Expr

/-- A block (`hclsyntax.Block`): its keyword (Go field `Type`), its labels, and
the attributes and nested blocks of its body.  `Attributes` holds the entries
of the Go map `Body.Attributes` in the order in which the `range` over it visits
them; as keys of a map their names are pairwise different. -/
inductive Block where
  | mk (Type_ : String) (Labels : List String) (Attributes : List Attribute)
      (Blocks : List Block)

/-- Go `block.Type`. -/
def Block.Type_ : Block → String
  | .mk t _ _ _ => t

/-- Go `block.Labels`. -/
def Block.Labels : Block → List String
  | .mk _ l _ _ => l

/-- Go `block.Body.Attributes`. -/
def Block.Attributes : Block → List Attribute
  | .mk _ _ a _ => a

/-- Go `block.Body.Blocks`. -/
def Block.Blocks : Block → List Block
  | .mk _ _ _ b => b

/-- A parsed file (`hcl.File`): the top-level attributes and blocks of its body. -/
structure File where
  Attributes : List Attribute
  Blocks : List Block

/-- Go `Resource` (the field `Type` is named `Type_`). -/
structure Resource where
  Type_ : String
  Name : String
  Labels : List String
  Attributes : List (String × Value)
  deriving DecidableEq

/-- Go `Module`. -/
structure Module where
  Source : String
  Labels : List String
  Attributes : List (String × Value)
  deriving DecidableEq

/-- Go `Local`. -/
structure Local where
  Attributes : List (String × Value)
  deriving DecidableEq

/-- Go `Variable`. -/
structure Variable where
  Attributes : List (String × Value)
  deriving DecidableEq

/-- Go `Config`. -/
structure Config where
  Resources : List Resource
  Modules : List Module
  Variables : List Variable
  Locals : List Local
  deriving DecidableEq

/-- The loop that `parseResource`, `parseResourcesFromBlock` and `parseLocals`
each run over the attributes of a body, with `m` the mapping written to:
`m[attribute.Name] = evaluateExpression(attribute.Expr)`. -/
def evaluateAttributes (ord : RangeOrder) :
    List Attribute → List (String × Value) → Option (List (String × Value))
  | [], m => some m
  | attr :: rest, m =>
    match evaluateExpression ord attr.Expr with
    | some value => evaluateAttributes ord rest (mapSet m attr.Name value)
    | none => none

/-- The loop of `parseModule` over the attributes of the block: store the
evaluated value under the attribute name and, for the name `source`, assert it
to be a string and store it as `Source`. -/
def parseModuleLoop (ord : RangeOrder) : List Attribute → Module → Option Module
  | [], module => some module
  | attr :: rest, module =>
    match evaluateExpression ord attr.Expr with
    | none => none
    | some value =>
      if attr.Name = "source" then
        match value with
        | .str s =>
          parseModuleLoop ord rest
            ⟨s, module.Labels, mapSet module.Attributes attr.Name value⟩
        | .map _ => none
      else
        parseModuleLoop ord rest
          ⟨module.Source, module.Labels, mapSet module.Attributes attr.Name value⟩

/-- Go `parseModule`. -/
def parseModule (ord : RangeOrder) (block : Block) : Option Module :=
  parseModuleLoop ord block.Attributes ⟨"", block.Labels, []⟩

/-- Go `parseResourcesFromBlock`.  The Go map `data` is the map stored under
`resource.Attributes[blType]`, so the writes to `data` are writes to that entry. -/
def parseResourcesFromBlock (ord : RangeOrder) (bodyBlock : Block) (resource : Resource) :
    Option Resource :=
  let blType := bodyBlock.Type_
  let attributes : List (String × Value) :=
    match mapGet resource.Attributes blType with
    | some _ => resource.Attributes
    | none => mapSet resource.Attributes blType (.map [])
  match mapGet attributes blType with
  | some (.map data) =>
    match evaluateAttributes ord bodyBlock.Attributes data with
    | some data =>
      some ⟨resource.Type_, resource.Name, resource.Labels, mapSet attributes blType (.map data)⟩
    | none => none
  | _ => none

/-- The loop of `parseResource` over the nested blocks of the body. -/
def parseResourceBlocks (ord : RangeOrder) : List Block → Resource → Option Resource
  | [], resource => some resource
  | bodyBlock :: rest, resource =>
    match parseResourcesFromBlock ord bodyBlock resource with
    | some resource => parseResourceBlocks ord rest resource
    | none => none

/-- Go `parseResource`.  `block.Labels[0]` and `block.Labels[1]` panic when the
block has fewer than two labels. -/
def parseResource (ord : RangeOrder) (block : Block) : Option Resource :=
  match block.Labels with
  | type :: name :: _ =>
    match evaluateAttributes ord block.Attributes [] with
    | some attributes =>
      parseResourceBlocks ord block.Blocks ⟨type, name, block.Labels, attributes⟩
    | none => none
  | _ => none

/-- Go `parseLocals`. -/
def parseLocals (ord : RangeOrder) (block : Block) : Option Local :=
  match evaluateAttributes ord block.Attributes [] with
  | some attributes => some ⟨attributes⟩
  | none => none

/-- The loop of `parseConfig` over the top-level blocks, with the three slices
built so far. -/
def parseConfigLoop (ord : RangeOrder) :
    List Block → List Resource → List Module → List Local → Option Config
  | [], resources, modules, locals => some ⟨resources, modules, [], locals⟩
  | block :: rest, resources, modules, locals =>
    if block.Type_ = "module" then
      match parseModule ord block with
      | some m => parseConfigLoop ord rest resources (modules ++ [m]) locals
      | none => none
    else if block.Type_ = "resource" then
      match parseResource ord block with
      | some r => parseConfigLoop ord rest (resources ++ [r]) modules locals
      | none => none
    else if block.Type_ = "locals" then
      match parseLocals ord block with
      | some l => parseConfigLoop ord rest resources modules (locals ++ [l])
      | none => none
    else parseConfigLoop ord rest resources modules locals

/-- Go `parseConfig`. -/
def parseConfig (ord : RangeOrder) (file : File) : Option Config :=
  parseConfigLoop ord file.Blocks [] [] []

/-- The block `resource "aws_instance" "web" { ami = "abc123" }`. -/
def resourceWeb : Block :=
  .mk "resource" ["aws_instance", "web"] [⟨"ami", quoted "abc123"⟩] []

/-! ## Files and directories -/

/-- Go `strings.Contains`. -/
def stringsContains (s substr : String) : Bool :=
  s.data.tails.any (fun t => substr.data.isPrefixOf t)

/-- Go `filepath.Ext`: the suffix beginning at the final dot in the final
element of the path, empty if there is no dot. -/
def filepathExt (path : String) : String :=
  let tail := path.data.reverse.takeWhile (fun c => c != '/' && c != '.')
  match path.data.reverse.drop tail.length with
  | c :: _ => if c = '.' then String.mk ('.' :: tail.reverse) else ""
  | [] => ""

/-- One call of the callback that `parseDirectory` passes to `filepath.Walk`:
the path, `info.IsDir()`, and whether `err != nil`. -/
structure WalkEntry where
  file : String
  isDir : Bool
  err : Bool

/-- What a run reads from outside the program: for a directory, the calls that
`filepath.Walk` makes to the callback, in order; for a path, whether `os.Stat`
finds it (`!os.IsNotExist(err)`); for a path, the file that
`parser.ParseHCLFile` returns, `none` when `diags.HasErrors()`. -/
structure World where
  walk : String → List WalkEntry
  fileExists : String → Bool
  parseHCLFile : String → Option File

/-- The errors the code builds with `fmt.Errorf`: "failed to load config file",
"error parsing HCL file" and "error walking directory". -/
inductive GoError where
  | failedToLoadConfigFile
  | errorParsingHCLFile
  | errorWalkingDirectory
  deriving DecidableEq

/-- Go `&Config{}`. -/
def emptyConfig : Config :=
  ⟨[], [], [], []⟩

/-- Go `parseHCLFile`: the returned pair `(*Config, error)`, `none` for a
panic. -/
def parseHCLFile (ord : RangeOrder) (w : World) (file : String) :
    Option (Option Config × Option GoError) :=
  if filepathExt file = ".tf" then
    if w.fileExists file then
      match w.parseHCLFile file with
      | none => some (none, some .failedToLoadConfigFile)
      | some f =>
        match parseConfig ord f with
        | some config => some (some config, none)
        | none => none
    else some (some emptyConfig, none)
  else some (some emptyConfig, none)

/-- Go `parseSingleFile`: the accumulator `config` after the call and the
returned error, `none` for a panic. -/
def parseSingleFile (ord : RangeOrder) (w : World) (file : String) (config : Config) :
    Option (Config × Option GoError) :=
  match parseHCLFile ord w file with
  | none => none
  | some (_, some _) => some (config, some .errorParsingHCLFile)
  | some (some parsedConfig, none) =>
    some (⟨config.Resources ++ parsedConfig.Resources, config.Modules ++ parsedConfig.Modules,
      config.Variables, config.Locals ++ parsedConfig.Locals⟩, none)
  | some (none, none) => none

/-- The callback of `parseDirectory` run over the entries that `filepath.Walk`
visits; the walk stops at the first error the callback returns. -/
def parseDirectoryLoop (ord : RangeOrder) (w : World) :
    List WalkEntry → Config → Option (Config × Option GoError)
  | [], config => some (config, none)
  | entry :: rest, config =>
    if entry.err then some (config, some .errorWalkingDirectory)
    else if entry.isDir || stringsContains entry.file ".terraform/"
        || filepathExt entry.file != ".tf" then
      parseDirectoryLoop ord w rest config
    else
      match parseSingleFile ord w entry.file config with
      | none => none
      | some (config, some err) => some (config, some err)
      | some (config, none) => parseDirectoryLoop ord w rest config

/-- Go `parseDirectory`. -/
def parseDirectory (ord : RangeOrder) (w : World) (directory : String) (config : Config) :
    Option (Config × Option GoError) :=
  parseDirectoryLoop ord w (w.walk directory) config

/-- The first loop of `Parse`, over the directories. -/
def parseDirectories (ord : RangeOrder) (w : World) :
    List String → Config → Option (Config × Option GoError)
  | [], config => some (config, none)
  | directory :: rest, config =>
    match parseDirectory ord w directory config with
    | none => none
    | some (config, some err) => some (config, some err)
    | some (config, none) => parseDirectories ord w rest config

/-- The second loop of `Parse`, over the files. -/
def parseFiles (ord : RangeOrder) (w : World) :
    List String → Config → Option (Config × Option GoError)
  | [], config => some (config, none)
  | file :: rest, config =>
    match parseSingleFile ord w file config with
    | none => none
    | some (config, some err) => some (config, some err)
    | some (config, none) => parseFiles ord w rest config

/-- Go `Parse`: the returned pair `(*Config, error)`, `none` for a panic.  An
error in the loop over the directories returns `nil, err`; an error in the loop
over the files returns `config, err`. -/
def Parse (ord : RangeOrder) (w : World) (directories files : List String) :
    Option (Option Config × Option GoError) :=
  match parseDirectories ord w directories emptyConfig with
  | none => none
  | some (_, some err) => some (none, some err)
  | some (config, none) =>
    match parseFiles ord w files config with
    | none => none
    | some (config, some err) => some (some config, some err)
    | some (config, none) => some (some config, none)

/-- The files of a directory that `parseDirectory` parses: the walked entries
that are not directories, have no `.terraform/` in their path and have the
extension `.tf`. -/
def walkedFiles (w : World) (directory : String) : List String :=
  ((w.walk directory).filter (fun entry =>
    !(entry.isDir || stringsContains entry.file ".terraform/"
      || filepathExt entry.file != ".tf"))).map (fun entry => entry.file)

/-- The files of a run in discovery order: the files of the directories, then
the explicit files. -/
def discoveredFiles (w : World) (directories files : List String) : List String :=
  (directories.map (walkedFiles w)).flatten ++ files

/-! ## Inputs and relations used by the statements on blocks -/

/-- The pair `kv` is the name of the attribute `a` with the value its
expression evaluates to. -/
def Evaluated (ord : RangeOrder) (a : Attribute) (kv : String × Value) : Prop :=
  kv.1 = a.Name ∧ evaluateExpression ord a.Expr = some kv.2

/-- The block `resource "a" "b" { x = [{}] }`: two labels, no nested block,
one attribute, a tuple with an object as its element. -/
def resourceTupleObject : Block :=
  .mk "resource" ["a", "b"] [⟨"x", tupleWithObject⟩] []

/-- The block `locals { x = [{}] }`. -/
def localsTupleObject : Block :=
  .mk "locals" [] [⟨"x", tupleWithObject⟩] []

/-- The number literal `1`. -/
def numberOne : Expr :=
  .LiteralValueExpr (.NumberVal ⟨false, ⟨[1], 1⟩⟩)

/-- The block `locals { a = 1 b = "x" }`. -/
def localsAB : Block :=
  .mk "locals" [] [⟨"a", numberOne⟩, ⟨"b", quoted "x"⟩] []

/-! ## Module blocks used by the statements -/

/-- The block `module "net"` with `source = "./modules/net"` and
`cidr = "10.0.0.0/16"`. -/
def moduleNet : Block :=
  .mk "module" ["net"] [⟨"source", quoted "./modules/net"⟩, ⟨"cidr", quoted "10.0.0.0/16"⟩] []

/-- The block `module "m"` with `source = "./m"` and `tags = [{}]`. -/
def moduleTupleObject : Block :=
  .mk "module" ["m"] [⟨"source", quoted "./m"⟩, ⟨"tags", tupleWithObject⟩] []

/-- The block `module "m"` whose `source` is the object `{}`. -/
def moduleSourceObject : Block :=
  .mk "module" ["m"] [⟨"source", .ObjectConsExpr []⟩] []

/-- A world with the single file `m.tf`, which holds the block
`moduleSourceObject`. -/
def worldSourceObject : World :=
  ⟨fun _ => [], fun f => f = "m.tf",
    fun f => if f = "m.tf" then some ⟨[], [moduleSourceObject]⟩ else none⟩

/-- The block `variable "region" { default = "eu" }`. -/
def variableRegion : Block :=
  .mk "variable" ["region"] [⟨"default", quoted "eu"⟩] []

/-- A file with a variable, a module, a resource and a locals block, in this
order. -/
def fileFourBlocks : File :=
  ⟨[], [variableRegion, moduleNet, resourceWeb, localsAB]⟩

/-- A file with the single block `locals { x = [{}] }`. -/
def fileLocalsTupleObject : File :=
  ⟨[], [localsTupleObject]⟩

/-! ## Nested blocks used by the statements -/

/-- The mapping held by an entry of an attribute mapping, empty when the key is
absent. -/
def dataOf : Option Value → List (String × Value)
  | some (.map d) => d
  | _ => []

/-- The attributes of the nested blocks of type `t`, block after block in the
order of the body. -/
def nestedAttributes (block : Block) (t : String) : List Attribute :=
  ((block.Blocks.filter (fun b => b.Type_ = t)).map Block.Attributes).flatten

/-- A resource with the attribute `name = "f"` and three nested blocks:
`environment` with `a = "1"`, `b = "2"`; `timeouts` with `create = "5m"`;
`environment` with `b = "3"`, `c = "4"`. -/
def resourceNested : Block :=
  .mk "resource" ["aws_lambda_function", "f"] [⟨"name", quoted "f"⟩]
    [.mk "environment" [] [⟨"a", quoted "1"⟩, ⟨"b", quoted "2"⟩] [],
      .mk "timeouts" [] [⟨"create", quoted "5m"⟩] [],
      .mk "environment" [] [⟨"b", quoted "3"⟩, ⟨"c", quoted "4"⟩] []]

/-! ## Runs used by the statements -/

/-- Field-wise concatenation of the Resources, Modules and Locals of a sequence
of per-file configurations, after those of `c`; `Variables` is left as it is. -/
def mergeConfigs (c : Config) (ps : List Config) : Config :=
  ⟨c.Resources ++ (ps.map (fun p => p.Resources)).flatten,
    c.Modules ++ (ps.map (fun p => p.Modules)).flatten,
    c.Variables,
    c.Locals ++ (ps.map (fun p => p.Locals)).flatten⟩

/-- The block `resource "aws_db_instance" "db" { engine = "postgres" }`. -/
def resourceDb : Block :=
  .mk "resource" ["aws_db_instance", "db"] [⟨"engine", quoted "postgres"⟩] []

/-- A world with the directory `d`, which holds `d/a.tf` (the resource `web`),
a file under `.terraform/` and a file that is not `.tf`, and with the file
`b.tf` (the resource `db`) outside it. -/
def worldTwoFiles : World :=
  ⟨fun d => if d = "d" then
      [⟨"d", true, false⟩, ⟨"d/.terraform/x.tf", false, false⟩, ⟨"d/a.tf", false, false⟩,
        ⟨"d/readme.md", false, false⟩]
    else [⟨d, false, true⟩],
    fun f => f = "d/a.tf" || f = "b.tf",
    fun f => if f = "d/a.tf" then some ⟨[], [resourceWeb]⟩
      else if f = "b.tf" then some ⟨[], [resourceDb]⟩ else none⟩

/-- A world with the directory `d`, which holds `d/a.tf` (the resource `web`)
and then `d/b.tf`, a file that the HCL parser rejects. -/
def worldBrokenFile : World :=
  ⟨fun d => if d = "d" then
      [⟨"d", true, false⟩, ⟨"d/a.tf", false, false⟩, ⟨"d/b.tf", false, false⟩]
    else [⟨d, false, true⟩],
    fun f => f = "d/a.tf" || f = "d/b.tf",
    fun f => if f = "d/a.tf" then some ⟨[], [resourceWeb]⟩ else none⟩

/-- The Resource extracted from `resourceWeb`. -/
def extractedWeb : Resource :=
  ⟨"aws_instance", "web", ["aws_instance", "web"], [("ami", .str "abc123")]⟩

/-- The Resource extracted from `resourceDb`. -/
def extractedDb : Resource :=
  ⟨"aws_db_instance", "db", ["aws_db_instance", "db"], [("engine", .str "postgres")]⟩

/-- The per-file configurations of `worldTwoFiles`. -/
def configsTwoFiles (f : String) : Config :=
  if f = "d/a.tf" then ⟨[extractedWeb], [], [], []⟩ else ⟨[extractedDb], [], [], []⟩

/-! ## Resources with nested blocks used by the statements -/

/-- The key `k` of the mapping is absent or holds a mapping. -/
def MapOrAbsent (m : List (String × Value)) (k : String) : Prop :=
  mapGet m k = none ∨ ∃ d, mapGet m k = some (.map d)

/-- The block `resource "a" "b"` with the nested block
`environment { x = [{}] }`. -/
def resourceNestedTupleObject : Block :=
  .mk "resource" ["a", "b"] [] [.mk "environment" [] [⟨"x", tupleWithObject⟩] []]

/-- The block `resource "a"`, with one label, and the nested block
`environment { x = "1" }`. -/
def resourceOneLabelNested : Block :=
  .mk "resource" ["a"] [] [.mk "environment" [] [⟨"x", quoted "1"⟩] []]

/-- The block `resource "a" "b"` with the attribute `env = "x"` and the nested
blocks `env { y = "1" }` and `other { z = "2" }`. -/
def resourceClash : Block :=
  .mk "resource" ["a", "b"] [⟨"env", quoted "x"⟩]
    [.mk "env" [] [⟨"y", quoted "1"⟩] [], .mk "other" [] [⟨"z", quoted "2"⟩] []]

/-- The block `resource "a" "b"` with the attribute `env = {a = "1"}` and the
nested blocks `env { b = "2" }` and `other { z = "3" }`. -/
def resourceEnvObject : Block :=
  .mk "resource" ["a", "b"] [⟨"env", .ObjectConsExpr [(keyExpr "a", quoted "1")]⟩]
    [.mk "env" [] [⟨"b", quoted "2"⟩] [], .mk "other" [] [⟨"z", quoted "3"⟩] []]

/-! ## Runs that reach a file -/

/-- The result pair holds an error (`err != nil`). -/
def returnsError (result : Option (Option Config × Option GoError)) : Bool :=
  match result with
  | some (_, some _) => true
  | _ => false

/-- Go `parseHCLFile` returns an error for the file. -/
def fileGivesError (ord : RangeOrder) (w : World) (file : String) : Bool :=
  returnsError (parseHCLFile ord w file)

/-- The callback of `parseDirectory` returns `nil` for the entry without
parsing it: a directory, a path with `.terraform/`, or an extension other than
`.tf`. -/
def entrySkipped (entry : WalkEntry) : Bool :=
  entry.isDir || stringsContains entry.file ".terraform/" || filepathExt entry.file != ".tf"

/-- The callback of `parseDirectory` returns an error for the entry: the walk
hands it an error, or the entry is parsed and `parseHCLFile` returns an
error. -/
def entryGivesError (ord : RangeOrder) (w : World) (entry : WalkEntry) : Bool :=
  entry.err || (!entrySkipped entry && fileGivesError ord w entry.file)

/-- A world with the directory `d`, in which the walk visits `d`, `d/notes.txt`
and `d/m.tf`; the file `d/m.tf` holds the block `moduleSourceObject`. -/
def worldWalkSourceObject : World :=
  ⟨fun dir => if dir = "d" then
      [⟨"d", true, false⟩, ⟨"d/notes.txt", false, false⟩, ⟨"d/m.tf", false, false⟩]
    else [],
    fun f => f = "d/m.tf",
    fun f => if f = "d/m.tf" then some ⟨[], [moduleSourceObject]⟩ else none⟩

/-! ## Theorems -/

/-! ### Iteration order (C1) -/

theorem RangeOrder.valid_id : RangeOrder.Valid id := fun m => List.Perm.refl m

theorem RangeOrder.valid_reverse : RangeOrder.Valid List.reverse := fun m => List.reverse_perm m

theorem RangeOrder.Valid.eq_self {ord : RangeOrder} (h : ord.Valid)
    (m : List (String × Value)) (hm : m.length ≤ 1) : ord m = m := by
  have hp := h m
  match m, hm with
  | [], _ => exact List.perm_nil.mp hp
  | [a], _ => exact List.perm_singleton.mp hp

mutual
theorem evaluateExpression_congr_order (ord1 ord2 : RangeOrder) (h1 : ord1.Valid)
    (h2 : ord2.Valid) :
    ∀ e : Expr, smallMapArgs ord1 e = true →
      evaluateExpression ord1 e = evaluateExpression ord2 e
  | .ScopeTraversalExpr _, _ => rfl
  | .LiteralValueExpr _, _ => rfl
  | .TemplateExpr parts, h => by
    simp only [smallMapArgs] at h
    simp only [evaluateExpression, templateLoop_congr_order ord1 ord2 h1 h2 parts h]
  | .TupleConsExpr exprs, h => by
    simp only [smallMapArgs] at h
    simp only [evaluateExpression, tupleLoop_congr_order ord1 ord2 h1 h2 exprs h]
  | .ObjectConsKeyExpr wrapped, h => by
    simp only [smallMapArgs] at h
    simp only [evaluateExpression, evaluateExpression_congr_order ord1 ord2 h1 h2 wrapped h]
  | .ObjectConsExpr items, h => by
    simp only [smallMapArgs] at h
    simp only [evaluateExpression, objectLoop_congr_order ord1 ord2 h1 h2 items h]
  | .IndexExpr collection _, h => by
    simp only [smallMapArgs] at h
    simp only [evaluateExpression, evaluateExpression_congr_order ord1 ord2 h1 h2 collection h]
  | .FunctionCallExpr name args, h => by
    simp only [smallMapArgs, Bool.and_eq_true] at h
    simp only [evaluateExpression,
      evaluateFunctionExpression_congr_order ord1 ord2 h1 h2 name args h.1 h.2]
  | .OtherExpr _ _, _ => rfl
theorem templateLoop_congr_order (ord1 ord2 : RangeOrder) (h1 : ord1.Valid)
    (h2 : ord2.Valid) :
    ∀ (parts : List Expr), smallMapArgsList ord1 parts = true →
      ∀ acc, templateLoop ord1 parts acc = templateLoop ord2 parts acc
  | [], _, _ => rfl
  | part :: rest, h, acc => by
    simp only [smallMapArgsList, Bool.and_eq_true] at h
    simp only [templateLoop, evaluateExpression_congr_order ord1 ord2 h1 h2 part h.1]
    cases evaluateExpression ord2 part with
    | none => rfl
    | some v =>
      cases v with
      | str s => exact templateLoop_congr_order ord1 ord2 h1 h2 rest h.2 _
      | map m => rfl
theorem tupleLoop_congr_order (ord1 ord2 : RangeOrder) (h1 : ord1.Valid)
    (h2 : ord2.Valid) :
    ∀ (exprs : List Expr), smallMapArgsList ord1 exprs = true →
      ∀ acc, tupleLoop ord1 exprs acc = tupleLoop ord2 exprs acc
  | [], _, _ => rfl
  | elem :: rest, h, acc => by
    simp only [smallMapArgsList, Bool.and_eq_true] at h
    simp only [tupleLoop, evaluateExpression_congr_order ord1 ord2 h1 h2 elem h.1]
    cases evaluateExpression ord2 elem with
    | none => rfl
    | some v =>
      cases v with
      | str s => exact tupleLoop_congr_order ord1 ord2 h1 h2 rest h.2 _
      | map m => rfl
theorem objectLoop_congr_order (ord1 ord2 : RangeOrder) (h1 : ord1.Valid)
    (h2 : ord2.Valid) :
    ∀ (items : List (Expr × Expr)), smallMapArgsItems ord1 items = true →
      ∀ m, objectLoop ord1 items m = objectLoop ord2 items m
  | [], _, _ => rfl
  | (k, v) :: rest, h, m => by
    simp only [smallMapArgsItems, Bool.and_eq_true] at h
    simp only [objectLoop, evaluateExpression_congr_order ord1 ord2 h1 h2 k h.1.1,
      evaluateExpression_congr_order ord1 ord2 h1 h2 v h.1.2]
    cases evaluateExpression ord2 k with
    | none => rfl
    | some kv =>
      cases kv with
      | map _ => rfl
      | str ks =>
        cases evaluateExpression ord2 v with
        | none => rfl
        | some val => exact objectLoop_congr_order ord1 ord2 h1 h2 rest h.2 _
theorem evaluateFunctionExpression_congr_order (ord1 ord2 : RangeOrder) (h1 : ord1.Valid)
    (h2 : ord2.Valid) (name : String) :
    ∀ (args : List Expr), smallMapArgsList ord1 args = true →
      smallMapArgsCall ord1 args = true →
      ∀ acc, evaluateFunctionExpression ord1 name args acc
        = evaluateFunctionExpression ord2 name args acc
  | [], _, _, _ => rfl
  | arg :: rest, h, hc, acc => by
    simp only [smallMapArgsList, Bool.and_eq_true] at h
    simp only [smallMapArgsCall, Bool.and_eq_true] at hc
    have hev := evaluateExpression_congr_order ord1 ord2 h1 h2 arg h.1
    simp only [evaluateFunctionExpression]
    rw [hev] at hc
    rw [hev]
    cases hx : evaluateExpression ord2 arg with
    | none => rfl
    | some v =>
      cases v with
      | str s => exact evaluateFunctionExpression_congr_order ord1 ord2 h1 h2 name rest h.2 hc.2 _
      | map m =>
        rw [hx] at hc
        have hm : m.length ≤ 1 := by simpa using hc.1
        simp only [h1.eq_self m hm, h2.eq_self m hm]
        exact evaluateFunctionExpression_congr_order ord1 ord2 h1 h2 name rest h.2 hc.2 _
end

/-- C1 (as stated, refuted): the call `f({a = "1", b = "2"})` has an argument
that evaluates to a mapping with two entries; under two admissible iteration
orders of the `range` over that mapping, two evaluations of the same node give
different strings. -/
theorem evaluateExpression_not_idempotent_two_entries :
    RangeOrder.Valid id ∧ RangeOrder.Valid List.reverse ∧
    evaluateExpression id callTwoEntries = some (.str "f({a:1b:2})") ∧
    evaluateExpression List.reverse callTwoEntries = some (.str "f({b:2a:1})") ∧
    evaluateExpression id callTwoEntries ≠ evaluateExpression List.reverse callTwoEntries :=
  ⟨RangeOrder.valid_id, RangeOrder.valid_reverse, by decide, by decide, by decide⟩

/-- C1 (amended): for every expression in which no function-call argument
evaluates to a mapping with two or more entries, two evaluations yield identical
results, whatever iteration orders the runtime picks for them. -/
theorem evaluateExpression_idempotent (ord1 ord2 : RangeOrder) (h1 : ord1.Valid)
    (h2 : ord2.Valid) (e : Expr) (h : smallMapArgs ord1 e = true) :
    evaluateExpression ord1 e = evaluateExpression ord2 e :=
  evaluateExpression_congr_order ord1 ord2 h1 h2 e h

/-- Witness for C1 (amended): `f({a = "1"}, "x")` under two iteration orders. -/
theorem evaluateExpression_idempotent_witness :
    smallMapArgs id callOneEntry = true ∧
    evaluateExpression id callOneEntry = evaluateExpression List.reverse callOneEntry :=
  ⟨by decide, evaluateExpression_idempotent id List.reverse RangeOrder.valid_id
    RangeOrder.valid_reverse callOneEntry (by decide)⟩

/-! ### Numbers (C2) -/

theorem digitChar_isDigit (c : Fin 10) : (Nat.digitChar c.val).isDigit = true := by
  revert c; decide

theorem digitChar_toNat (c : Fin 10) : (Nat.digitChar c.val).toNat - 48 = c.val := by
  revert c; decide

theorem digitChar_ne_sign (c : Fin 10) :
    Nat.digitChar c.val ≠ '-' ∧ Nat.digitChar c.val ≠ '+' ∧ Nat.digitChar c.val ≠ '.' ∧
      Nat.digitChar c.val ≠ 'e' ∧ Nat.digitChar c.val ≠ 'E' := by
  revert c; decide

theorem digitsVal_foldl (ds : List Nat) (a : Nat) :
    ds.foldl (fun a d => 10 * a + d) a = a * 10 ^ ds.length + digitsVal ds := by
  induction ds generalizing a with
  | nil => simp [digitsVal]
  | cons d rest ih =>
    simp only [List.foldl_cons, digitsVal, List.length_cons]
    rw [ih, ih (10 * 0 + d)]
    ring

theorem digitsVal_append (a b : List Nat) :
    digitsVal (a ++ b) = digitsVal a * 10 ^ b.length + digitsVal b := by
  simp only [digitsVal, List.foldl_append]
  exact digitsVal_foldl b _

theorem digitsVal_cons (d : Nat) (ds : List Nat) :
    digitsVal (d :: ds) = d * 10 ^ ds.length + digitsVal ds := by
  have := digitsVal_append [d] ds
  simpa [digitsVal] using this

theorem digitsVal_replicate_zero (n : Nat) : digitsVal (List.replicate n 0) = 0 := by
  induction n with
  | zero => rfl
  | succ n ih => rw [List.replicate_succ, digitsVal_cons, ih]; simp

theorem takeDigits_digits_append (ds : List (Fin 10)) (rest : List Char) :
    takeDigits (ds.map (fun c => Nat.digitChar c.val) ++ rest)
      = (ds.map (fun c => c.val) ++ (takeDigits rest).1, (takeDigits rest).2) := by
  induction ds with
  | nil => simp
  | cons d tl ih =>
    have hcons : (d :: tl).map (fun c => Nat.digitChar c.val) ++ rest
        = Nat.digitChar d.val :: (tl.map (fun c => Nat.digitChar c.val) ++ rest) := rfl
    rw [hcons, takeDigits, if_pos (digitChar_isDigit d), ih, digitChar_toNat]
    rfl

theorem takeDigits_digits (ds : List (Fin 10)) :
    takeDigits (ds.map (fun c => Nat.digitChar c.val)) = (ds.map (fun c => c.val), []) := by
  have := takeDigits_digits_append ds []
  simpa [takeDigits] using this

theorem toDigitsCore_digits (fuel : Nat) :
    ∀ (n : Nat) (acc : List Char), n < fuel →
      ∃ ds : List (Fin 10), ds ≠ [] ∧ digitsVal (ds.map (fun c => c.val)) = n ∧
        Nat.toDigitsCore 10 fuel n acc = ds.map (fun c => Nat.digitChar c.val) ++ acc := by
  induction fuel with
  | zero => intro n acc h; omega
  | succ fuel ih =>
    intro n acc h
    simp only [Nat.toDigitsCore]
    by_cases h0 : n / 10 = 0
    · refine ⟨[⟨n % 10, Nat.mod_lt _ (by decide)⟩], by simp, ?_, by simp [h0]⟩
      have : n < 10 := by omega
      simp [digitsVal, Nat.mod_eq_of_lt this]
    · have hlt : n / 10 < fuel := by omega
      obtain ⟨ds, hne, hval, heq⟩ := ih (n / 10) (Nat.digitChar (n % 10) :: acc) hlt
      refine ⟨ds ++ [⟨n % 10, Nat.mod_lt _ (by decide)⟩], by simp, ?_, ?_⟩
      · rw [List.map_append, digitsVal_append, hval]
        simp [digitsVal]
        omega
      · simp [h0, heq]

theorem toDigits_digits (n : Nat) :
    ∃ ds : List (Fin 10), ds ≠ [] ∧ digitsVal (ds.map (fun c => c.val)) = n ∧
      Nat.toDigits 10 n = ds.map (fun c => Nat.digitChar c.val) := by
  obtain ⟨ds, hne, hval, heq⟩ := toDigitsCore_digits (n + 1) n [] (Nat.lt_succ_self n)
  exact ⟨ds, hne, hval, by simpa [Nat.toDigits] using heq⟩


theorem takeDigits_expoChars (ex : Option (Bool × List (Fin 10))) :
    takeDigits (expoChars ex) = ([], expoChars ex) := by
  rcases ex with _ | ⟨n, e⟩
  · rfl
  · simp [expoChars, takeDigits, Char.isDigit]

theorem parseFraction_expoChars (ex : Option (Bool × List (Fin 10))) :
    parseFraction (expoChars ex) = ([], expoChars ex) := by
  rcases ex with _ | ⟨n, e⟩
  · rfl
  · simp [expoChars, parseFraction]

theorem parseExponent_expoChars (ex : Option (Bool × List (Fin 10)))
    (h : ∀ n e, ex = some (n, e) → e ≠ []) :
    parseExponent (expoChars ex) = some (expoVal ex, []) := by
  rcases ex with _ | ⟨n, e⟩
  · rfl
  · have he : e ≠ [] := h n e rfl
    cases n
    · simp [expoChars, parseExponent, parseSign, takeDigits_digits, expoVal, he]
    · simp [expoChars, parseExponent, parseSign, takeDigits_digits, expoVal, he]

theorem takeDigits_fracChars (fr : Option (List (Fin 10))) (ex : Option (Bool × List (Fin 10))) :
    takeDigits (fracChars fr ++ expoChars ex) = ([], fracChars fr ++ expoChars ex) := by
  rcases fr with _ | f
  · simpa [fracChars] using takeDigits_expoChars ex
  · simp [fracChars, takeDigits, Char.isDigit]

theorem parseFraction_fracChars (fr : Option (List (Fin 10)))
    (ex : Option (Bool × List (Fin 10))) :
    parseFraction (fracChars fr ++ expoChars ex)
      = ((fracDigits fr).map (fun c => c.val), expoChars ex) := by
  rcases fr with _ | f
  · simpa [fracChars, fracDigits] using parseFraction_expoChars ex
  · simp [fracChars, fracDigits, parseFraction, takeDigits_digits_append, takeDigits_expoChars]

theorem parseSign_chars (r : Rendered) (hint : r.int ≠ []) :
    parseSign r.chars = (r.neg,
      r.int.map (fun c => Nat.digitChar c.val) ++ (fracChars r.frac ++ expoChars r.expo)) := by
  obtain ⟨neg, int, fr, ex⟩ := r
  cases int with
  | nil => exact absurd rfl hint
  | cons c tl =>
    cases neg
    · have := digitChar_ne_sign c
      simp [Rendered.chars, parseSign, this.1, this.2.1]
    · simp [Rendered.chars, parseSign]

theorem parseDecimalChars_chars (r : Rendered) (hint : r.int ≠ [])
    (hexp : ∀ n e, r.expo = some (n, e) → e ≠ []) :
    parseDecimalChars r.chars = some r.value := by
  have hne : r.int.map (fun c => c.val) ≠ [] := by simpa using hint
  simp only [parseDecimalChars, parseSign_chars r hint, takeDigits_digits_append,
    takeDigits_fracChars, parseFraction_fracChars, parseExponent_expoChars r.expo hexp,
    List.append_nil, Rendered.value]
  simp [hne]


/-! ### The formatter on at most ten digits -/

theorem Decimal.round_of_length_le (d : Decimal) (n : Int) (h : (d.mant.length : Int) ≤ n) :
    d.round n = d := by
  simp [Decimal.round, h]

theorem Decimal.at_of_lt (d : Decimal) (i : Nat) (h : i < d.mant.length) :
    d.at (i : Int) = Nat.digitChar (d.mant[i]).val := by
  have h' : ((i : Int) < (d.mant.length : Int)) := by exact_mod_cast h
  simp [Decimal.at, h', List.getElem?_eq_getElem h]

theorem Decimal.at_of_neg (d : Decimal) (i : Int) (h : i < 0) : d.at i = '0' := by
  have : ¬ (0 ≤ i) := by omega
  simp [Decimal.at, this]

theorem range_map_at_drop (d : Decimal) (k n : Nat) (h : k + n = d.mant.length) :
    (List.range n).map (fun i : Nat => d.at ((k : Int) + (i : Int)))
      = (d.mant.drop k).map (fun c => Nat.digitChar c.val) := by
  apply List.ext_getElem
  · simp; omega
  · intro i h1 h2
    simp only [List.length_map, List.length_range] at h1
    have hlt : k + i < d.mant.length := by omega
    have hcast : ((k : Int) + (i : Int)) = ((k + i : Nat) : Int) := by push_cast; rfl
    simp only [List.getElem_map, List.getElem_range, hcast, Decimal.at_of_lt d (k + i) hlt,
      List.getElem_drop]

theorem range_map_at_neg (d : Decimal) (k n : Nat) (h : n = k + d.mant.length) :
    (List.range n).map (fun i : Nat => d.at (-(k : Int) + (i : Int)))
      = List.replicate k '0' ++ d.mant.map (fun c => Nat.digitChar c.val) := by
  subst h
  rw [List.range_add, List.map_append, List.map_map]
  congr 1
  · apply List.ext_getElem
    · simp
    · intro i h1 h2
      simp only [List.length_map, List.length_range] at h1
      simp only [List.getElem_map, List.getElem_range, List.getElem_replicate]
      exact Decimal.at_of_neg d _ (by omega)
  · have h0 := range_map_at_drop d 0 d.mant.length (by simp)
    simp only [List.drop_zero] at h0
    rw [← h0]
    apply List.map_congr_left
    intro i _
    simp only [Function.comp]
    congr 1
    push_cast
    omega


theorem fmtE_nil (d : Decimal) (hm : d.mant = []) : fmtE (-1) d = ['0', 'e', '+', '0', '0'] := by
  simp [fmtE, hm]
  rfl

theorem fmtE_cons (d : Decimal) (c : Fin 10) (tl : List (Fin 10)) (hm : d.mant = c :: tl) :
    fmtE (tl.length : Int) d
      = Nat.digitChar c.val :: (fracChars (if tl = [] then none else some tl)
          ++ 'e' :: (if d.exp - 1 < 0 then '-' else '+')
            :: ((if (d.exp - 1).natAbs < 10 then ['0'] else []) ++ Nat.toDigits 10 (d.exp - 1).natAbs)) := by
  cases tl with
  | nil => simp [fmtE, hm, fracChars]
  | cons t tl' =>
    have h1 : (0 : Int) < ((t :: tl').length : Int) := by simp
    have h2 : min (c :: t :: tl').length (((t :: tl').length : Int) + 1).toNat
        = (c :: t :: tl').length := by
      simp
      omega
    simp only [fmtE, hm, h1, if_true, h2]
    simp [fracChars]

theorem fmtF_int_only (d : Decimal) (k : Nat) (prec : Int) (hp : prec ≤ 0)
    (hE : d.exp = ((d.mant.length + k : Nat) : Int)) (hpos : 0 < d.mant.length + k) :
    fmtF prec d = d.mant.map (fun c => Nat.digitChar c.val) ++ List.replicate k '0' := by
  have h0 : (0 : Int) < ((d.mant.length + k : Nat) : Int) := by exact_mod_cast hpos
  have hnp : ¬ (0 < prec) := by omega
  simp only [fmtF, hE, h0, if_true, hnp, if_false, List.append_nil, Int.toNat_ofNat]
  simp

theorem fmtF_int_frac (d : Decimal) (k : Nat) (hk : 0 < k) (hlt : k < d.mant.length)
    (hE : d.exp = (k : Int)) :
    fmtF ((d.mant.length : Int) - (k : Int)) d
      = (d.mant.take k).map (fun c => Nat.digitChar c.val)
          ++ '.' :: (d.mant.drop k).map (fun c => Nat.digitChar c.val) := by
  have h0 : (0 : Int) < (k : Int) := by exact_mod_cast hk
  have hp : (0 : Int) < (d.mant.length : Int) - (k : Int) := by omega
  have hn : ((d.mant.length : Int) - (k : Int)).toNat = d.mant.length - k := by omega
  have hmin : min d.mant.length k = k := by omega
  simp only [fmtF, hE, h0, if_true, hp, Int.toNat_ofNat, hmin, Nat.sub_self, List.replicate_zero,
    List.append_nil, hn, range_map_at_drop d k (d.mant.length - k) (by omega)]

theorem fmtF_zero_frac (d : Decimal) (k : Nat) (hE : d.exp = -(k : Int))
    (hpos : 0 < d.mant.length + k) :
    fmtF ((d.mant.length : Int) + (k : Int)) d
      = '0' :: '.' :: (List.replicate k '0' ++ d.mant.map (fun c => Nat.digitChar c.val)) := by
  have h0 : ¬ ((0 : Int) < -(k : Int)) := by omega
  have hp : (0 : Int) < (d.mant.length : Int) + (k : Int) := by omega
  have hn : ((d.mant.length : Int) + (k : Int)).toNat = d.mant.length + k := by omega
  simp only [fmtF, hE, h0, if_false, hp, if_true, hn,
    range_map_at_neg d k (d.mant.length + k) (by omega)]
  rfl

theorem fmtF_zero (d : Decimal) (prec : Int) (hp : prec ≤ 0) (hE : d.exp ≤ 0) :
    fmtF prec d = ['0'] := by
  have h0 : ¬ ((0 : Int) < d.exp) := by omega
  have hnp : ¬ (0 < prec) := by omega
  simp [fmtF, h0, hnp]


theorem textG_ten (neg : Bool) (mant : List (Fin 10)) (E : Int)
    (h : (mant.length : Int) ≤ 10) :
    BigFloat.textG ⟨neg, ⟨mant, E⟩⟩ 10 =
      if E - 1 < -4 ∨ E - 1 ≥ (if (10 : Int) > mant.length ∧ (mant.length : Int) ≥ E
          then (mant.length : Int) else 10) then
        (if neg then ['-'] else []) ++ fmtE ((mant.length : Int) - 1) ⟨mant, E⟩
      else
        (if neg then ['-'] else [])
          ++ fmtF (max ((if (10 : Int) > E then (mant.length : Int) else 10) - E) 0) ⟨mant, E⟩ := by
  have hround : (Decimal.mk mant E).round 10 = ⟨mant, E⟩ := Decimal.round_of_length_le _ _ h
  have hprec : (if mant.length < 10 then (mant.length : Int) else 10) = (mant.length : Int) := by
    split_ifs <;> omega
  simp [BigFloat.textG, hround, hprec]

theorem precF_eq (L E : Int) (hL : L ≤ 10) (hE : E ≤ 10) :
    max ((if (10 : Int) > E then L else 10) - E) 0 = max (L - E) 0 := by
  by_cases h10 : (10 : Int) > E
  · rw [if_pos h10]
  · rw [if_neg h10]
    have hE10 : E = 10 := by omega
    subst hE10
    omega

theorem digitsVal_zeros (k : Nat) :
    digitsVal ((List.replicate k (0 : Fin 10)).map (fun c => c.val)) = 0 := by
  simp [digitsVal_replicate_zero]

theorem digitChar_zero : Nat.digitChar 0 = '0' := rfl

theorem fracDigits_ite (tl : List (Fin 10)) :
    fracDigits (if tl = [] then none else some tl) = tl := by
  cases tl <;> rfl

theorem value_eq (neg : Bool) (mant : List (Fin 10)) (E : Int) :
    BigFloat.value ⟨neg, ⟨mant, E⟩⟩
      = (if neg then -1 else 1) * (digitsVal (mant.map (fun c => c.val)) : ℚ)
          * (10 : ℚ) ^ (E - (mant.length : Int)) := by
  cases neg <;> simp [BigFloat.value, Decimal.value]

theorem value_congr (s : ℚ) (a b : Nat) (x y : Int) (hab : a = b) (hxy : x = y) :
    s * (a : ℚ) * (10 : ℚ) ^ x = s * (b : ℚ) * (10 : ℚ) ^ y := by
  rw [hab, hxy]

theorem value_shift (s : ℚ) (a v k : Nat) (x y : Int) (hab : a = v * 10 ^ k) (hx : x = 0)
    (hy : y = (k : Int)) :
    s * (a : ℚ) * (10 : ℚ) ^ x = s * (v : ℚ) * (10 : ℚ) ^ y := by
  rw [hab, hx, hy, zpow_natCast]
  push_cast
  ring

theorem textG_rendered (x : BigFloat) (h : x.dec.mant.length ≤ 10) :
    ∃ r : Rendered, x.textG 10 = r.chars ∧ r.int ≠ [] ∧
      (∀ n e, r.expo = some (n, e) → e ≠ []) ∧ r.value = x.value := by
  obtain ⟨neg, ⟨mant, E⟩⟩ := x
  simp only at h
  have hL : (mant.length : Int) ≤ 10 := by exact_mod_cast h
  rw [value_eq]
  by_cases hcond : E - 1 < -4 ∨ E - 1 ≥ (if (10 : Int) > mant.length ∧ (mant.length : Int) ≥ E
          then (mant.length : Int) else 10)
  · -- the `%e` form
    rw [textG_ten neg mant E hL, if_pos hcond]
    cases mant with
    | nil =>
      refine ⟨⟨neg, [0], none, some (false, [0, 0])⟩, ?_, by simp, ?_, ?_⟩
      · simp only [List.length_nil, Nat.cast_zero, zero_sub, fmtE_nil ⟨[], E⟩ rfl]
        rfl
      · intro n e he
        simp only [Option.some.injEq, Prod.mk.injEq] at he
        rw [← he.2]
        simp
      · simp [Rendered.value, fracDigits, expoVal, digitsVal]
    | cons c tl =>
      obtain ⟨ds, hne, hval, hds⟩ := toDigits_digits (E - 1).natAbs
      refine ⟨⟨neg, [c], if tl = [] then none else some tl,
        some (decide (E - 1 < 0), (if (E - 1).natAbs < 10 then [0] else []) ++ ds)⟩,
        ?_, by simp, ?_, ?_⟩
      · have hlen : (((c :: tl).length : Int)) - 1 = (tl.length : Int) := by
          simp
        rw [hlen, fmtE_cons ⟨c :: tl, E⟩ c tl rfl, hds]
        simp only [Rendered.chars, expoChars, List.map_cons, List.map_nil, List.map_append,
          List.cons_append, List.nil_append, decide_eq_true_eq, List.singleton_append]
        congr 5
        split_ifs <;> rfl
      · intro n e he
        simp only [Option.some.injEq, Prod.mk.injEq] at he
        rw [← he.2]
        simp [hne]
      · have hexp : expoVal (some (decide (E - 1 < 0),
            (if (E - 1).natAbs < 10 then [0] else []) ++ ds)) = E - 1 := by
          have hpad : digitsVal (((if (E - 1).natAbs < 10 then [(0 : Fin 10)] else []) ++ ds).map
              (fun c => c.val)) = (E - 1).natAbs := by
            rw [List.map_append, digitsVal_append, hval]
            split_ifs <;> simp [digitsVal]
          simp only [expoVal, hpad, decide_eq_true_eq]
          split_ifs <;> omega
        simp only [Rendered.value, fracDigits_ite, hexp]
        refine value_congr _ _ _ _ _ rfl ?_
        push_cast [List.length_cons]
        ring
  · -- the `%f` form
    rw [textG_ten neg mant E hL, if_neg hcond]
    have hE3 : -3 ≤ E := by
      by_contra hc
      exact hcond (Or.inl (by omega))
    have hE10 : E ≤ 10 := by
      by_contra hc
      apply hcond
      right
      by_cases hi : (10 : Int) > mant.length ∧ (mant.length : Int) ≥ E
      · rw [if_pos hi]; omega
      · rw [if_neg hi]; omega
    rw [precF_eq _ E hL hE10]
    by_cases hpos : 0 < E
    · by_cases hle : (mant.length : Int) ≤ E
      · -- all digits before the point
        obtain ⟨k, hk⟩ : ∃ k : Nat, E = ((mant.length + k : Nat) : Int) :=
          ⟨(E - mant.length).toNat, by push_cast; omega⟩
        have hp : max ((mant.length : Int) - E) 0 ≤ 0 := by omega
        have hlenpos : 0 < mant.length + k := by omega
        refine ⟨⟨neg, mant ++ List.replicate k 0, none, none⟩, ?_, ?_, by simp, ?_⟩
        · rw [fmtF_int_only ⟨mant, E⟩ k _ hp hk hlenpos]
          simp [Rendered.chars, fracChars, expoChars, digitChar_zero]
        · intro hnil
          have := congrArg List.length hnil
          rw [List.length_append, List.length_replicate, List.length_nil] at this
          omega
        · simp only [Rendered.value, fracDigits, expoVal, List.map_nil, List.append_nil,
            List.length_nil]
          refine value_shift _ _ _ k _ _ ?_ (by simp) (by rw [hk]; push_cast; ring)
          rw [List.map_append, digitsVal_append, digitsVal_zeros]
          simp
      · -- a point inside the digits
        obtain ⟨k, hk⟩ : ∃ k : Nat, E = (k : Int) := ⟨E.toNat, by omega⟩
        have hk0 : 0 < k := by omega
        have hklt : k < mant.length := by omega
        have hp : max ((mant.length : Int) - E) 0 = (mant.length : Int) - (k : Int) := by omega
        refine ⟨⟨neg, mant.take k, some (mant.drop k), none⟩, ?_, ?_, by simp, ?_⟩
        · rw [hp, fmtF_int_frac ⟨mant, E⟩ k hk0 hklt hk]
          simp [Rendered.chars, fracChars, expoChars, digitChar_zero]
        · intro hnil
          have := congrArg List.length hnil
          rw [List.length_take, List.length_nil] at this
          omega
        · simp only [Rendered.value, fracDigits, expoVal]
          refine value_congr _ _ _ _ _ ?_ ?_
          · rw [← List.map_append, List.take_append_drop]
          · rw [List.length_drop, hk]
            omega
    · -- no digit before the point
      obtain ⟨k, hk⟩ : ∃ k : Nat, E = -(k : Int) := ⟨(-E).toNat, by omega⟩
      by_cases hzero : mant.length + k = 0
      · have hm : mant = [] := List.length_eq_zero.mp (by omega)
        have hk0 : k = 0 := by omega
        subst hm
        subst hk0
        have hE0 : E = 0 := by simpa using hk
        subst hE0
        have hp : max ((([] : List (Fin 10)).length : Int) - 0) 0 ≤ 0 := by
          simp
        refine ⟨⟨neg, [0], none, none⟩, ?_, by simp, by simp, ?_⟩
        · rw [fmtF_zero ⟨[], 0⟩ _ hp (by simp)]
          rfl
        · simp [Rendered.value, fracDigits, expoVal, digitsVal]
      · have hp : max ((mant.length : Int) - E) 0 = (mant.length : Int) + (k : Int) := by omega
        refine ⟨⟨neg, [0], some (List.replicate k 0 ++ mant), none⟩, ?_, by simp, by simp, ?_⟩
        · rw [hp, fmtF_zero_frac ⟨mant, E⟩ k hk (show 0 < mant.length + k by omega)]
          simp [Rendered.chars, fracChars, expoChars, digitChar_zero]
        · simp only [Rendered.value, fracDigits, expoVal]
          refine value_congr _ _ _ _ _ ?_ ?_
          · rw [List.map_cons, List.map_nil, List.singleton_append, digitsVal_cons,
              List.map_append, digitsVal_append, digitsVal_zeros]
            simp
          · rw [List.length_append, List.length_replicate, hk]
            push_cast
            ring

/-- The text of a number with at most ten significant digits parses back to
the number. -/
theorem parseDecimal_toText (x : BigFloat) (h : x.dec.mant.length ≤ 10) :
    parseDecimal x.toText = some x.value := by
  obtain ⟨r, htext, hint, hexp, hval⟩ := textG_rendered x h
  simp only [parseDecimal, BigFloat.toText, htext]
  rw [parseDecimalChars_chars r hint hexp, hval]


/-- C2 (as stated, refuted): the integer 12345678901 has eleven significant
digits; its text is `1.23456789e+10`, which parses back to 12345678900. -/
theorem convertValueToString_number_loses_digits :
    convertValueToString (.NumberVal elevenDigits) = "1.23456789e+10" ∧
    parseDecimal "1.23456789e+10" = some 12345678900 ∧
    elevenDigits.value = 12345678901 ∧
    parseDecimal (convertValueToString (.NumberVal elevenDigits)) ≠ some elevenDigits.value := by
  have h1 : convertValueToString (.NumberVal elevenDigits) = "1.23456789e+10" := by decide
  have h2 : parseDecimal "1.23456789e+10" = some 12345678900 := by
    simp [parseDecimal, parseDecimalChars, parseSign, takeDigits, parseFraction, parseExponent,
      digitsVal]
    norm_num
  have h3 : elevenDigits.value = 12345678901 := by
    have hv : digitsVal (elevenDigits.dec.mant.map (fun c => c.val)) = 12345678901 := by decide
    have hl : elevenDigits.dec.exp - (elevenDigits.dec.mant.length : Int) = 0 := by decide
    have hn : elevenDigits.neg = false := rfl
    simp [BigFloat.value, Decimal.value, hv, hl, hn]
  refine ⟨h1, h2, h3, ?_⟩
  rw [h1, h2, h3]
  norm_num

set_option maxRecDepth 100000 in
/-- The literal `0.1` is not a value with at most ten digits: its 512-bit
value has 515 digits, its text is `0.1`, and the decimal 0.1 is a different
number. -/
theorem convertValueToString_tenth_literal :
    tenthLiteral.dec.mant.length = 515 ∧
    convertValueToString (.NumberVal tenthLiteral) = "0.1" ∧
    parseDecimal "0.1" = some (1 / 10) ∧
    tenthLiteral.value ≠ 1 / 10 := by
  have h2 : parseDecimal "0.1" = some (1 / 10) := by
    simp [parseDecimal, parseDecimalChars, parseSign, takeDigits, parseFraction, parseExponent,
      digitsVal]
  refine ⟨by decide, by decide, h2, ?_⟩
  have hv : digitsVal (tenthLiteral.dec.mant.map (fun c => c.val))
      = 10000000000000000000000000000000000000000000000000000000000000000000000000000000000000000000000000000000000000000000000000000000000000000000000000000000000186458518280005168582274132886573345934411788365010172356787958330156959626752957623404372260010695084037790081395902536335318202380632566512154120739802117287031519807969534437380101856660881573536163859126597869135355431514712678000792170575080568557439092481633755383430151458412915716150090323185838796174216433162475203832997294739470817148685455322265625 := by
    decide
  have hl : tenthLiteral.dec.exp - (tenthLiteral.dec.mant.length : Int) = -515 := by decide
  have hn : tenthLiteral.neg = false := rfl
  simp only [BigFloat.value, Decimal.value, hv, hl, hn]
  norm_num

/-! ### The formatter on more than ten digits -/

theorem Decimal.roundUp_length_le (d : Decimal) (n : Nat) (hn : 1 ≤ n) :
    (d.roundUp n).mant.length ≤ n := by
  have hkept : ((d.mant.take n).rdropWhile (fun c => 9 ≤ c.val)).length ≤ n :=
    le_trans (List.IsPrefix.length_le (List.rdropWhile_prefix _ _)) (List.length_take_le _ _)
  unfold Decimal.roundUp
  cases hlast : ((d.mant.take n).rdropWhile (fun c => 9 ≤ c.val)).getLast? with
  | none =>
    simp only [hlast]
    simpa using hn
  | some c =>
    obtain ⟨ys, hys⟩ := List.getLast?_eq_some_iff.mp hlast
    simp only [hlast]
    rw [hys] at hkept ⊢
    simpa using hkept

theorem Decimal.roundDown_length_le (d : Decimal) (n : Nat) :
    (d.roundDown n).mant.length ≤ n := by
  have hkept : ((d.mant.take n).rdropWhile (fun c => c = 0)).length ≤ n :=
    le_trans (List.IsPrefix.length_le (List.rdropWhile_prefix _ _)) (List.length_take_le _ _)
  unfold Decimal.roundDown Decimal.trim
  simp only
  split_ifs
  · simp
  · exact hkept

theorem Decimal.round_ten_length_le (d : Decimal) : (d.round 10).mant.length ≤ 10 := by
  unfold Decimal.round
  by_cases h : (10 : Int) < 0 ∨ (d.mant.length : Int) ≤ 10
  · rw [if_pos h]
    rcases h with h | h
    · omega
    · exact_mod_cast h
  · rw [if_neg h]
    split_ifs
    · exact Decimal.roundUp_length_le d _ (by decide)
    · exact Decimal.roundDown_length_le d _

/-- The text of a number is the text of the number rounded to ten digits. -/
theorem textG_round (neg : Bool) (d : Decimal) :
    BigFloat.textG ⟨neg, d⟩ 10 = BigFloat.textG ⟨neg, d.round 10⟩ 10 := by
  have hlen : ((d.round 10).mant.length : Int) ≤ 10 := by
    exact_mod_cast Decimal.round_ten_length_le d
  simp [BigFloat.textG, Decimal.round_of_length_le (d.round 10) 10 hlen]

/-- The text of a number parses back to the number rounded to ten digits. -/
theorem parseDecimal_toText_round (x : BigFloat) :
    parseDecimal x.toText = some (BigFloat.value ⟨x.neg, x.dec.round 10⟩) := by
  have h := parseDecimal_toText ⟨x.neg, x.dec.round 10⟩ (Decimal.round_ten_length_le x.dec)
  obtain ⟨neg, d⟩ := x
  simp only [BigFloat.toText] at h ⊢
  rw [textG_round neg d]
  exact h

theorem digitsVal_concat_mod (ds : List (Fin 10)) (c : Fin 10) :
    digitsVal ((ds ++ [c]).map (fun c => c.val)) % 10 = c.val := by
  rw [List.map_append, digitsVal_append]
  simp only [List.map_cons, List.map_nil, List.length_singleton, pow_one, digitsVal,
    List.foldl_cons, List.foldl_nil]
  omega

theorem Decimal.roundUp_exp_ge (d : Decimal) (n : Nat) : d.exp ≤ (d.roundUp n).exp := by
  unfold Decimal.roundUp
  cases h : ((d.mant.take n).rdropWhile (fun c => 9 ≤ c.val)).getLast? with
  | none => simp only [h]; omega
  | some c => simp only [h]; exact le_rfl

theorem Decimal.roundDown_exp (d : Decimal) (n : Nat) :
    (d.roundDown n).mant = [] ∨ (d.roundDown n).exp = d.exp := by
  unfold Decimal.roundDown Decimal.trim
  simp only
  split_ifs
  · exact Or.inl rfl
  · exact Or.inr rfl

theorem Decimal.round_ten_exp (d : Decimal) :
    (d.round 10).mant = [] ∨ d.exp ≤ (d.round 10).exp := by
  unfold Decimal.round
  split_ifs
  · exact Or.inr le_rfl
  · exact Or.inr (Decimal.roundUp_exp_ge d _)
  · rcases Decimal.roundDown_exp d (10 : Int).toNat with h | h
    · exact Or.inl h
    · exact Or.inr (le_of_eq h.symm)

/-- A decimal with more than ten digits, the last of them not zero, differs
from its rounding to ten digits. -/
theorem Decimal.round_ten_value_ne (d : Decimal) (ds : List (Fin 10)) (c : Fin 10)
    (hmant : d.mant = ds ++ [c]) (hc : c ≠ 0) (hlen : 10 < d.mant.length) :
    (d.round 10).value ≠ d.value := by
  have hN : digitsVal (d.mant.map (fun c => c.val)) % 10 ≠ 0 := by
    rw [hmant, digitsVal_concat_mod]
    exact fun h => hc (Fin.ext h)
  have hL := Decimal.round_ten_length_le d
  intro heq
  unfold Decimal.value at heq
  rcases Decimal.round_ten_exp d with hnil | hexp
  · rw [hnil] at heq
    simp only [List.map_nil, digitsVal, List.foldl_nil, Nat.cast_zero, zero_mul] at heq
    have h10 : (10 : ℚ) ^ (d.exp - (d.mant.length : Int)) ≠ 0 := zpow_ne_zero _ (by norm_num)
    have hzero : (digitsVal (d.mant.map (fun c => c.val)) : ℚ) = 0 := by
      rcases mul_eq_zero.mp heq.symm with h | h
      · exact h
      · exact absurd h h10
    have hzero' : digitsVal (d.mant.map (fun c => c.val)) = 0 := by exact_mod_cast hzero
    rw [hzero'] at hN
    exact hN rfl
  · obtain ⟨j, hj⟩ : ∃ j : Nat, (d.round 10).exp - ((d.round 10).mant.length : Int)
        = (d.exp - (d.mant.length : Int)) + ((j + 1 : Nat) : Int) := by
      refine ⟨((d.round 10).exp - ((d.round 10).mant.length : Int)
        - (d.exp - (d.mant.length : Int)) - 1).toNat, ?_⟩
      have h1 : ((d.round 10).mant.length : Int) ≤ 10 := by exact_mod_cast hL
      have h2 : (10 : Int) < (d.mant.length : Int) := by exact_mod_cast hlen
      push_cast
      rw [Int.toNat_of_nonneg (by omega)]
      ring
    have h10 : (10 : ℚ) ^ (d.exp - (d.mant.length : Int)) ≠ 0 := zpow_ne_zero _ (by norm_num)
    rw [hj, zpow_add₀ (by norm_num : (10 : ℚ) ≠ 0), zpow_natCast] at heq
    have hq : (digitsVal ((d.round 10).mant.map (fun c => c.val)) : ℚ) * (10 : ℚ) ^ (j + 1)
        = (digitsVal (d.mant.map (fun c => c.val)) : ℚ) := by
      apply mul_right_cancel₀ h10
      rw [← heq]
      ring
    have hnat : digitsVal ((d.round 10).mant.map (fun c => c.val)) * 10 ^ (j + 1)
        = digitsVal (d.mant.map (fun c => c.val)) := by exact_mod_cast hq
    rw [← hnat, pow_succ, ← mul_assoc, Nat.mul_mod_left] at hN
    exact hN rfl

/-- C2 (amended): for every literal numeric value `n`, the string produced by
`convertValueToString`, which is what `evaluateExpression` returns for the
literal, parses back as a decimal to `n` rounded to ten significant decimal
digits (`decimal.round` of `math/big`: to nearest, a tie to even).  It parses
back to exactly `n` when the exact decimal expansion of `n` has at most ten
significant digits (an integer of at most ten digits, a fraction such as
0.375), and it does not parse back to `n` when the expansion has more than ten
digits, the last of them not zero. -/
theorem convertValueToString_number_roundtrip (ord : RangeOrder) (n : BigFloat) :
    evaluateExpression ord (.LiteralValueExpr (.NumberVal n))
      = some (.str (convertValueToString (.NumberVal n))) ∧
    parseDecimal (convertValueToString (.NumberVal n))
      = some (BigFloat.value ⟨n.neg, n.dec.round 10⟩) ∧
    (n.dec.mant.length ≤ 10 →
      parseDecimal (convertValueToString (.NumberVal n)) = some n.value) ∧
    (10 < n.dec.mant.length → n.dec.mant.getLast? ≠ some 0 →
      parseDecimal (convertValueToString (.NumberVal n)) ≠ some n.value) := by
  refine ⟨by simp only [evaluateExpression], parseDecimal_toText_round n, parseDecimal_toText n,
    ?_⟩
  intro hlen hlast heq
  have hround : parseDecimal (convertValueToString (.NumberVal n))
      = some (BigFloat.value ⟨n.neg, n.dec.round 10⟩) := parseDecimal_toText_round n
  rw [hround] at heq
  have hval := Option.some.inj heq
  cases hl : n.dec.mant.getLast? with
  | none =>
    have : n.dec.mant = [] := List.getLast?_eq_none_iff.mp hl
    rw [this] at hlen
    simp at hlen
  | some c =>
    obtain ⟨ds, hds⟩ := List.getLast?_eq_some_iff.mp hl
    have hc : c ≠ 0 := by
      intro h0
      rw [hl, h0] at hlast
      exact hlast rfl
    have hne := Decimal.round_ten_value_ne n.dec ds c hds hc hlen
    apply hne
    unfold BigFloat.value at hval
    simp only at hval
    split_ifs at hval
    · exact neg_injective hval
    · exact hval

set_option maxRecDepth 100000 in
/-- Witness for C2 (amended): the integer 1234567891, with text `1234567891`,
and the fraction 0.375, with text `0.375`, parse back to themselves; the
integer 12345678901 and the value of the literal `0.1`, with 515 digits, do
not. -/
theorem convertValueToString_number_roundtrip_witness :
    convertValueToString (.NumberVal tenDigits) = "1234567891" ∧
    parseDecimal (convertValueToString (.NumberVal tenDigits)) = some tenDigits.value ∧
    convertValueToString (.NumberVal threeEighths) = "0.375" ∧
    parseDecimal (convertValueToString (.NumberVal threeEighths)) = some threeEighths.value ∧
    parseDecimal (convertValueToString (.NumberVal elevenDigits)) ≠ some elevenDigits.value ∧
    convertValueToString (.NumberVal tenthLiteral) = "0.1" ∧
    parseDecimal (convertValueToString (.NumberVal tenthLiteral)) ≠ some tenthLiteral.value :=
  ⟨by decide, (convertValueToString_number_roundtrip id tenDigits).2.2.1 (by decide),
    by decide, (convertValueToString_number_roundtrip id threeEighths).2.2.1 (by decide),
    (convertValueToString_number_roundtrip id elevenDigits).2.2.2 (by decide) (by decide),
    by decide,
    (convertValueToString_number_roundtrip id tenthLiteral).2.2.2 (by decide) (by decide)⟩

/-! ### Go maps as association lists -/

theorem mapGet_mapSet {β : Type} (m : List (String × β)) (k k' : String) (v : β) :
    mapGet (mapSet m k v) k' = if k = k' then some v else mapGet m k' := by
  induction m with
  | nil => simp [mapSet, mapGet]
  | cons p rest ih =>
    obtain ⟨a, b⟩ := p
    by_cases hak : a = k
    · subst hak
      by_cases hak' : a = k' <;> simp [mapSet, mapGet, hak']
    · by_cases hak' : a = k'
      · subst hak'
        have : ¬ k = a := fun h => hak h.symm
        simp [mapSet, mapGet, hak, this]
      · simp [mapSet, mapGet, hak, hak', ih]

theorem mem_keys_mapSet {β : Type} (m : List (String × β)) (k k' : String) (v : β) :
    k' ∈ (mapSet m k v).map Prod.fst ↔ k' = k ∨ k' ∈ m.map Prod.fst := by
  induction m with
  | nil => simp [mapSet]
  | cons p rest ih =>
    obtain ⟨a, b⟩ := p
    by_cases hak : a = k
    · subst hak
      simp [mapSet]
    · simp only [mapSet, hak, if_false, List.map_cons, List.mem_cons, ih]
      tauto

theorem nodup_keys_mapSet {β : Type} (m : List (String × β)) (k : String) (v : β)
    (h : (m.map Prod.fst).Nodup) : ((mapSet m k v).map Prod.fst).Nodup := by
  induction m with
  | nil => simp [mapSet]
  | cons p rest ih =>
    obtain ⟨a, b⟩ := p
    simp only [List.map_cons, List.nodup_cons] at h
    by_cases hak : a = k
    · subst hak
      simpa [mapSet] using h
    · have hmem : a ∉ (mapSet rest k v).map Prod.fst := by
        rw [mem_keys_mapSet]
        rintro (hc | hc)
        · exact hak hc
        · exact h.1 hc
      simp only [mapSet, hak, if_false, List.map_cons, List.nodup_cons]
      exact ⟨hmem, ih h.2⟩

theorem nodup_keys_foldl_mapSet {β : Type} (kvs : List (String × β)) :
    ∀ m0 : List (String × β), (m0.map Prod.fst).Nodup →
      ((kvs.foldl (fun acc kv => mapSet acc kv.1 kv.2) m0).map Prod.fst).Nodup := by
  induction kvs with
  | nil => intro m0 h; simpa using h
  | cons kv rest ih =>
    intro m0 h
    simp only [List.foldl_cons]
    exact ih _ (nodup_keys_mapSet m0 kv.1 kv.2 h)

theorem mem_keys_foldl_mapSet {β : Type} (kvs : List (String × β)) :
    ∀ (m0 : List (String × β)) (k : String),
      k ∈ (kvs.foldl (fun acc kv => mapSet acc kv.1 kv.2) m0).map Prod.fst ↔
        k ∈ kvs.map Prod.fst ∨ k ∈ m0.map Prod.fst := by
  induction kvs with
  | nil => intro m0 k; simp
  | cons kv rest ih =>
    intro m0 k
    simp only [List.foldl_cons, ih, mem_keys_mapSet, List.map_cons, List.mem_cons]
    tauto

theorem mapGet_foldl_mapSet {β : Type} (kvs : List (String × β)) (k : String) :
    mapGet (kvs.foldl (fun acc kv => mapSet acc kv.1 kv.2) []) k = mapGet kvs.reverse k := by
  induction kvs using List.reverseRecOn with
  | nil => rfl
  | append_singleton rest kv ih =>
    obtain ⟨a, b⟩ := kv
    simp only [List.foldl_append, List.foldl_cons, List.foldl_nil, mapGet_mapSet,
      List.reverse_append, List.reverse_cons, List.reverse_nil, List.nil_append,
      List.singleton_append, mapGet, ih]

theorem mapGet_of_mem_nodup {β : Type} (l : List (String × β)) (h : (l.map Prod.fst).Nodup)
    (kv : String × β) (hkv : kv ∈ l) : mapGet l kv.1 = some kv.2 := by
  induction l with
  | nil => cases hkv
  | cons p rest ih =>
    obtain ⟨a, b⟩ := p
    simp only [List.map_cons, List.nodup_cons] at h
    rcases List.mem_cons.mp hkv with heq | hmem
    · subst heq
      simp [mapGet]
    · have hne : ¬ a = kv.1 := by
        intro hc
        exact h.1 (hc ▸ List.mem_map_of_mem Prod.fst hmem)
      simp [mapGet, hne, ih h.2 hmem]

theorem length_foldl_mapSet {β : Type} (kvs : List (String × β)) :
    (kvs.foldl (fun acc kv => mapSet acc kv.1 kv.2) []).length
      = (kvs.map Prod.fst).dedup.length := by
  have hnd := nodup_keys_foldl_mapSet kvs [] (by simp)
  have hperm : ((kvs.foldl (fun acc kv => mapSet acc kv.1 kv.2) []).map Prod.fst).Perm
      (kvs.map Prod.fst).dedup := by
    rw [List.perm_ext_iff_of_nodup hnd (List.nodup_dedup _)]
    intro k
    rw [mem_keys_foldl_mapSet, List.mem_dedup]
    simp
  simpa using hperm.length_eq

/-! ### Object construction (C3) -/

theorem objectLoop_eq_some (ord : RangeOrder) :
    ∀ (items : List (Expr × Expr)) (m0 m : List (String × Value)),
      objectLoop ord items m0 = some m →
      ∃ kvs : List (String × Value),
        List.Forall₂ (fun item kv => evaluateExpression ord item.1 = some (.str kv.1) ∧
          evaluateExpression ord item.2 = some kv.2) items kvs ∧
        m = kvs.foldl (fun acc kv => mapSet acc kv.1 kv.2) m0
  | [], m0, m, h => by
    simp only [objectLoop, Option.some.injEq] at h
    exact ⟨[], List.Forall₂.nil, h.symm⟩
  | (ke, ve) :: rest, m0, m, h => by
    simp only [objectLoop] at h
    cases hk : evaluateExpression ord ke with
    | none => simp [hk] at h
    | some kv =>
      cases kv with
      | map _ => simp [hk] at h
      | str k =>
        cases hv : evaluateExpression ord ve with
        | none => simp [hk, hv] at h
        | some v =>
          simp only [hk, hv] at h
          obtain ⟨kvs, hf, hm⟩ := objectLoop_eq_some ord rest _ m h
          exact ⟨(k, v) :: kvs, List.Forall₂.cons ⟨hk, hv⟩ hf, by simpa using hm⟩

/-- C3 (as stated, refuted): the object `{a = "1", a = "2"}` has two items, and
its evaluation is a mapping with the single entry `a ↦ "2"`. -/
theorem evaluateExpression_object_dup_key_one_entry :
    evaluateExpression id objectDupKey = some (.map [("a", .str "2")]) ∧
    evaluateExpression id (keyExpr "a") = some (.str "a") ∧
    evaluateExpression id (quoted "1") = some (.str "1") ∧
    ([("a", Value.str "2")].length = 1 ∧ [(keyExpr "a", quoted "1"), (keyExpr "a", quoted "2")].length = 2) ∧
    mapGet [("a", Value.str "2")] "a" ≠ some (.str "1") := by
  refine ⟨by decide, by decide, by decide, ⟨rfl, rfl⟩, by decide⟩

/-- C3 (amended): when the evaluation of an object construction succeeds, the
result is a mapping with exactly one entry per distinct evaluated key: its keys
are pairwise different, their number is the number of distinct key strings of
the items, and each key maps to the evaluation of the value expression of the
last item with that key.  When the items' keys are pairwise different, the
number of entries is the number of items and each item's key maps to the
evaluation of that item's value expression. -/
theorem evaluateExpression_object_entries (ord : RangeOrder) (items : List (Expr × Expr))
    (r : Value) (h : evaluateExpression ord (.ObjectConsExpr items) = some r) :
    ∃ (kvs m : List (String × Value)),
      r = .map m ∧
      List.Forall₂ (fun item kv => evaluateExpression ord item.1 = some (.str kv.1) ∧
        evaluateExpression ord item.2 = some kv.2) items kvs ∧
      (m.map Prod.fst).Nodup ∧
      m.length = (kvs.map Prod.fst).dedup.length ∧
      (∀ k, mapGet m k = mapGet kvs.reverse k) ∧
      ((kvs.map Prod.fst).Nodup →
        m.length = items.length ∧ ∀ kv ∈ kvs, mapGet m kv.1 = some kv.2) := by
  simp only [evaluateExpression, Option.map_eq_some'] at h
  obtain ⟨m, hm, hr⟩ := h
  obtain ⟨kvs, hf, hfold⟩ := objectLoop_eq_some ord items [] m hm
  subst hfold
  refine ⟨kvs, _, hr.symm, hf, nodup_keys_foldl_mapSet kvs [] (by simp),
    length_foldl_mapSet kvs, mapGet_foldl_mapSet kvs, ?_⟩
  intro hnd
  refine ⟨?_, ?_⟩
  · rw [length_foldl_mapSet, List.Nodup.dedup hnd, List.length_map, hf.length_eq]
  · intro kv hkv
    rw [mapGet_foldl_mapSet]
    refine mapGet_of_mem_nodup kvs.reverse ?_ kv (List.mem_reverse.mpr hkv)
    rw [List.map_reverse]
    exact List.nodup_reverse.mpr hnd

/-- Witness for C3 (amended): the object `{a = "1", b = "2"}`. -/
theorem evaluateExpression_object_entries_witness :
    evaluateExpression id objectTwoKeys = some (.map [("a", .str "1"), ("b", .str "2")]) ∧
    ∃ (kvs m : List (String × Value)),
      Value.map [("a", .str "1"), ("b", .str "2")] = .map m ∧
      List.Forall₂ (fun item kv => evaluateExpression id item.1 = some (.str kv.1) ∧
        evaluateExpression id item.2 = some kv.2)
        [(keyExpr "a", quoted "1"), (keyExpr "b", quoted "2")] kvs ∧
      (m.map Prod.fst).Nodup ∧
      m.length = (kvs.map Prod.fst).dedup.length ∧
      (∀ k, mapGet m k = mapGet kvs.reverse k) ∧
      ((kvs.map Prod.fst).Nodup →
        m.length = [(keyExpr "a", quoted "1"), (keyExpr "b", quoted "2")].length ∧
          ∀ kv ∈ kvs, mapGet m kv.1 = some kv.2) :=
  ⟨by decide, evaluateExpression_object_entries id
    [(keyExpr "a", quoted "1"), (keyExpr "b", quoted "2")]
    (.map [("a", .str "1"), ("b", .str "2")]) (by decide)⟩

/-! ### Result kinds (C4) -/

/-- C4: when the evaluation of `e` succeeds, the result is a mapping if and only
if the top-level node of `e` is an object construction; for every other node
kind the result is a string. -/
theorem evaluateExpression_map_iff_object (ord : RangeOrder) (e : Expr) (r : Value)
    (h : evaluateExpression ord e = some r) :
    ((∃ m, r = .map m) ↔ ∃ items, e = .ObjectConsExpr items) ∧
    ((¬ ∃ items, e = .ObjectConsExpr items) → ∃ s, r = .str s) := by
  cases e with
  | ObjectConsExpr items =>
    simp only [evaluateExpression, Option.map_eq_some'] at h
    obtain ⟨m, _, hr⟩ := h
    exact ⟨⟨fun _ => ⟨items, rfl⟩, fun _ => ⟨m, hr.symm⟩⟩, fun hn => absurd ⟨items, rfl⟩ hn⟩
  | ScopeTraversalExpr t =>
    simp only [evaluateExpression, Option.some.injEq] at h
    subst h
    simp
  | LiteralValueExpr v =>
    simp only [evaluateExpression, Option.some.injEq] at h
    subst h
    simp
  | TemplateExpr parts =>
    simp only [evaluateExpression, Option.map_eq_some'] at h
    obtain ⟨s, _, hr⟩ := h
    subst hr
    simp
  | TupleConsExpr exprs =>
    simp only [evaluateExpression, Option.map_eq_some'] at h
    obtain ⟨s, _, hr⟩ := h
    subst hr
    simp
  | ObjectConsKeyExpr w =>
    simp only [evaluateExpression] at h
    split at h
    · simp only [Option.some.injEq] at h
      subst h
      simp
    · cases h
  | IndexExpr c k =>
    simp only [evaluateExpression] at h
    split at h
    · simp only [Option.some.injEq] at h
      subst h
      simp
    · cases h
  | FunctionCallExpr name args =>
    simp only [evaluateExpression, Option.map_eq_some'] at h
    obtain ⟨s, _, hr⟩ := h
    subst hr
    simp
  | OtherExpr kind children =>
    simp only [evaluateExpression, Option.some.injEq] at h
    subst h
    simp

/-- Witness for C4: the object `{a = "1", b = "2"}` evaluates to a mapping. -/
theorem evaluateExpression_map_iff_object_witness :
    ((∃ m, Value.map [("a", .str "1"), ("b", .str "2")] = .map m) ↔
      ∃ items, objectTwoKeys = .ObjectConsExpr items) ∧
    ((¬ ∃ items, objectTwoKeys = .ObjectConsExpr items) →
      ∃ s, Value.map [("a", .str "1"), ("b", .str "2")] = .str s) :=
  evaluateExpression_map_iff_object id objectTwoKeys _ (by decide)

/-! ### Strings -/

theorem join_cons (s : String) (ss : List String) : String.join (s :: ss) = s ++ String.join ss := by
  apply String.ext
  simp

theorem join_nil : String.join [] = "" := rfl

theorem join_append_singleton (ss : List String) (s : String) :
    String.join (ss ++ [s]) = String.join ss ++ s := by
  apply String.ext
  simp

/-! ### Function calls (C5) -/

theorem renderValues_strings (kvs : List (String × String)) (values : String) :
    renderValues (kvs.map (fun kv => (kv.1, Value.str kv.2))) values
      = values ++ String.join (kvs.map (fun kv => kv.1 ++ ":" ++ kv.2)) := by
  induction kvs generalizing values with
  | nil => simp [renderValues, join_nil]
  | cons kv rest ih =>
    simp only [List.map_cons, renderValues, ih, join_cons, String.append_assoc]

theorem evaluateFunctionExpression_eq (ord : RangeOrder) (name : String) :
    ∀ (args : List Expr) (cs : List String), List.Forall₂ (ArgText ord) args cs →
      ∀ acc : String, evaluateFunctionExpression ord name args acc
        = some (name ++ "(" ++ (acc ++ String.join cs) ++ ")")
  | [], _, h, acc => by
    cases h
    simp [evaluateFunctionExpression, join_nil]
  | arg :: rest, _, h, acc => by
    cases h with
    | cons hc hrest =>
      rename_i c cs
      rcases hc with hs | ⟨m, kvs, hm, hord, hc⟩
      · simp only [evaluateFunctionExpression, hs,
          evaluateFunctionExpression_eq ord name rest cs hrest, join_cons, String.append_assoc]
      · simp only [evaluateFunctionExpression, hm, hord, renderValues_strings,
          evaluateFunctionExpression_eq ord name rest cs hrest, join_cons, String.append_assoc,
          hc, String.empty_append]

/-- C5: a function call whose arguments evaluate to strings `s1..sn` evaluates
to `f ++ "(" ++ s1 ++ ... ++ sn ++ ")"`, nothing between the arguments; an
argument that evaluates to a mapping with string values contributes, in place
of a string, `"{"`, then `k ++ ":" ++ v` for each entry the `range` visits,
nothing between the pairs, then `"}"`. -/
theorem evaluateExpression_functionCall (ord : RangeOrder) (name : String)
    (args : List Expr) (cs : List String) (h : List.Forall₂ (ArgText ord) args cs) :
    evaluateExpression ord (.FunctionCallExpr name args)
      = some (.str (name ++ "(" ++ String.join cs ++ ")")) := by
  simp only [evaluateExpression, evaluateFunctionExpression_eq ord name args cs h,
    String.empty_append, Option.map_some']

/-- Witness for C5: `f({a = "1"}, "x")` evaluates to `f({a:1}x)`. -/
theorem evaluateExpression_functionCall_witness :
    evaluateExpression id callOneEntry = some (.str ("f" ++ "(" ++ String.join ["{a:1}", "x"] ++ ")")) :=
  evaluateExpression_functionCall id "f" [.ObjectConsExpr [(keyExpr "a", quoted "1")], quoted "x"]
    ["{a:1}", "x"]
    (List.Forall₂.cons (Or.inr ⟨[("a", .str "1")], [("a", "1")], by decide, by decide, by decide⟩)
      (List.Forall₂.cons (Or.inl (by decide)) List.Forall₂.nil))

/-! ### Tuples and templates (C6, C7) -/

theorem tupleLoop_eq (ord : RangeOrder) :
    ∀ (exprs : List Expr) (ss : List String),
      List.Forall₂ (fun e s => evaluateExpression ord e = some (.str s)) exprs ss →
      ∀ acc : String, tupleLoop ord exprs acc
        = some (acc ++ String.join (ss.map (fun s => s ++ ",")))
  | [], _, h, acc => by
    cases h
    simp [tupleLoop, join_nil]
  | e :: rest, _, h, acc => by
    cases h with
    | cons hs hrest =>
      rename_i s ss
      simp only [tupleLoop, hs, tupleLoop_eq ord rest ss hrest, List.map_cons, join_cons,
        String.append_assoc]

theorem templateLoop_eq (ord : RangeOrder) :
    ∀ (parts : List Expr) (ps : List String),
      List.Forall₂ (fun e s => evaluateExpression ord e = some (.str s)) parts ps →
      ∀ acc : String, templateLoop ord parts acc = some (acc ++ String.join ps)
  | [], _, h, acc => by
    cases h
    simp [templateLoop, join_nil]
  | e :: rest, _, h, acc => by
    cases h with
    | cons hs hrest =>
      rename_i s ss
      simp only [templateLoop, hs, templateLoop_eq ord rest ss hrest, join_cons,
        String.append_assoc]

/-- C6: a tuple whose elements evaluate to strings `s1..sn` evaluates to
`s1 ++ "," ++ ... ++ sn ++ ","`, every element followed by a comma: the empty
tuple gives the empty string and a non-empty tuple's result ends with a
comma. -/
theorem evaluateExpression_tuple (ord : RangeOrder) (exprs : List Expr) (ss : List String)
    (h : List.Forall₂ (fun e s => evaluateExpression ord e = some (.str s)) exprs ss) :
    evaluateExpression ord (.TupleConsExpr exprs)
        = some (.str (String.join (ss.map (fun s => s ++ ",")))) ∧
    (exprs = [] → evaluateExpression ord (.TupleConsExpr exprs) = some (.str "")) ∧
    (exprs ≠ [] → ∃ t, evaluateExpression ord (.TupleConsExpr exprs) = some (.str (t ++ ","))) := by
  have hmain : evaluateExpression ord (.TupleConsExpr exprs)
      = some (.str (String.join (ss.map (fun s => s ++ ",")))) := by
    simp only [evaluateExpression, tupleLoop_eq ord exprs ss h, String.empty_append,
      Option.map_some']
  refine ⟨hmain, ?_, ?_⟩
  · intro he
    subst he
    cases h
    simpa [join_nil] using hmain
  · intro he
    rw [hmain]
    rcases List.eq_nil_or_concat ss with hnil | ⟨init, last, hss⟩
    · subst hnil
      cases h
      exact absurd rfl he
    · subst hss
      refine ⟨String.join (init.map (fun s => s ++ ",")) ++ last, ?_⟩
      simp only [List.concat_eq_append, List.map_append, List.map_cons, List.map_nil,
        join_append_singleton, String.append_assoc]

/-- Witness for C6: the tuple `["a", "b"]` evaluates to `a,b,`. -/
theorem evaluateExpression_tuple_witness :
    evaluateExpression id (.TupleConsExpr [quoted "a", quoted "b"])
        = some (.str (String.join (["a", "b"].map (fun s => s ++ ",")))) ∧
    ([quoted "a", quoted "b"] = [] →
      evaluateExpression id (.TupleConsExpr [quoted "a", quoted "b"]) = some (.str "")) ∧
    ([quoted "a", quoted "b"] ≠ [] →
      ∃ t, evaluateExpression id (.TupleConsExpr [quoted "a", quoted "b"]) = some (.str (t ++ ","))) :=
  evaluateExpression_tuple id [quoted "a", quoted "b"] ["a", "b"]
    (List.Forall₂.cons (by decide) (List.Forall₂.cons (by decide) List.Forall₂.nil))

/-- C7: a template whose parts evaluate to strings `p1..pn` evaluates to
`p1 ++ p2 ++ ... ++ pn`, in the order of the parts, nothing in between. -/
theorem evaluateExpression_template (ord : RangeOrder) (parts : List Expr) (ps : List String)
    (h : List.Forall₂ (fun e s => evaluateExpression ord e = some (.str s)) parts ps) :
    evaluateExpression ord (.TemplateExpr parts) = some (.str (String.join ps)) := by
  simp only [evaluateExpression, templateLoop_eq ord parts ps h, String.empty_append,
    Option.map_some']

/-- Witness for C7: the template `"x-${var.k}"` evaluates to `x-var.k`. -/
theorem evaluateExpression_template_witness :
    evaluateExpression id (.TemplateExpr [.LiteralValueExpr (.StringVal "x-"), varK])
      = some (.str (String.join ["x-", "var.k"])) :=
  evaluateExpression_template id [.LiteralValueExpr (.StringVal "x-"), varK] ["x-", "var.k"]
    (List.Forall₂.cons (by decide) (List.Forall₂.cons (by decide) List.Forall₂.nil))

/-! ### Index access (C8) -/

/-- C8 (as stated, refuted): for the collection `{}` the index expression
`{}[var.k]` fails (the type assertion to string panics), while `{}` alone
evaluates to the empty mapping. -/
theorem evaluateExpression_index_object_fails :
    evaluateExpression id (.IndexExpr (.ObjectConsExpr []) varK) = none ∧
    evaluateExpression id (.ObjectConsExpr []) = some (.map []) ∧
    evaluateExpression id (.IndexExpr (.ObjectConsExpr []) varK)
      ≠ evaluateExpression id (.ObjectConsExpr []) :=
  ⟨by decide, by decide, by decide⟩

/-- C8 (amended): the index expressions `c[k1]` and `c[k2]` give the same
result; when `c` evaluates to a string, that result is the evaluation of `c`
alone; when `c` evaluates to a mapping or fails, the index expression fails. -/
theorem evaluateExpression_index (ord : RangeOrder) (c k1 k2 : Expr) :
    evaluateExpression ord (.IndexExpr c k1) = evaluateExpression ord (.IndexExpr c k2) ∧
    (∀ s, evaluateExpression ord c = some (.str s) →
      evaluateExpression ord (.IndexExpr c k1) = evaluateExpression ord c) ∧
    (∀ m, evaluateExpression ord c = some (.map m) →
      evaluateExpression ord (.IndexExpr c k1) = none) ∧
    (evaluateExpression ord c = none → evaluateExpression ord (.IndexExpr c k1) = none) := by
  refine ⟨by simp only [evaluateExpression], ?_, ?_, ?_⟩
  · intro s hs
    simp only [evaluateExpression, hs]
  · intro m hm
    simp only [evaluateExpression, hm]
  · intro hn
    simp only [evaluateExpression, hn]

/-- Witness for C8 (amended): `var.k["a"]` and `var.k[var.k]`. -/
theorem evaluateExpression_index_witness :
    evaluateExpression id (.IndexExpr varK (quoted "a"))
      = evaluateExpression id (.IndexExpr varK varK) ∧
    evaluateExpression id (.IndexExpr varK (quoted "a")) = evaluateExpression id varK ∧
    evaluateExpression id (.IndexExpr objectTwoKeys (quoted "a")) = none :=
  ⟨(evaluateExpression_index id varK (quoted "a") varK).1,
    (evaluateExpression_index id varK (quoted "a") varK).2.1 "var.k" (by decide),
    (evaluateExpression_index id objectTwoKeys (quoted "a") varK).2.2.1
      [("a", .str "1"), ("b", .str "2")] (by decide)⟩

/-! ### Traversals (C9) -/

theorem buildVarExpressionsLoop_eq (traversal : List Traverser) (varExp : List String) :
    buildVarExpressionsLoop traversal varExp = varExp ++ traversal.filterMap stepName := by
  induction traversal generalizing varExp with
  | nil => simp [buildVarExpressionsLoop]
  | cons v rest ih =>
    cases v with
    | TraverseRoot name =>
      by_cases hn : name = "" <;>
        simp [buildVarExpressionsLoop, stepName, hn, ih, List.filterMap_cons]
    | TraverseAttr name =>
      by_cases hn : name = "" <;>
        simp [buildVarExpressionsLoop, stepName, hn, ih, List.filterMap_cons]
    | TraverseIndex key => simp [buildVarExpressionsLoop, stepName, ih, List.filterMap_cons]
    | TraverseSplat => simp [buildVarExpressionsLoop, stepName, ih, List.filterMap_cons]

theorem filterMap_stepName_of_named (traversal : List Traverser) (names : List String)
    (h : List.Forall₂ (fun v n => n ≠ "" ∧ (v = .TraverseRoot n ∨ v = .TraverseAttr n))
      traversal names) :
    traversal.filterMap stepName = names := by
  induction h with
  | nil => rfl
  | cons hv _ ih =>
    obtain ⟨hne, hv | hv⟩ := hv <;> subst hv <;> simp [List.filterMap_cons, stepName, hne, ih]

theorem intercalate_go_data (acc s : String) (l : List String) :
    (String.intercalate.go acc s l).data
      = acc.data ++ (l.map (fun a => s.data ++ a.data)).flatten := by
  induction l generalizing acc with
  | nil => simp [String.intercalate.go]
  | cons a rest ih => simp [String.intercalate.go, ih, List.append_assoc]

theorem intercalate_length (s : String) (l : List String) :
    (s.intercalate l).length = (l.map String.length).sum + (l.length - 1) * s.length := by
  cases l with
  | nil =>
    have h0 : s.intercalate [] = "" := rfl
    rw [h0]
    simp
  | cons a rest =>
    have hgo : ∀ (r : List String),
        ((r.map (fun x => s.data ++ x.data)).flatten).length
          = (r.map String.length).sum + r.length * s.length := by
      intro r
      induction r with
      | nil => simp
      | cons x r ih =>
        simp only [List.map_cons, List.flatten_cons, List.length_append, ih, List.sum_cons,
          List.length_cons, String.length]
        ring
    simp only [String.intercalate, String.length, intercalate_go_data, List.length_append, hgo,
      List.map_cons, List.sum_cons, List.length_cons, Nat.add_sub_cancel]
    ring

theorem intercalate_count (s : String) (c : Char) (l : List String)
    (h : ∀ n ∈ l, c ∉ n.data) :
    (s.intercalate l).data.count c = (l.length - 1) * s.data.count c := by
  cases l with
  | nil => simp [String.intercalate]
  | cons a rest =>
    have hgo : ∀ (r : List String), (∀ n ∈ r, c ∉ n.data) →
        ((r.map (fun x => s.data ++ x.data)).flatten).count c = r.length * s.data.count c := by
      intro r hr
      induction r with
      | nil => simp
      | cons x r ih =>
        have hx : x.data.count c = 0 := List.count_eq_zero.mpr (hr x (List.mem_cons_self _ _))
        simp only [List.map_cons, List.flatten_cons, List.count_append, hx,
          ih (fun n hn => hr n (List.mem_cons_of_mem _ hn)), List.length_cons]
        ring
    have ha : a.data.count c = 0 := List.count_eq_zero.mpr (h a (List.mem_cons_self _ _))
    simp only [String.intercalate, intercalate_go_data, List.count_append, ha,
      hgo rest (fun n hn => h n (List.mem_cons_of_mem _ hn)), List.length_cons,
      Nat.add_sub_cancel, Nat.zero_add]

/-- C9: `buildVarExpressions` returns the names of the root and attribute steps
that have a non-empty name, joined with `"."`, in their original order, with
repetitions kept; unnamed steps and steps of other kinds contribute nothing.
For a traversal of `N` steps that are all named root or attribute steps, the
result is the join of the `N` names in order: its length is the total length of
the names plus `N - 1` inserted separators, and when no name contains a dot
(names are identifiers) it has exactly `N - 1` characters `'.'`. -/
theorem buildVarExpressions_spec (traversal : List Traverser) :
    buildVarExpressions traversal = ".".intercalate (traversal.filterMap stepName) ∧
    (∀ v ∈ traversal, (∃ key, v = .TraverseIndex key) ∨ v = .TraverseSplat ∨
        v = .TraverseRoot "" ∨ v = .TraverseAttr "" → stepName v = none) ∧
    (∀ names : List String,
      List.Forall₂ (fun v n => n ≠ "" ∧ (v = .TraverseRoot n ∨ v = .TraverseAttr n))
        traversal names →
      buildVarExpressions traversal = ".".intercalate names ∧
      (buildVarExpressions traversal).length
        = (names.map String.length).sum + (traversal.length - 1) ∧
      ((∀ n ∈ names, '.' ∉ n.data) →
        (buildVarExpressions traversal).data.count '.' = traversal.length - 1)) := by
  have hmain : buildVarExpressions traversal
      = ".".intercalate (traversal.filterMap stepName) := by
    simp only [buildVarExpressions, buildVarExpressionsLoop_eq, List.nil_append]
  refine ⟨hmain, ?_, ?_⟩
  · rintro v _ (⟨key, rfl⟩ | rfl | rfl | rfl) <;> simp [stepName]
  · intro names hnames
    have hfm := filterMap_stepName_of_named traversal names hnames
    have hlen := hnames.length_eq
    rw [hmain, hfm]
    refine ⟨rfl, ?_, ?_⟩
    · rw [intercalate_length, hlen]
      simp [String.length]
    · intro hdots
      rw [intercalate_count "." '.' names hdots, hlen]
      simp

/-- Witness for C9: the traversal `aws_instance.foo[0].id` resolves to
`aws_instance.foo.id`. -/
theorem buildVarExpressions_spec_witness :
    buildVarExpressions [.TraverseRoot "aws_instance", .TraverseAttr "foo",
      .TraverseIndex (.StringVal "0"), .TraverseAttr "id"] = "aws_instance.foo.id" ∧
    buildVarExpressions [.TraverseRoot "a", .TraverseAttr "b", .TraverseAttr "a"] = "a.b.a" ∧
    (buildVarExpressions [.TraverseRoot "a", .TraverseAttr "b", .TraverseAttr "a"]).length
      = ((["a", "b", "a"]).map String.length).sum + (3 - 1) ∧
    (buildVarExpressions [.TraverseRoot "a", .TraverseAttr "b", .TraverseAttr "a"]).data.count '.'
      = 3 - 1 :=
  have h := (buildVarExpressions_spec
    [.TraverseRoot "a", .TraverseAttr "b", .TraverseAttr "a"]).2.2 ["a", "b", "a"]
    (List.Forall₂.cons ⟨by decide, Or.inl rfl⟩ (List.Forall₂.cons ⟨by decide, Or.inr rfl⟩
      (List.Forall₂.cons ⟨by decide, Or.inr rfl⟩ List.Forall₂.nil)))
  ⟨by decide, h.1, h.2.1, h.2.2 (by decide)⟩

/-! ### Strings and booleans (C10) -/

/-- C10: `convertValueToString` returns the content of a string scalar
unchanged, `"true"` for the boolean true and `"false"` for the boolean false. -/
theorem convertValueToString_string_bool :
    (∀ s : String, convertValueToString (.StringVal s) = s) ∧
    convertValueToString (.BoolVal true) = "true" ∧
    convertValueToString (.BoolVal false) = "false" ∧
    (∀ b : Bool, convertValueToString (.BoolVal b) = if b then "true" else "false") :=
  ⟨fun _ => rfl, rfl, rfl, fun _ => rfl⟩

/-! ### Unsupported kinds (C11) -/

/-- C11: a literal whose value kind is not number, string or boolean is
formatted as the empty string, and `evaluateExpression` returns the empty
string, without failing, for such a literal and for every node of a kind
outside the type switch. -/
theorem evaluateExpression_unsupported (ord : RangeOrder) :
    (∀ typeName : String, convertValueToString (.OtherVal typeName) = "") ∧
    (∀ typeName : String,
      evaluateExpression ord (.LiteralValueExpr (.OtherVal typeName)) = some (.str "")) ∧
    (∀ (kind : String) (children : List Expr),
      evaluateExpression ord (.OtherExpr kind children) = some (.str "")) :=
  ⟨fun _ => rfl, fun _ => rfl, fun _ _ => rfl⟩

/-! ### The failing type assertions (C20) -/

theorem evaluateExpression_isObject (ord : RangeOrder) (e : Expr) (v : Value)
    (h : evaluateExpression ord e = some v) : isObject e = true ↔ ∃ m, v = .map m := by
  cases e with
  | ObjectConsExpr items =>
    simp only [evaluateExpression, Option.map_eq_some'] at h
    obtain ⟨m, _, hr⟩ := h
    simp [isObject, ← hr]
  | ScopeTraversalExpr t =>
    simp only [evaluateExpression, Option.some.injEq] at h
    simp [isObject, ← h]
  | LiteralValueExpr val =>
    simp only [evaluateExpression, Option.some.injEq] at h
    simp [isObject, ← h]
  | TemplateExpr parts =>
    simp only [evaluateExpression, Option.map_eq_some'] at h
    obtain ⟨s, _, hr⟩ := h
    simp [isObject, ← hr]
  | TupleConsExpr exprs =>
    simp only [evaluateExpression, Option.map_eq_some'] at h
    obtain ⟨s, _, hr⟩ := h
    simp [isObject, ← hr]
  | ObjectConsKeyExpr w =>
    simp only [evaluateExpression] at h
    split at h
    · simp only [Option.some.injEq] at h
      simp [isObject, ← h]
    · cases h
  | IndexExpr c k =>
    simp only [evaluateExpression] at h
    split at h
    · simp only [Option.some.injEq] at h
      simp [isObject, ← h]
    · cases h
  | FunctionCallExpr name args =>
    simp only [evaluateExpression, Option.map_eq_some'] at h
    obtain ⟨s, _, hr⟩ := h
    simp [isObject, ← hr]
  | OtherExpr kind children =>
    simp only [evaluateExpression, Option.some.injEq] at h
    simp [isObject, ← h]

theorem isObject_of_map (ord : RangeOrder) (e : Expr) (m : List (String × Value))
    (h : evaluateExpression ord e = some (.map m)) : isObject e = true :=
  (evaluateExpression_isObject ord e _ h).mpr ⟨m, rfl⟩

theorem not_isObject_of_str (ord : RangeOrder) (e : Expr) (s : String)
    (h : evaluateExpression ord e = some (.str s)) : isObject e = false := by
  cases ho : isObject e with
  | false => rfl
  | true =>
    obtain ⟨m, hm⟩ := (evaluateExpression_isObject ord e _ h).mp ho
    cases hm

mutual
theorem evaluateExpression_none_iff (ord : RangeOrder) :
    ∀ e : Expr, evaluateExpression ord e = none ↔ reachesAssertedObject e = true
  | .ScopeTraversalExpr _ => by simp [evaluateExpression, reachesAssertedObject]
  | .LiteralValueExpr _ => by simp [evaluateExpression, reachesAssertedObject]
  | .OtherExpr _ _ => by simp [evaluateExpression, reachesAssertedObject]
  | .TemplateExpr parts => by
    simp only [evaluateExpression, reachesAssertedObject, Option.map_eq_none',
      templateLoop_none_iff ord parts ""]
  | .TupleConsExpr exprs => by
    simp only [evaluateExpression, reachesAssertedObject, Option.map_eq_none',
      tupleLoop_none_iff ord exprs ""]
  | .ObjectConsExpr items => by
    simp only [evaluateExpression, reachesAssertedObject, Option.map_eq_none',
      objectLoop_none_iff ord items []]
  | .FunctionCallExpr name args => by
    simp only [evaluateExpression, reachesAssertedObject, Option.map_eq_none',
      evaluateFunctionExpression_none_iff ord name args ""]
  | .ObjectConsKeyExpr wrapped => by
    have ih := evaluateExpression_none_iff ord wrapped
    simp only [evaluateExpression, reachesAssertedObject, Bool.or_eq_true]
    cases hw : evaluateExpression ord wrapped with
    | none => simp [← ih, hw]
    | some v =>
      cases v with
      | str s =>
        have hno := not_isObject_of_str ord wrapped s hw
        have hnr : ¬ reachesAssertedObject wrapped = true := by rw [← ih, hw]; simp
        simp [hno, hnr]
      | map m => simp [isObject_of_map ord wrapped m hw]
  | .IndexExpr collection _ => by
    have ih := evaluateExpression_none_iff ord collection
    simp only [evaluateExpression, reachesAssertedObject, Bool.or_eq_true]
    cases hw : evaluateExpression ord collection with
    | none => simp [← ih, hw]
    | some v =>
      cases v with
      | str s =>
        have hno := not_isObject_of_str ord collection s hw
        have hnr : ¬ reachesAssertedObject collection = true := by rw [← ih, hw]; simp
        simp [hno, hnr]
      | map m => simp [isObject_of_map ord collection m hw]
theorem templateLoop_none_iff (ord : RangeOrder) :
    ∀ (parts : List Expr) (acc : String),
      templateLoop ord parts acc = none ↔ reachesAssertedObjectParts parts = true
  | [], _ => by simp [templateLoop, reachesAssertedObjectParts]
  | part :: rest, acc => by
    have ih := evaluateExpression_none_iff ord part
    simp only [templateLoop, reachesAssertedObjectParts, Bool.or_eq_true]
    cases hw : evaluateExpression ord part with
    | none => simp [← ih, hw]
    | some v =>
      cases v with
      | str s =>
        have hno := not_isObject_of_str ord part s hw
        have hnr : ¬ reachesAssertedObject part = true := by rw [← ih, hw]; simp
        simp [hno, hnr, templateLoop_none_iff ord rest]
      | map m => simp [isObject_of_map ord part m hw]
theorem tupleLoop_none_iff (ord : RangeOrder) :
    ∀ (exprs : List Expr) (acc : String),
      tupleLoop ord exprs acc = none ↔ reachesAssertedObjectParts exprs = true
  | [], _ => by simp [tupleLoop, reachesAssertedObjectParts]
  | elem :: rest, acc => by
    have ih := evaluateExpression_none_iff ord elem
    simp only [tupleLoop, reachesAssertedObjectParts, Bool.or_eq_true]
    cases hw : evaluateExpression ord elem with
    | none => simp [← ih, hw]
    | some v =>
      cases v with
      | str s =>
        have hno := not_isObject_of_str ord elem s hw
        have hnr : ¬ reachesAssertedObject elem = true := by rw [← ih, hw]; simp
        simp [hno, hnr, tupleLoop_none_iff ord rest]
      | map m => simp [isObject_of_map ord elem m hw]
theorem objectLoop_none_iff (ord : RangeOrder) :
    ∀ (items : List (Expr × Expr)) (m : List (String × Value)),
      objectLoop ord items m = none ↔ reachesAssertedObjectItems items = true
  | [], _ => by simp [objectLoop, reachesAssertedObjectItems]
  | (k, v) :: rest, m => by
    have ihk := evaluateExpression_none_iff ord k
    have ihv := evaluateExpression_none_iff ord v
    simp only [objectLoop, reachesAssertedObjectItems, Bool.or_eq_true]
    cases hk : evaluateExpression ord k with
    | none => simp [← ihk, hk]
    | some kv =>
      cases kv with
      | map mk => simp [isObject_of_map ord k mk hk]
      | str ks =>
        have hno := not_isObject_of_str ord k ks hk
        have hnr : ¬ reachesAssertedObject k = true := by rw [← ihk, hk]; simp
        cases hv : evaluateExpression ord v with
        | none => simp [← ihv, hv]
        | some val =>
          have hnv : ¬ reachesAssertedObject v = true := by rw [← ihv, hv]; simp
          simp [hno, hnr, hnv, objectLoop_none_iff ord rest]
theorem evaluateFunctionExpression_none_iff (ord : RangeOrder) (name : String) :
    ∀ (args : List Expr) (acc : String),
      evaluateFunctionExpression ord name args acc = none
        ↔ reachesAssertedObjectArgs args = true
  | [], _ => by simp [evaluateFunctionExpression, reachesAssertedObjectArgs]
  | arg :: rest, acc => by
    have ih := evaluateExpression_none_iff ord arg
    simp only [evaluateFunctionExpression, reachesAssertedObjectArgs, Bool.or_eq_true]
    cases hw : evaluateExpression ord arg with
    | none => simp [← ih, hw]
    | some v =>
      have hnr : ¬ reachesAssertedObject arg = true := by rw [← ih, hw]; simp
      cases v with
      | str s => simp [hnr, evaluateFunctionExpression_none_iff ord name rest]
      | map m => simp [hnr, evaluateFunctionExpression_none_iff ord name rest]
end

mutual
theorem hasAssertedObject_of_reaches :
    ∀ e : Expr, reachesAssertedObject e = true → hasAssertedObject e = true
  | .ScopeTraversalExpr _, h => by simp [reachesAssertedObject] at h
  | .LiteralValueExpr _, h => by simp [reachesAssertedObject] at h
  | .OtherExpr _ _, h => by simp [reachesAssertedObject] at h
  | .TemplateExpr parts, h => by
    simp only [reachesAssertedObject] at h
    simp only [hasAssertedObject, hasAssertedObjectParts_of_reaches parts h]
  | .TupleConsExpr exprs, h => by
    simp only [reachesAssertedObject] at h
    simp only [hasAssertedObject, hasAssertedObjectParts_of_reaches exprs h]
  | .ObjectConsExpr items, h => by
    simp only [reachesAssertedObject] at h
    simp only [hasAssertedObject, hasAssertedObjectItems_of_reaches items h]
  | .FunctionCallExpr _ args, h => by
    simp only [reachesAssertedObject] at h
    simp only [hasAssertedObject, hasAssertedObjectAny_of_reaches args h]
  | .ObjectConsKeyExpr wrapped, h => by
    simp only [reachesAssertedObject, Bool.or_eq_true] at h
    simp only [hasAssertedObject, Bool.or_eq_true]
    exact h.imp id (hasAssertedObject_of_reaches wrapped)
  | .IndexExpr collection _, h => by
    simp only [reachesAssertedObject, Bool.or_eq_true] at h
    simp only [hasAssertedObject, Bool.or_eq_true]
    exact Or.inl (h.imp id (hasAssertedObject_of_reaches collection))
theorem hasAssertedObjectParts_of_reaches :
    ∀ l : List Expr, reachesAssertedObjectParts l = true → hasAssertedObjectParts l = true
  | [], h => by simp [reachesAssertedObjectParts] at h
  | e :: rest, h => by
    simp only [reachesAssertedObjectParts, Bool.or_eq_true] at h
    simp only [hasAssertedObjectParts, Bool.or_eq_true]
    rcases h with (h | h) | h
    · exact Or.inl (Or.inl h)
    · exact Or.inl (Or.inr (hasAssertedObject_of_reaches e h))
    · exact Or.inr (hasAssertedObjectParts_of_reaches rest h)
theorem hasAssertedObjectItems_of_reaches :
    ∀ l : List (Expr × Expr),
      reachesAssertedObjectItems l = true → hasAssertedObjectItems l = true
  | [], h => by simp [reachesAssertedObjectItems] at h
  | (k, v) :: rest, h => by
    simp only [reachesAssertedObjectItems, Bool.or_eq_true] at h
    simp only [hasAssertedObjectItems, Bool.or_eq_true]
    rcases h with ((h | h) | h) | h
    · exact Or.inl (Or.inl (Or.inl h))
    · exact Or.inl (Or.inl (Or.inr (hasAssertedObject_of_reaches k h)))
    · exact Or.inl (Or.inr (hasAssertedObject_of_reaches v h))
    · exact Or.inr (hasAssertedObjectItems_of_reaches rest h)
theorem hasAssertedObjectAny_of_reaches :
    ∀ l : List Expr, reachesAssertedObjectArgs l = true → hasAssertedObjectAny l = true
  | [], h => by simp [reachesAssertedObjectArgs] at h
  | a :: rest, h => by
    simp only [reachesAssertedObjectArgs, Bool.or_eq_true] at h
    simp only [hasAssertedObjectAny, Bool.or_eq_true]
    rcases h with h | h
    · exact Or.inl (hasAssertedObject_of_reaches a h)
    · exact Or.inr (hasAssertedObjectAny_of_reaches rest h)
end

/-- C20 (as stated, refuted): in the conditional `true ? [{}] : []` an object
construction occurs directly as a tuple element, and the evaluation does not
fail: a conditional is outside the type switch and evaluates to the empty
string, its sub-expressions are not evaluated.  The same holds for the index
expression `var.k[[{}]]`, whose key is not evaluated.  The tuple `[{}]` itself
fails. -/
theorem evaluateExpression_unreached_object_no_crash :
    hasAssertedObject conditionalWithObjectTuple = true ∧
    evaluateExpression id conditionalWithObjectTuple = some (.str "") ∧
    hasAssertedObject (.IndexExpr varK tupleWithObject) = true ∧
    evaluateExpression id (.IndexExpr varK tupleWithObject) = some (.str "var.k") ∧
    evaluateExpression id tupleWithObject = none :=
  ⟨by decide, by decide, by decide, by decide, by decide⟩

/-- C20 (amended): `evaluateExpression` fails if and only if an object
construction occurs directly as a template part, a tuple element, the wrapped
expression of a key wrapper, the key of an object item or the collection of an
index expression at a position that evaluation reaches, that is, not inside the
key of an index expression and not inside a node of a kind outside the type
switch; every tree free of such occurrences anywhere evaluates without
failure. -/
theorem evaluateExpression_fails_iff (ord : RangeOrder) (e : Expr) :
    (evaluateExpression ord e = none ↔ reachesAssertedObject e = true) ∧
    (reachesAssertedObject e = true → hasAssertedObject e = true) ∧
    (hasAssertedObject e = false → ∃ v, evaluateExpression ord e = some v) := by
  refine ⟨evaluateExpression_none_iff ord e, hasAssertedObject_of_reaches e, ?_⟩
  intro hfree
  cases hv : evaluateExpression ord e with
  | some v => exact ⟨v, rfl⟩
  | none =>
    have := hasAssertedObject_of_reaches e ((evaluateExpression_none_iff ord e).mp hv)
    rw [hfree] at this
    cases this

/-- Witness for C20 (amended): the tuple `[{}]` fails, the object
`{a = "1", b = "2"}` does not. -/
theorem evaluateExpression_fails_iff_witness :
    evaluateExpression id tupleWithObject = none ∧
    hasAssertedObject tupleWithObject = true ∧
    ∃ v, evaluateExpression id objectTwoKeys = some v :=
  ⟨(evaluateExpression_fails_iff id tupleWithObject).1.mpr (by decide),
    (evaluateExpression_fails_iff id tupleWithObject).2.1 (by decide),
    (evaluateExpression_fails_iff id objectTwoKeys).2.2 (by decide)⟩

/-! ### Attributes evaluated into a mapping -/

theorem mapGet_foldl_mapSet_from {β : Type} (kvs : List (String × β)) (m0 : List (String × β))
    (k : String) :
    mapGet (kvs.foldl (fun acc kv => mapSet acc kv.1 kv.2) m0) k
      = match mapGet kvs.reverse k with
        | some v => some v
        | none => mapGet m0 k := by
  induction kvs using List.reverseRecOn with
  | nil => rfl
  | append_singleton rest kv ih =>
    obtain ⟨a, b⟩ := kv
    simp only [List.foldl_append, List.foldl_cons, List.foldl_nil, mapGet_mapSet,
      List.reverse_append, List.reverse_cons, List.reverse_nil, List.nil_append,
      List.singleton_append, mapGet, ih]
    by_cases hak : a = k <;> simp [hak]

theorem evaluateAttributes_eq_some (ord : RangeOrder) :
    ∀ (attrs : List Attribute) (m m' : List (String × Value)),
      evaluateAttributes ord attrs m = some m' →
      ∃ kvs, List.Forall₂ (Evaluated ord) attrs kvs ∧
        m' = kvs.foldl (fun acc kv => mapSet acc kv.1 kv.2) m
  | [], m, m', h => by
    simp only [evaluateAttributes, Option.some.injEq] at h
    exact ⟨[], List.Forall₂.nil, h.symm⟩
  | a :: rest, m, m', h => by
    simp only [evaluateAttributes] at h
    cases hv : evaluateExpression ord a.Expr with
    | none => simp [hv] at h
    | some v =>
      simp only [hv] at h
      obtain ⟨kvs, hf, hm⟩ := evaluateAttributes_eq_some ord rest _ m' h
      exact ⟨(a.Name, v) :: kvs, List.Forall₂.cons ⟨rfl, hv⟩ hf, by simpa using hm⟩

theorem evaluateAttributes_of_forall₂ (ord : RangeOrder) (attrs : List Attribute)
    (kvs : List (String × Value)) (h : List.Forall₂ (Evaluated ord) attrs kvs) :
    ∀ m, evaluateAttributes ord attrs m
      = some (kvs.foldl (fun acc kv => mapSet acc kv.1 kv.2) m) := by
  induction h with
  | nil => intro m; rfl
  | cons hkv _ ih =>
    intro m
    obtain ⟨hname, hval⟩ := hkv
    simp only [evaluateAttributes, hval, List.foldl_cons, hname, ih]

theorem exists_evaluated (ord : RangeOrder) (attrs : List Attribute)
    (h : ∀ a ∈ attrs, ∃ v, evaluateExpression ord a.Expr = some v) :
    ∃ kvs, List.Forall₂ (Evaluated ord) attrs kvs := by
  induction attrs with
  | nil => exact ⟨[], List.Forall₂.nil⟩
  | cons a rest ih =>
    obtain ⟨v, hv⟩ := h a (List.mem_cons_self _ _)
    obtain ⟨kvs, hk⟩ := ih (fun b hb => h b (List.mem_cons_of_mem _ hb))
    exact ⟨(a.Name, v) :: kvs, List.Forall₂.cons ⟨rfl, hv⟩ hk⟩

theorem evaluateAttributes_none_of_mem (ord : RangeOrder) :
    ∀ (attrs : List Attribute) (m : List (String × Value)) (a : Attribute), a ∈ attrs →
      evaluateExpression ord a.Expr = none → evaluateAttributes ord attrs m = none
  | b :: rest, m, a, hmem, hnone => by
    simp only [evaluateAttributes]
    cases hv : evaluateExpression ord b.Expr with
    | none => rfl
    | some v =>
      rcases List.mem_cons.mp hmem with heq | hrest
      · subst heq
        rw [hnone] at hv
        cases hv
      · exact evaluateAttributes_none_of_mem ord rest _ a hrest hnone

theorem evaluated_keys (ord : RangeOrder) (attrs : List Attribute)
    (kvs : List (String × Value)) (h : List.Forall₂ (Evaluated ord) attrs kvs) :
    kvs.map Prod.fst = attrs.map (fun a => a.Name) := by
  induction h with
  | nil => rfl
  | cons hkv _ ih => simp [hkv.1, ih]

theorem evaluated_mem (ord : RangeOrder) (attrs : List Attribute)
    (kvs : List (String × Value)) (h : List.Forall₂ (Evaluated ord) attrs kvs) :
    ∀ a ∈ attrs, ∃ kv ∈ kvs, kv.1 = a.Name ∧ evaluateExpression ord a.Expr = some kv.2 := by
  induction h with
  | nil => intro a ha; cases ha
  | cons hkv _ ih =>
    intro a ha
    rcases List.mem_cons.mp ha with heq | hrest
    · subst heq
      exact ⟨_, List.mem_cons_self _ _, hkv.1, hkv.2⟩
    · obtain ⟨kv, hmem, hk⟩ := ih a hrest
      exact ⟨kv, List.mem_cons_of_mem _ hmem, hk⟩

/-- The mapping built from the evaluated attributes of a body whose attribute
names are pairwise different. -/
theorem evaluated_mapping (ord : RangeOrder) (attrs : List Attribute)
    (kvs : List (String × Value)) (h : List.Forall₂ (Evaluated ord) attrs kvs)
    (hnames : (attrs.map (fun a => a.Name)).Nodup) :
    (∀ k, k ∈ (kvs.foldl (fun acc kv => mapSet acc kv.1 kv.2) []).map Prod.fst
      ↔ k ∈ attrs.map (fun a => a.Name)) ∧
    ((kvs.foldl (fun acc kv => mapSet acc kv.1 kv.2) []).map Prod.fst).Nodup ∧
    (∀ a ∈ attrs, mapGet (kvs.foldl (fun acc kv => mapSet acc kv.1 kv.2) []) a.Name
      = evaluateExpression ord a.Expr) := by
  have hkeys := evaluated_keys ord attrs kvs h
  refine ⟨?_, nodup_keys_foldl_mapSet kvs [] (by simp), ?_⟩
  · intro k
    rw [mem_keys_foldl_mapSet, hkeys]
    simp
  · intro a ha
    obtain ⟨kv, hmem, hname, hval⟩ := evaluated_mem ord attrs kvs h a ha
    rw [mapGet_foldl_mapSet, hval, ← hname]
    refine mapGet_of_mem_nodup kvs.reverse ?_ kv (List.mem_reverse.mpr hmem)
    rw [List.map_reverse, hkeys]
    exact List.nodup_reverse.mpr hnames

/-! ### Resources and locals (C12, C16) -/

/-- C12 (as stated, refuted): the block `resource "a" "b"` with the single
attribute `x = [{}]` has two labels and no nested block, and `parseResource`
returns no Resource for it: the evaluation of the attribute panics. -/
theorem parseResource_panics_on_attribute :
    resourceTupleObject.Labels = ["a", "b"] ∧ resourceTupleObject.Blocks = [] ∧
    evaluateExpression id tupleWithObject = none ∧
    parseResource id resourceTupleObject = none :=
  ⟨rfl, rfl, by decide, by decide⟩

/-- C12 (amended): for every resource block with at least two labels and no
nested blocks whose attribute expressions all evaluate without failure,
`parseResource` returns a Resource whose Type is the first label, whose Name is
the second label, whose Labels are all the labels, and whose attribute mapping
has exactly the attribute names of the block as keys, each mapped to the
evaluation of the expression of that attribute. -/
theorem parseResource_spec (ord : RangeOrder) (block : Block) (type name : String)
    (more : List String) (hlabels : block.Labels = type :: name :: more)
    (hblocks : block.Blocks = [])
    (hnames : (block.Attributes.map (fun a => a.Name)).Nodup)
    (heval : ∀ a ∈ block.Attributes, ∃ v, evaluateExpression ord a.Expr = some v) :
    ∃ r, parseResource ord block = some r ∧
      r.Type_ = type ∧ r.Name = name ∧ r.Labels = block.Labels ∧
      (∀ k, k ∈ r.Attributes.map Prod.fst ↔ k ∈ block.Attributes.map (fun a => a.Name)) ∧
      (r.Attributes.map Prod.fst).Nodup ∧
      (∀ a ∈ block.Attributes, mapGet r.Attributes a.Name = evaluateExpression ord a.Expr) := by
  obtain ⟨kvs, hkvs⟩ := exists_evaluated ord block.Attributes heval
  obtain ⟨h1, h2, h3⟩ := evaluated_mapping ord block.Attributes kvs hkvs hnames
  refine ⟨⟨type, name, block.Labels, kvs.foldl (fun acc kv => mapSet acc kv.1 kv.2) []⟩,
    ?_, rfl, rfl, rfl, h1, h2, h3⟩
  simp only [parseResource, hlabels, evaluateAttributes_of_forall₂ ord _ kvs hkvs, hblocks,
    parseResourceBlocks]

/-- Witness for C12 (amended): `resource "aws_instance" "web"` with the
attribute `ami = "abc123"` gives type `aws_instance`, name `web` and the
mapping `ami ↦ "abc123"`. -/
theorem parseResource_spec_witness :
    parseResource id resourceWeb
      = some ⟨"aws_instance", "web", ["aws_instance", "web"], [("ami", .str "abc123")]⟩ ∧
    ∃ r, parseResource id resourceWeb = some r ∧
      r.Type_ = "aws_instance" ∧ r.Name = "web" ∧ r.Labels = resourceWeb.Labels ∧
      (∀ k, k ∈ r.Attributes.map Prod.fst ↔ k ∈ resourceWeb.Attributes.map (fun a => a.Name)) ∧
      (r.Attributes.map Prod.fst).Nodup ∧
      (∀ a ∈ resourceWeb.Attributes,
        mapGet r.Attributes a.Name = evaluateExpression id a.Expr) :=
  ⟨by decide, parseResource_spec id resourceWeb "aws_instance" "web" [] rfl rfl (by decide)
    (by
      intro a ha
      have : a = ⟨"ami", quoted "abc123"⟩ := by simpa [resourceWeb, Block.Attributes] using ha
      subst this
      exact ⟨.str "abc123", by decide⟩)⟩

/-- C16 (as stated, refuted): for the block `locals` with the single attribute
`x = [{}]`, `parseLocals` returns no Local: the evaluation of the attribute
panics. -/
theorem parseLocals_panics_on_attribute :
    evaluateExpression id tupleWithObject = none ∧
    parseLocals id localsTupleObject = none :=
  ⟨by decide, by decide⟩

/-- C16 (amended): for every `locals` block whose attribute expressions all
evaluate without failure, `parseLocals` returns one Local whose attribute
mapping has exactly the attribute names of the block as keys, each mapped to
its evaluated value, however many attributes the block has. -/
theorem parseLocals_spec (ord : RangeOrder) (block : Block)
    (hnames : (block.Attributes.map (fun a => a.Name)).Nodup)
    (heval : ∀ a ∈ block.Attributes, ∃ v, evaluateExpression ord a.Expr = some v) :
    ∃ l, parseLocals ord block = some l ∧
      (∀ k, k ∈ l.Attributes.map Prod.fst ↔ k ∈ block.Attributes.map (fun a => a.Name)) ∧
      (l.Attributes.map Prod.fst).Nodup ∧
      l.Attributes.length = block.Attributes.length ∧
      (∀ a ∈ block.Attributes, mapGet l.Attributes a.Name = evaluateExpression ord a.Expr) := by
  obtain ⟨kvs, hkvs⟩ := exists_evaluated ord block.Attributes heval
  obtain ⟨h1, h2, h3⟩ := evaluated_mapping ord block.Attributes kvs hkvs hnames
  refine ⟨⟨kvs.foldl (fun acc kv => mapSet acc kv.1 kv.2) []⟩, ?_, h1, h2, ?_, h3⟩
  · simp only [parseLocals, evaluateAttributes_of_forall₂ ord _ kvs hkvs]
  · have hk := evaluated_keys ord block.Attributes kvs hkvs
    rw [length_foldl_mapSet, hk, List.Nodup.dedup hnames, List.length_map]

/-- Witness for C16 (amended): the block `locals` with `a = 1` and `b = "x"`
gives one Local with the mapping `a ↦ "1"`, `b ↦ "x"`. -/
theorem parseLocals_spec_witness :
    parseLocals id localsAB = some ⟨[("a", .str "1"), ("b", .str "x")]⟩ ∧
    ∃ l, parseLocals id localsAB = some l ∧
      (∀ k, k ∈ l.Attributes.map Prod.fst ↔ k ∈ localsAB.Attributes.map (fun a => a.Name)) ∧
      (l.Attributes.map Prod.fst).Nodup ∧
      l.Attributes.length = localsAB.Attributes.length ∧
      (∀ a ∈ localsAB.Attributes, mapGet l.Attributes a.Name = evaluateExpression id a.Expr) :=
  ⟨by decide, parseLocals_spec id localsAB (by decide)
    (by
      intro a ha
      have : a = ⟨"a", numberOne⟩ ∨ a = ⟨"b", quoted "x"⟩ := by
        simpa [localsAB, Block.Attributes] using ha
      rcases this with h | h <;> subst h
      · exact ⟨.str "1", by decide⟩
      · exact ⟨.str "x", by decide⟩)⟩

/-! ### Modules (C14, C15) -/

theorem parseModuleLoop_spec (ord : RangeOrder) :
    ∀ (attrs : List Attribute) (module : Module),
      (attrs.map (fun a => a.Name)).Nodup →
      (∀ a ∈ attrs, ∃ v, evaluateExpression ord a.Expr = some v) →
      (∀ a ∈ attrs, a.Name = "source" → ∃ s, evaluateExpression ord a.Expr = some (.str s)) →
      ∃ m, parseModuleLoop ord attrs module = some m ∧ m.Labels = module.Labels ∧
        evaluateAttributes ord attrs module.Attributes = some m.Attributes ∧
        (∀ a ∈ attrs, a.Name = "source" →
          evaluateExpression ord a.Expr = some (.str m.Source)) ∧
        ("source" ∉ attrs.map (fun a => a.Name) → m.Source = module.Source)
  | [], module, _, _, _ => by
    refine ⟨module, rfl, rfl, rfl, ?_, fun _ => rfl⟩
    intro a ha
    cases ha
  | a :: rest, module, hnames, heval, hsrc => by
    simp only [List.map_cons, List.nodup_cons] at hnames
    obtain ⟨v, hv⟩ := heval a (List.mem_cons_self _ _)
    have heval' : ∀ b ∈ rest, ∃ v, evaluateExpression ord b.Expr = some v :=
      fun b hb => heval b (List.mem_cons_of_mem _ hb)
    have hsrc' : ∀ b ∈ rest, b.Name = "source" →
        ∃ s, evaluateExpression ord b.Expr = some (.str s) :=
      fun b hb => hsrc b (List.mem_cons_of_mem _ hb)
    by_cases hname : a.Name = "source"
    · obtain ⟨s, hs⟩ := hsrc a (List.mem_cons_self _ _) hname
      have hvs : v = .str s := by
        rw [hs] at hv
        exact (Option.some.inj hv).symm
      subst hvs
      obtain ⟨m, hm, hl, ha, _, hnot⟩ := parseModuleLoop_spec ord rest
        ⟨s, module.Labels, mapSet module.Attributes a.Name (.str s)⟩ hnames.2 heval' hsrc'
      have hnotin : "source" ∉ rest.map (fun a => a.Name) := hname ▸ hnames.1
      have hsource : m.Source = s := hnot hnotin
      refine ⟨m, ?_, hl, ?_, ?_, ?_⟩
      · simp only [parseModuleLoop, hs, hname, if_true]
        rw [← hname]
        exact hm
      · simp only [evaluateAttributes, hs]
        exact ha
      · intro b hb hbname
        rcases List.mem_cons.mp hb with heq | hrest
        · subst heq
          rw [hs, hsource]
        · exact absurd (hbname ▸ List.mem_map_of_mem (fun a => a.Name) hrest) hnotin
      · intro hno
        exact absurd (List.mem_cons.mpr (Or.inl hname.symm)) hno
    · obtain ⟨m, hm, hl, ha, hs, hnot⟩ := parseModuleLoop_spec ord rest
        ⟨module.Source, module.Labels, mapSet module.Attributes a.Name v⟩ hnames.2 heval' hsrc'
      refine ⟨m, ?_, hl, ?_, ?_, ?_⟩
      · simp only [parseModuleLoop, hv, hname, if_false]
        exact hm
      · simp only [evaluateAttributes, hv]
        exact ha
      · intro b hb hbname
        rcases List.mem_cons.mp hb with heq | hrest
        · subst heq
          exact absurd hbname hname
        · exact hs b hrest hbname
      · intro hno
        exact hnot (fun hmem => hno (List.mem_cons_of_mem _ hmem))

/-- C14 (as stated, refuted): the block `module "m"` with `source = "./m"` and
`tags = [{}]` has a `source` that evaluates to a string, and `parseModule`
returns no Module for it: the evaluation of `tags` panics. -/
theorem parseModule_panics_on_attribute :
    evaluateExpression id (quoted "./m") = some (.str "./m") ∧
    evaluateExpression id tupleWithObject = none ∧
    parseModule id moduleTupleObject = none :=
  ⟨by decide, by decide, by decide⟩

/-- C14 (amended): for every module block whose attribute expressions all
evaluate without failure, the `source` attribute, if there is one, to a string,
`parseModule` returns a Module whose Labels are the labels of the block and
whose attribute mapping has exactly the attributes of the block (`source`
included) as keys, each mapped to its evaluated value; its Source is the string
the `source` attribute evaluates to, and the empty string when the block has no
`source` attribute. -/
theorem parseModule_spec (ord : RangeOrder) (block : Block)
    (hnames : (block.Attributes.map (fun a => a.Name)).Nodup)
    (heval : ∀ a ∈ block.Attributes, ∃ v, evaluateExpression ord a.Expr = some v)
    (hsrc : ∀ a ∈ block.Attributes, a.Name = "source" →
      ∃ s, evaluateExpression ord a.Expr = some (.str s)) :
    ∃ m, parseModule ord block = some m ∧ m.Labels = block.Labels ∧
      (∀ k, k ∈ m.Attributes.map Prod.fst ↔ k ∈ block.Attributes.map (fun a => a.Name)) ∧
      (∀ a ∈ block.Attributes, mapGet m.Attributes a.Name = evaluateExpression ord a.Expr) ∧
      (∀ a ∈ block.Attributes, a.Name = "source" →
        evaluateExpression ord a.Expr = some (.str m.Source)) ∧
      ("source" ∉ block.Attributes.map (fun a => a.Name) → m.Source = "") := by
  obtain ⟨m, hm, hl, ha, hs, hnot⟩ :=
    parseModuleLoop_spec ord block.Attributes ⟨"", block.Labels, []⟩ hnames heval hsrc
  obtain ⟨kvs, hkvs, hfold⟩ := evaluateAttributes_eq_some ord block.Attributes [] _ ha
  obtain ⟨h1, _, h3⟩ := evaluated_mapping ord block.Attributes kvs hkvs hnames
  rw [← hfold] at h1 h3
  exact ⟨m, hm, hl, h1, h3, hs, hnot⟩

/-- Witness for C14 (amended): `module "net"` with `source = "./modules/net"`
and `cidr = "10.0.0.0/16"` gives Source `./modules/net` and a mapping with both
keys. -/
theorem parseModule_spec_witness :
    parseModule id moduleNet
      = some ⟨"./modules/net", ["net"],
          [("source", .str "./modules/net"), ("cidr", .str "10.0.0.0/16")]⟩ ∧
    ∃ m, parseModule id moduleNet = some m ∧ m.Labels = moduleNet.Labels ∧
      (∀ k, k ∈ m.Attributes.map Prod.fst ↔ k ∈ moduleNet.Attributes.map (fun a => a.Name)) ∧
      (∀ a ∈ moduleNet.Attributes, mapGet m.Attributes a.Name = evaluateExpression id a.Expr) ∧
      (∀ a ∈ moduleNet.Attributes, a.Name = "source" →
        evaluateExpression id a.Expr = some (.str m.Source)) ∧
      ("source" ∉ moduleNet.Attributes.map (fun a => a.Name) → m.Source = "") :=
  ⟨by decide, parseModule_spec id moduleNet (by decide)
    (by
      intro a ha
      have : a = ⟨"source", quoted "./modules/net"⟩ ∨ a = ⟨"cidr", quoted "10.0.0.0/16"⟩ := by
        simpa [moduleNet, Block.Attributes] using ha
      rcases this with h | h <;> subst h
      · exact ⟨.str "./modules/net", by decide⟩
      · exact ⟨.str "10.0.0.0/16", by decide⟩)
    (by
      intro a ha hname
      have : a = ⟨"source", quoted "./modules/net"⟩ ∨ a = ⟨"cidr", quoted "10.0.0.0/16"⟩ := by
        simpa [moduleNet, Block.Attributes] using ha
      rcases this with h | h <;> subst h
      · exact ⟨"./modules/net", by decide⟩
      · exact absurd hname (by decide))⟩

theorem parseModuleLoop_none_of_source_map (ord : RangeOrder) :
    ∀ (attrs : List Attribute) (module : Module) (a : Attribute) (m : List (String × Value)),
      a ∈ attrs → a.Name = "source" → evaluateExpression ord a.Expr = some (.map m) →
      parseModuleLoop ord attrs module = none
  | b :: rest, module, a, m, hmem, hname, hmap => by
    simp only [parseModuleLoop]
    cases hv : evaluateExpression ord b.Expr with
    | none => rfl
    | some v =>
      rcases List.mem_cons.mp hmem with heq | hrest
      · subst heq
        rw [hmap] at hv
        cases hv
        simp [hname]
      · by_cases hb : b.Name = "source"
        · cases v with
          | str s =>
            simp only [hb, if_true]
            exact parseModuleLoop_none_of_source_map ord rest _ a m hrest hname hmap
          | map _ => simp [hb]
        · simp only [hb, if_false]
          exact parseModuleLoop_none_of_source_map ord rest _ a m hrest hname hmap

theorem parseConfigLoop_none_of_module (ord : RangeOrder) :
    ∀ (blocks : List Block) (resources : List Resource) (modules : List Module)
      (locals : List Local) (b : Block),
      b ∈ blocks → b.Type_ = "module" → parseModule ord b = none →
      parseConfigLoop ord blocks resources modules locals = none
  | c :: rest, resources, modules, locals, b, hmem, htype, hnone => by
    rcases List.mem_cons.mp hmem with heq | hrest
    · subst heq
      simp [parseConfigLoop, htype, hnone]
    · simp only [parseConfigLoop]
      split_ifs
      · cases parseModule ord c with
        | none => rfl
        | some m => exact parseConfigLoop_none_of_module ord rest _ _ _ b hrest htype hnone
      · cases parseResource ord c with
        | none => rfl
        | some r => exact parseConfigLoop_none_of_module ord rest _ _ _ b hrest htype hnone
      · cases parseLocals ord c with
        | none => rfl
        | some l => exact parseConfigLoop_none_of_module ord rest _ _ _ b hrest htype hnone
      · exact parseConfigLoop_none_of_module ord rest _ _ _ b hrest htype hnone

/-- C15 (as stated, refuted): for the block `module "m"` whose `source` is the
object `{}`, `parseModule` panics, and so do `parseConfig` on a file with this
block and `Parse` on the file `m.tf` that holds it: no pair of a configuration
and an error is returned. -/
theorem parseModule_source_object_no_error_result :
    evaluateExpression id (.ObjectConsExpr []) = some (.map []) ∧
    parseModule id moduleSourceObject = none ∧
    parseConfig id ⟨[], [moduleSourceObject]⟩ = none ∧
    Parse id worldSourceObject [] ["m.tf"] = none ∧
    (∀ (config : Option Config) (err : GoError),
      Parse id worldSourceObject [] ["m.tf"] ≠ some (config, some err)) := by
  have hparse : Parse id worldSourceObject [] ["m.tf"] = none := by decide
  refine ⟨by decide, by decide, by decide, hparse, ?_⟩
  intro config err h
  rw [hparse] at h
  cases h

/-! ### Block dispatch (C17) -/

theorem parseConfigLoop_spec (ord : RangeOrder) :
    ∀ (blocks : List Block) (resources : List Resource) (modules : List Module)
      (locals : List Local),
      (∀ b ∈ blocks, b.Type_ = "module" → parseModule ord b ≠ none) →
      (∀ b ∈ blocks, b.Type_ = "resource" → parseResource ord b ≠ none) →
      (∀ b ∈ blocks, b.Type_ = "locals" → parseLocals ord b ≠ none) →
      ∃ c, parseConfigLoop ord blocks resources modules locals = some c ∧
        c.Modules.map some = modules.map some
          ++ (blocks.filter (fun b => b.Type_ = "module")).map (parseModule ord) ∧
        c.Resources.map some = resources.map some
          ++ (blocks.filter (fun b => b.Type_ = "resource")).map (parseResource ord) ∧
        c.Locals.map some = locals.map some
          ++ (blocks.filter (fun b => b.Type_ = "locals")).map (parseLocals ord) ∧
        c.Variables = []
  | [], resources, modules, locals, _, _, _ => by
    exact ⟨⟨resources, modules, [], locals⟩, rfl, by simp, by simp, by simp, rfl⟩
  | b :: rest, resources, modules, locals, hm, hr, hl => by
    have hm' : ∀ c ∈ rest, c.Type_ = "module" → parseModule ord c ≠ none :=
      fun c hc => hm c (List.mem_cons_of_mem _ hc)
    have hr' : ∀ c ∈ rest, c.Type_ = "resource" → parseResource ord c ≠ none :=
      fun c hc => hr c (List.mem_cons_of_mem _ hc)
    have hl' : ∀ c ∈ rest, c.Type_ = "locals" → parseLocals ord c ≠ none :=
      fun c hc => hl c (List.mem_cons_of_mem _ hc)
    by_cases h1 : b.Type_ = "module"
    · have hnr : ¬ b.Type_ = "resource" := by rw [h1]; decide
      have hnl : ¬ b.Type_ = "locals" := by rw [h1]; decide
      cases hx : parseModule ord b with
      | none => exact absurd hx (hm b (List.mem_cons_self _ _) h1)
      | some m =>
        obtain ⟨c, hc, hcm, hcr, hcl, hcv⟩ :=
          parseConfigLoop_spec ord rest resources (modules ++ [m]) locals hm' hr' hl'
        refine ⟨c, by simp [parseConfigLoop, h1, hx, hc], ?_, ?_, ?_, hcv⟩
        · simp [hcm, List.filter_cons, h1, hx]
        · simp [hcr, List.filter_cons, hnr]
        · simp [hcl, List.filter_cons, hnl]
    · by_cases h2 : b.Type_ = "resource"
      · have hnl : ¬ b.Type_ = "locals" := by rw [h2]; decide
        cases hx : parseResource ord b with
        | none => exact absurd hx (hr b (List.mem_cons_self _ _) h2)
        | some r =>
          obtain ⟨c, hc, hcm, hcr, hcl, hcv⟩ :=
            parseConfigLoop_spec ord rest (resources ++ [r]) modules locals hm' hr' hl'
          refine ⟨c, by simp [parseConfigLoop, h1, h2, hx, hc], ?_, ?_, ?_, hcv⟩
          · simp [hcm, List.filter_cons, h1]
          · simp [hcr, List.filter_cons, h2, hx]
          · simp [hcl, List.filter_cons, hnl]
      · by_cases h3 : b.Type_ = "locals"
        · cases hx : parseLocals ord b with
          | none => exact absurd hx (hl b (List.mem_cons_self _ _) h3)
          | some l =>
            obtain ⟨c, hc, hcm, hcr, hcl, hcv⟩ :=
              parseConfigLoop_spec ord rest resources modules (locals ++ [l]) hm' hr' hl'
            refine ⟨c, by simp [parseConfigLoop, h1, h2, h3, hx, hc], ?_, ?_, ?_, hcv⟩
            · simp [hcm, List.filter_cons, h1]
            · simp [hcr, List.filter_cons, h2]
            · simp [hcl, List.filter_cons, h3, hx]
        · obtain ⟨c, hc, hcm, hcr, hcl, hcv⟩ :=
            parseConfigLoop_spec ord rest resources modules locals hm' hr' hl'
          refine ⟨c, by simp [parseConfigLoop, h1, h2, h3, hc], ?_, ?_, ?_, hcv⟩
          · simp [hcm, List.filter_cons, h1]
          · simp [hcr, List.filter_cons, h2]
          · simp [hcl, List.filter_cons, h3]

/-- C17 (as stated, refuted): for the parsed file with the single block
`locals` with `x = [{}]`, `parseConfig` returns no configuration: the
extraction of the block panics. -/
theorem parseConfig_panics_on_extraction :
    parseLocals id localsTupleObject = none ∧
    parseConfig id fileLocalsTupleObject = none :=
  ⟨by decide, by decide⟩

/-- C17 (amended): for every parsed file whose top-level `module`, `resource`
and `locals` blocks are all extracted without failure, `parseConfig` returns a
configuration whose Modules, Resources and Locals are exactly the extractions
of the top-level blocks with keyword `module`, `resource` and `locals`, each in
the order of the file; a block with any other keyword contributes no entity
and cannot make the call fail, and Variables is always empty. -/
theorem parseConfig_dispatch (ord : RangeOrder) (file : File)
    (hm : ∀ b ∈ file.Blocks, b.Type_ = "module" → parseModule ord b ≠ none)
    (hr : ∀ b ∈ file.Blocks, b.Type_ = "resource" → parseResource ord b ≠ none)
    (hl : ∀ b ∈ file.Blocks, b.Type_ = "locals" → parseLocals ord b ≠ none) :
    ∃ c, parseConfig ord file = some c ∧
      c.Modules.map some
        = (file.Blocks.filter (fun b => b.Type_ = "module")).map (parseModule ord) ∧
      c.Resources.map some
        = (file.Blocks.filter (fun b => b.Type_ = "resource")).map (parseResource ord) ∧
      c.Locals.map some
        = (file.Blocks.filter (fun b => b.Type_ = "locals")).map (parseLocals ord) ∧
      c.Variables = [] := by
  obtain ⟨c, hc, hcm, hcr, hcl, hcv⟩ := parseConfigLoop_spec ord file.Blocks [] [] [] hm hr hl
  exact ⟨c, hc, by simpa using hcm, by simpa using hcr, by simpa using hcl, hcv⟩

/-- Witness for C17 (amended): a file with a variable, a module, a resource and
a locals block gives one module, one resource, one local and no variable. -/
theorem parseConfig_dispatch_witness :
    parseConfig id fileFourBlocks
      = some ⟨[⟨"aws_instance", "web", ["aws_instance", "web"], [("ami", .str "abc123")]⟩],
          [⟨"./modules/net", ["net"],
            [("source", .str "./modules/net"), ("cidr", .str "10.0.0.0/16")]⟩],
          [], [⟨[("a", .str "1"), ("b", .str "x")]⟩]⟩ ∧
    ∃ c, parseConfig id fileFourBlocks = some c ∧
      c.Modules.map some
        = (fileFourBlocks.Blocks.filter (fun b => b.Type_ = "module")).map (parseModule id) ∧
      c.Resources.map some
        = (fileFourBlocks.Blocks.filter (fun b => b.Type_ = "resource")).map
            (parseResource id) ∧
      c.Locals.map some
        = (fileFourBlocks.Blocks.filter (fun b => b.Type_ = "locals")).map (parseLocals id) ∧
      c.Variables = [] :=
  ⟨by decide, parseConfig_dispatch id fileFourBlocks
    (by
      intro b hb
      have : b = variableRegion ∨ b = moduleNet ∨ b = resourceWeb ∨ b = localsAB := by
        simpa [fileFourBlocks] using hb
      rcases this with h | h | h | h <;> subst h <;> decide)
    (by
      intro b hb
      have : b = variableRegion ∨ b = moduleNet ∨ b = resourceWeb ∨ b = localsAB := by
        simpa [fileFourBlocks] using hb
      rcases this with h | h | h | h <;> subst h <;> decide)
    (by
      intro b hb
      have : b = variableRegion ∨ b = moduleNet ∨ b = resourceWeb ∨ b = localsAB := by
        simpa [fileFourBlocks] using hb
      rcases this with h | h | h | h <;> subst h <;> decide)⟩

/-! ### Nested blocks of a resource (C13) -/

theorem mapGet_eq_none_of_not_mem {β : Type} (m : List (String × β)) (k : String)
    (h : k ∉ m.map Prod.fst) : mapGet m k = none := by
  induction m with
  | nil => rfl
  | cons p rest ih =>
    obtain ⟨a, b⟩ := p
    simp only [List.map_cons, List.mem_cons, not_or] at h
    have hne : ¬ a = k := fun hc => h.1 hc.symm
    simp [mapGet, hne, ih h.2]

theorem forall₂_append_evaluated (ord : RangeOrder) (as bs : List Attribute)
    (ks ls : List (String × Value)) (h1 : List.Forall₂ (Evaluated ord) as ks)
    (h2 : List.Forall₂ (Evaluated ord) bs ls) :
    List.Forall₂ (Evaluated ord) (as ++ bs) (ks ++ ls) := by
  induction h1 with
  | nil => simpa using h2
  | cons hkv _ ih => exact List.Forall₂.cons hkv ih

theorem parseResourcesFromBlock_other (ord : RangeOrder) (b : Block) (r r' : Resource)
    (t : String) (h : parseResourcesFromBlock ord b r = some r') (ht : ¬ b.Type_ = t) :
    mapGet r'.Attributes t = mapGet r.Attributes t := by
  simp only [parseResourcesFromBlock] at h
  cases hg : mapGet r.Attributes b.Type_ with
  | none =>
    simp only [hg, mapGet_mapSet, if_true] at h
    cases he : evaluateAttributes ord b.Attributes [] with
    | none => simp [he] at h
    | some data =>
      simp only [he, Option.some.injEq] at h
      rw [← h]
      simp [mapGet_mapSet, ht]
  | some v =>
    simp only [hg] at h
    cases v with
    | str s => simp at h
    | map d =>
      simp only at h
      cases he : evaluateAttributes ord b.Attributes d with
      | none => simp [he] at h
      | some data =>
        simp only [he, Option.some.injEq] at h
        rw [← h]
        simp [mapGet_mapSet, ht]

theorem parseResourcesFromBlock_same (ord : RangeOrder) (b : Block) (r r' : Resource)
    (h : parseResourcesFromBlock ord b r = some r') :
    ∃ kvs, List.Forall₂ (Evaluated ord) b.Attributes kvs ∧
      mapGet r'.Attributes b.Type_
        = some (.map (kvs.foldl (fun acc kv => mapSet acc kv.1 kv.2)
            (dataOf (mapGet r.Attributes b.Type_)))) := by
  simp only [parseResourcesFromBlock] at h
  cases hg : mapGet r.Attributes b.Type_ with
  | none =>
    simp only [hg, mapGet_mapSet, if_true] at h
    cases he : evaluateAttributes ord b.Attributes [] with
    | none => simp [he] at h
    | some data =>
      simp only [he, Option.some.injEq] at h
      obtain ⟨kvs, hf, hd⟩ := evaluateAttributes_eq_some ord _ _ _ he
      refine ⟨kvs, hf, ?_⟩
      rw [← h]
      simp [mapGet_mapSet, dataOf, hd]
  | some v =>
    simp only [hg] at h
    cases v with
    | str s => simp at h
    | map d =>
      simp only at h
      cases he : evaluateAttributes ord b.Attributes d with
      | none => simp [he] at h
      | some data =>
        simp only [he, Option.some.injEq] at h
        obtain ⟨kvs, hf, hd⟩ := evaluateAttributes_eq_some ord _ _ _ he
        refine ⟨kvs, hf, ?_⟩
        rw [← h]
        simp [mapGet_mapSet, dataOf, hd]

theorem parseResourceBlocks_key (ord : RangeOrder) (t : String) :
    ∀ (blocks : List Block) (r r' : Resource),
      parseResourceBlocks ord blocks r = some r' →
      ∃ kvs, List.Forall₂ (Evaluated ord)
          (((blocks.filter (fun b => b.Type_ = t)).map Block.Attributes).flatten) kvs ∧
        (blocks.filter (fun b => b.Type_ = t) = [] →
          mapGet r'.Attributes t = mapGet r.Attributes t) ∧
        (blocks.filter (fun b => b.Type_ = t) ≠ [] →
          mapGet r'.Attributes t
            = some (.map (kvs.foldl (fun acc kv => mapSet acc kv.1 kv.2)
                (dataOf (mapGet r.Attributes t)))))
  | [], r, r', h => by
    simp only [parseResourceBlocks, Option.some.injEq] at h
    subst h
    exact ⟨[], by simp, fun _ => rfl, fun hne => absurd rfl hne⟩
  | b :: rest, r, r', h => by
    simp only [parseResourceBlocks] at h
    cases h1 : parseResourcesFromBlock ord b r with
    | none => simp [h1] at h
    | some r1 =>
      simp only [h1] at h
      obtain ⟨kvs2, hf2, hnil2, hne2⟩ := parseResourceBlocks_key ord t rest r1 r' h
      by_cases hbt : b.Type_ = t
      · obtain ⟨kvs1, hf1, hget1⟩ := parseResourcesFromBlock_same ord b r r1 h1
        rw [hbt] at hget1
        have hfilter : (b :: rest).filter (fun b => b.Type_ = t)
            = b :: rest.filter (fun b => b.Type_ = t) := by
          simp [List.filter_cons, hbt]
        refine ⟨kvs1 ++ kvs2, ?_, ?_, ?_⟩
        · rw [hfilter, List.map_cons, List.flatten_cons]
          exact forall₂_append_evaluated ord _ _ _ _ hf1 hf2
        · intro hnil
          rw [hfilter] at hnil
          cases hnil
        · intro _
          by_cases hrest : rest.filter (fun b => b.Type_ = t) = []
          · rw [hrest] at hf2
            simp only [List.map_nil, List.flatten_nil] at hf2
            cases hf2
            rw [hnil2 hrest, hget1, List.append_nil]
          · rw [hne2 hrest, hget1, List.foldl_append]
            rfl
      · have hfilter : (b :: rest).filter (fun b => b.Type_ = t)
            = rest.filter (fun b => b.Type_ = t) := by
          simp [List.filter_cons, hbt]
        have hsame := parseResourcesFromBlock_other ord b r r1 t h1 hbt
        refine ⟨kvs2, ?_, ?_, ?_⟩
        · rw [hfilter]
          exact hf2
        · intro hnil
          rw [hfilter] at hnil
          rw [hnil2 hnil, hsame]
        · intro hne
          rw [hfilter] at hne
          rw [hne2 hne, hsame]

/-- The entry under a nested block type after `parseResource` has returned. -/
theorem nestedEntry_of_parseResource (ord : RangeOrder) (block : Block) (r : Resource) (t : String)
    (h : parseResource ord block = some r)
    (ht : t ∉ block.Attributes.map (fun a => a.Name)) :
    ∃ kvs, List.Forall₂ (Evaluated ord) (nestedAttributes block t) kvs ∧
      (block.Blocks.filter (fun b => b.Type_ = t) = [] → mapGet r.Attributes t = none) ∧
      (block.Blocks.filter (fun b => b.Type_ = t) ≠ [] →
        ∃ sub, mapGet r.Attributes t = some (.map sub) ∧
          (∀ k, mapGet sub k = mapGet kvs.reverse k) ∧
          (∀ k, k ∈ sub.map Prod.fst ↔ k ∈ (nestedAttributes block t).map (fun a => a.Name))) := by
  simp only [parseResource] at h
  cases hlab : block.Labels with
  | nil => simp [hlab] at h
  | cons type tl =>
    cases tl with
    | nil => simp [hlab] at h
    | cons name more =>
      simp only [hlab] at h
      cases he : evaluateAttributes ord block.Attributes [] with
      | none => simp [he] at h
      | some attrs0 =>
        simp only [he] at h
        obtain ⟨kvs0, hf0, hattrs0⟩ := evaluateAttributes_eq_some ord _ _ _ he
        have hnone : mapGet attrs0 t = none := by
          apply mapGet_eq_none_of_not_mem
          rw [hattrs0, mem_keys_foldl_mapSet, evaluated_keys ord _ _ hf0]
          simpa using ht
        obtain ⟨kvs, hf, hnil, hne⟩ := parseResourceBlocks_key ord t block.Blocks _ r h
        simp only [hnone, dataOf] at hnil hne
        refine ⟨kvs, hf, hnil, ?_⟩
        intro hnonempty
        refine ⟨_, hne hnonempty, mapGet_foldl_mapSet kvs, ?_⟩
        intro k
        rw [mem_keys_foldl_mapSet, evaluated_keys ord _ _ hf]
        simp [nestedAttributes]

/-! ### Merging the files of a run (C18, C19) -/

theorem mergeConfigs_nil (c : Config) : mergeConfigs c [] = c := by
  simp [mergeConfigs]

theorem mergeConfigs_cons (c p : Config) (ps : List Config) :
    mergeConfigs c (p :: ps)
      = mergeConfigs ⟨c.Resources ++ p.Resources, c.Modules ++ p.Modules, c.Variables,
          c.Locals ++ p.Locals⟩ ps := by
  simp [mergeConfigs, List.append_assoc]

theorem mergeConfigs_append (c : Config) (ps qs : List Config) :
    mergeConfigs c (ps ++ qs) = mergeConfigs (mergeConfigs c ps) qs := by
  simp [mergeConfigs, List.append_assoc]

theorem parseSingleFile_ok (ord : RangeOrder) (w : World) (file : String) (c p : Config)
    (h : parseHCLFile ord w file = some (some p, none)) :
    parseSingleFile ord w file c
      = some (⟨c.Resources ++ p.Resources, c.Modules ++ p.Modules, c.Variables,
          c.Locals ++ p.Locals⟩, none) := by
  simp [parseSingleFile, h]

theorem parseFiles_ok (ord : RangeOrder) (w : World) (P : String → Config) :
    ∀ (files : List String) (c : Config),
      (∀ f ∈ files, parseHCLFile ord w f = some (some (P f), none)) →
      parseFiles ord w files c = some (mergeConfigs c (files.map P), none)
  | [], c, _ => by simp [parseFiles, mergeConfigs_nil]
  | f :: rest, c, h => by
    have hf := h f (List.mem_cons_self _ _)
    simp only [parseFiles, parseSingleFile_ok ord w f c (P f) hf, List.map_cons,
      mergeConfigs_cons]
    exact parseFiles_ok ord w P rest _ (fun g hg => h g (List.mem_cons_of_mem _ hg))

theorem parseDirectoryLoop_ok (ord : RangeOrder) (w : World) (P : String → Config) :
    ∀ (entries : List WalkEntry) (c : Config),
      (∀ e ∈ entries, e.err = false) →
      (∀ f ∈ ((entries.filter (fun entry =>
          !(entry.isDir || stringsContains entry.file ".terraform/"
            || filepathExt entry.file != ".tf"))).map (fun entry => entry.file)),
        parseHCLFile ord w f = some (some (P f), none)) →
      parseDirectoryLoop ord w entries c
        = some (mergeConfigs c (((entries.filter (fun entry =>
            !(entry.isDir || stringsContains entry.file ".terraform/"
              || filepathExt entry.file != ".tf"))).map (fun entry => entry.file)).map P),
            none)
  | [], c, _, _ => by simp [parseDirectoryLoop, mergeConfigs_nil]
  | e :: rest, c, herr, h => by
    have he : e.err = false := herr e (List.mem_cons_self _ _)
    have herr' : ∀ x ∈ rest, x.err = false := fun x hx => herr x (List.mem_cons_of_mem _ hx)
    by_cases hskip : (e.isDir || stringsContains e.file ".terraform/"
        || filepathExt e.file != ".tf") = true
    · have hfilter : (e :: rest).filter (fun entry =>
          !(entry.isDir || stringsContains entry.file ".terraform/"
            || filepathExt entry.file != ".tf"))
          = rest.filter (fun entry =>
          !(entry.isDir || stringsContains entry.file ".terraform/"
            || filepathExt entry.file != ".tf")) := by
        rw [List.filter_cons, hskip]
        rfl
      rw [hfilter] at h ⊢
      simp only [parseDirectoryLoop, he, hskip, if_true, Bool.false_eq_true, if_false]
      exact parseDirectoryLoop_ok ord w P rest c herr' h
    · have hskip' : (e.isDir || stringsContains e.file ".terraform/"
          || filepathExt e.file != ".tf") = false := by
        simpa using hskip
      have hfilter : (e :: rest).filter (fun entry =>
          !(entry.isDir || stringsContains entry.file ".terraform/"
            || filepathExt entry.file != ".tf"))
          = e :: rest.filter (fun entry =>
          !(entry.isDir || stringsContains entry.file ".terraform/"
            || filepathExt entry.file != ".tf")) := by
        rw [List.filter_cons, hskip']
        rfl
      rw [hfilter] at h ⊢
      have hf := h e.file (by simp)
      simp only [parseDirectoryLoop, he, hskip', Bool.false_eq_true, if_false,
        parseSingleFile_ok ord w e.file c (P e.file) hf, List.map_cons, mergeConfigs_cons]
      exact parseDirectoryLoop_ok ord w P rest _ herr'
        (fun g hg => h g (by simp only [List.map_cons]; exact List.mem_cons_of_mem _ hg))

theorem parseDirectories_ok (ord : RangeOrder) (w : World) (P : String → Config) :
    ∀ (directories : List String) (c : Config),
      (∀ d ∈ directories, ∀ e ∈ w.walk d, e.err = false) →
      (∀ f ∈ (directories.map (walkedFiles w)).flatten,
        parseHCLFile ord w f = some (some (P f), none)) →
      parseDirectories ord w directories c
        = some (mergeConfigs c (((directories.map (walkedFiles w)).flatten).map P), none)
  | [], c, _, _ => by simp [parseDirectories, mergeConfigs_nil]
  | d :: rest, c, herr, h => by
    have hd : parseDirectory ord w d c = some (mergeConfigs c ((walkedFiles w d).map P), none) :=
      parseDirectoryLoop_ok ord w P (w.walk d) c (herr d (List.mem_cons_self _ _))
        (fun f hf => h f (by
          simp only [List.map_cons, List.flatten_cons, List.mem_append]
          exact Or.inl hf))
    simp only [parseDirectories, hd, List.map_cons, List.flatten_cons, List.map_append,
      mergeConfigs_append]
    exact parseDirectories_ok ord w P rest _
      (fun x hx => herr x (List.mem_cons_of_mem _ hx))
      (fun f hf => h f (by
        simp only [List.map_cons, List.flatten_cons, List.mem_append]
        exact Or.inr hf))

/-- C18: `parseSingleFile` appends the Resources, Modules and Locals of a
successfully parsed file after those of the accumulator, which stay an
unchanged prefix; hence for a run whose discovered files all parse, `Parse`
returns, without error, the entities of the files in discovery order: the files
of the directories in walk order, then the explicit files. -/
theorem Parse_merges (ord : RangeOrder) (w : World) (directories files : List String)
    (P : String → Config)
    (hwalk : ∀ d ∈ directories, ∀ e ∈ w.walk d, e.err = false)
    (hP : ∀ f ∈ discoveredFiles w directories files,
      parseHCLFile ord w f = some (some (P f), none)) :
    (∀ (file : String) (c p : Config), parseHCLFile ord w file = some (some p, none) →
      parseSingleFile ord w file c
        = some (⟨c.Resources ++ p.Resources, c.Modules ++ p.Modules, c.Variables,
            c.Locals ++ p.Locals⟩, none)) ∧
    Parse ord w directories files
      = some (some (mergeConfigs emptyConfig ((discoveredFiles w directories files).map P)),
          none) := by
  refine ⟨fun file c p h => parseSingleFile_ok ord w file c p h, ?_⟩
  have hdirs := parseDirectories_ok ord w P directories emptyConfig hwalk
    (fun f hf => hP f (by
      simp only [discoveredFiles, List.mem_append]
      exact Or.inl hf))
  have hfiles := parseFiles_ok ord w P files
    (mergeConfigs emptyConfig (((directories.map (walkedFiles w)).flatten).map P))
    (fun f hf => hP f (by
      simp only [discoveredFiles, List.mem_append]
      exact Or.inr hf))
  simp only [Parse, hdirs, hfiles, discoveredFiles, List.map_append, mergeConfigs_append]

/-- Witness for C18: the directory `d` with `d/a.tf` and the explicit file
`b.tf`, one resource each, give the two resources in discovery order; the file
under `.terraform/` and the file that is not `.tf` are not parsed. -/
theorem Parse_merges_witness :
    discoveredFiles worldTwoFiles ["d"] ["b.tf"] = ["d/a.tf", "b.tf"] ∧
    Parse id worldTwoFiles ["d"] ["b.tf"]
      = some (some ⟨[extractedWeb, extractedDb], [], [], []⟩, none) ∧
    Parse id worldTwoFiles ["d"] ["b.tf"]
      = some (some (mergeConfigs emptyConfig
          ((discoveredFiles worldTwoFiles ["d"] ["b.tf"]).map configsTwoFiles)), none) :=
  ⟨by decide, by decide,
    (Parse_merges id worldTwoFiles ["d"] ["b.tf"] configsTwoFiles (by decide) (by decide)).2⟩

theorem Parse_of_directories_error (ord : RangeOrder) (w : World)
    (directories files : List String) (c : Config) (err : GoError)
    (h : parseDirectories ord w directories emptyConfig = some (c, some err)) :
    Parse ord w directories files = some (none, some err) := by
  simp [Parse, h]

/-- C19 (the code at the failing input): in the directory `d` the file
`d/a.tf` parses and `d/b.tf` is rejected.  Given as explicit files, `Parse`
returns the error with the configuration that holds the resource of `d/a.tf`;
reached through the walk of `d`, `Parse` returns the error with no
configuration (`nil`), although the accumulator holds that resource. -/
theorem Parse_directory_failure_returns_nil :
    Parse id worldBrokenFile [] ["d/a.tf", "d/b.tf"]
      = some (some ⟨[extractedWeb], [], [], []⟩, some .errorParsingHCLFile) ∧
    parseDirectories id worldBrokenFile ["d"] emptyConfig
      = some (⟨[extractedWeb], [], [], []⟩, some .errorParsingHCLFile) ∧
    Parse id worldBrokenFile ["d"] [] = some (none, some .errorParsingHCLFile) :=
  ⟨by decide, by decide, by decide⟩

/-! ### Nested blocks of a resource: when `parseResource` returns (C13) -/

theorem mem_of_mapGet {β : Type} (l : List (String × β)) (k : String) (v : β)
    (h : mapGet l k = some v) : (k, v) ∈ l := by
  induction l with
  | nil => cases h
  | cons p rest ih =>
    obtain ⟨a, b⟩ := p
    by_cases hak : a = k
    · subst hak
      simp only [mapGet, if_true, Option.some.injEq] at h
      subst h
      exact List.mem_cons_self _ _
    · simp only [mapGet, hak, if_false] at h
      exact List.mem_cons_of_mem _ (ih h)

theorem evaluated_of_mem (ord : RangeOrder) (attrs : List Attribute)
    (kvs : List (String × Value)) (h : List.Forall₂ (Evaluated ord) attrs kvs) :
    ∀ kv ∈ kvs, ∃ a ∈ attrs, kv.1 = a.Name ∧ evaluateExpression ord a.Expr = some kv.2 := by
  induction h with
  | nil => intro kv hkv; cases hkv
  | cons hkv _ ih =>
    intro kv hmem
    rcases List.mem_cons.mp hmem with heq | hrest
    · subst heq
      exact ⟨_, List.mem_cons_self _ _, hkv.1, hkv.2⟩
    · obtain ⟨a, ha, hk⟩ := ih kv hrest
      exact ⟨a, List.mem_cons_of_mem _ ha, hk⟩

theorem parseResourcesFromBlock_total (ord : RangeOrder) (b : Block) (r : Resource)
    (hkey : MapOrAbsent r.Attributes b.Type_)
    (hev : ∀ a ∈ b.Attributes, ∃ v, evaluateExpression ord a.Expr = some v) :
    ∃ r', parseResourcesFromBlock ord b r = some r' := by
  obtain ⟨kvs, hkvs⟩ := exists_evaluated ord b.Attributes hev
  rcases hkey with hnone | ⟨d, hd⟩
  · simp only [parseResourcesFromBlock, hnone, mapGet_mapSet, if_true,
      evaluateAttributes_of_forall₂ ord _ kvs hkvs]
    exact ⟨_, rfl⟩
  · simp only [parseResourcesFromBlock, hd, evaluateAttributes_of_forall₂ ord _ kvs hkvs]
    exact ⟨_, rfl⟩

theorem parseResourcesFromBlock_mapOrAbsent (ord : RangeOrder) (b : Block) (r r' : Resource)
    (k : String) (h : parseResourcesFromBlock ord b r = some r')
    (hk : MapOrAbsent r.Attributes k) : MapOrAbsent r'.Attributes k := by
  by_cases hbk : b.Type_ = k
  · obtain ⟨kvs, _, hget⟩ := parseResourcesFromBlock_same ord b r r' h
    rw [hbk] at hget
    exact Or.inr ⟨_, hget⟩
  · have hsame := parseResourcesFromBlock_other ord b r r' k h hbk
    unfold MapOrAbsent
    rw [hsame]
    exact hk

theorem parseResourceBlocks_total (ord : RangeOrder) :
    ∀ (blocks : List Block) (r : Resource),
      (∀ b ∈ blocks, MapOrAbsent r.Attributes b.Type_) →
      (∀ b ∈ blocks, ∀ a ∈ b.Attributes, ∃ v, evaluateExpression ord a.Expr = some v) →
      ∃ r', parseResourceBlocks ord blocks r = some r'
  | [], r, _, _ => ⟨r, rfl⟩
  | b :: rest, r, hkey, hev => by
    obtain ⟨r1, hr1⟩ := parseResourcesFromBlock_total ord b r
      (hkey b (List.mem_cons_self _ _)) (hev b (List.mem_cons_self _ _))
    obtain ⟨r', hr'⟩ := parseResourceBlocks_total ord rest r1
      (fun c hc => parseResourcesFromBlock_mapOrAbsent ord b r r1 c.Type_ hr1
        (hkey c (List.mem_cons_of_mem _ hc)))
      (fun c hc => hev c (List.mem_cons_of_mem _ hc))
    exact ⟨r', by simp only [parseResourceBlocks, hr1, hr']⟩

theorem parseResource_total (ord : RangeOrder) (block : Block) (type name : String)
    (more : List String) (hlabels : block.Labels = type :: name :: more)
    (heval : ∀ a ∈ block.Attributes, ∃ v, evaluateExpression ord a.Expr = some v)
    (hnested : ∀ b ∈ block.Blocks, ∀ a ∈ b.Attributes,
      ∃ v, evaluateExpression ord a.Expr = some v)
    (hclash : ∀ b ∈ block.Blocks, ∀ a ∈ block.Attributes, a.Name = b.Type_ →
      ∃ m, evaluateExpression ord a.Expr = some (.map m)) :
    ∃ r, parseResource ord block = some r := by
  obtain ⟨kvs0, hkvs0⟩ := exists_evaluated ord block.Attributes heval
  have hinit : ∀ b ∈ block.Blocks,
      MapOrAbsent (kvs0.foldl (fun acc kv => mapSet acc kv.1 kv.2) []) b.Type_ := by
    intro b hb
    unfold MapOrAbsent
    rw [mapGet_foldl_mapSet]
    cases hg : mapGet kvs0.reverse b.Type_ with
    | none => exact Or.inl rfl
    | some v =>
      have hmem : (b.Type_, v) ∈ kvs0 := List.mem_reverse.mp (mem_of_mapGet _ _ _ hg)
      obtain ⟨a, ha, hname, hval⟩ := evaluated_of_mem ord _ _ hkvs0 _ hmem
      obtain ⟨m, hm⟩ := hclash b hb a ha hname.symm
      rw [hm] at hval
      have hv : v = .map m := (Option.some.inj hval).symm
      exact Or.inr ⟨m, by rw [hv]⟩
  obtain ⟨r, hr⟩ := parseResourceBlocks_total ord block.Blocks
    ⟨type, name, block.Labels, kvs0.foldl (fun acc kv => mapSet acc kv.1 kv.2) []⟩ hinit hnested
  refine ⟨r, ?_⟩
  simp only [parseResource, hlabels, evaluateAttributes_of_forall₂ ord _ kvs0 hkvs0]
  rw [hlabels] at hr
  exact hr

/-- C13 (as stated, refuted): three resource blocks with a nested block type
that is not the name of a top-level attribute, for which `parseResource` does
not return: the nested block `environment { x = [{}] }`, whose attribute makes
the evaluator panic; a resource with one label; and the attribute `env = "x"`
with the nested blocks `env { ... }` and `other { ... }`, where `other` is the
type looked at and the assertion on the entry `env` panics. -/
theorem parseResource_panics_with_nested :
    ("environment" ∉ resourceNestedTupleObject.Attributes.map (fun a => a.Name) ∧
      resourceNestedTupleObject.Labels = ["a", "b"] ∧
      parseResource id resourceNestedTupleObject = none) ∧
    ("environment" ∉ resourceOneLabelNested.Attributes.map (fun a => a.Name) ∧
      resourceOneLabelNested.Labels = ["a"] ∧
      parseResource id resourceOneLabelNested = none) ∧
    ("other" ∉ resourceClash.Attributes.map (fun a => a.Name) ∧
      resourceClash.Labels = ["a", "b"] ∧
      parseResource id resourceClash = none) :=
  ⟨⟨by decide, rfl, by decide⟩, ⟨by decide, rfl, by decide⟩, ⟨by decide, rfl, by decide⟩⟩

/-- C13 (amended): for every resource block with at least two labels whose
attribute expressions, top-level and nested, all evaluate without failure, and
in which a top-level attribute that bears the type name of a nested block
evaluates to a mapping, `parseResource` returns a Resource; and for every type
name `t` that is not the name of a top-level attribute, its attribute mapping
holds under key `t` a sub-mapping built from the evaluated attributes of all
nested blocks of type `t`, block after block in the order of the body: each
attribute name that one of these blocks defines is a key, mapped to the value
from the last of these blocks that defines it, so a later block replaces an
earlier value only for a name both define and the other entries are kept; with
no nested block of type `t` the key `t` is absent. -/
theorem parseResource_nested (ord : RangeOrder) (block : Block) (type name : String)
    (more : List String) (t : String)
    (hlabels : block.Labels = type :: name :: more)
    (heval : ∀ a ∈ block.Attributes, ∃ v, evaluateExpression ord a.Expr = some v)
    (hnested : ∀ b ∈ block.Blocks, ∀ a ∈ b.Attributes,
      ∃ v, evaluateExpression ord a.Expr = some v)
    (hclash : ∀ b ∈ block.Blocks, ∀ a ∈ block.Attributes, a.Name = b.Type_ →
      ∃ m, evaluateExpression ord a.Expr = some (.map m))
    (ht : t ∉ block.Attributes.map (fun a => a.Name)) :
    ∃ r kvs, parseResource ord block = some r ∧
      List.Forall₂ (Evaluated ord) (nestedAttributes block t) kvs ∧
      (block.Blocks.filter (fun b => b.Type_ = t) = [] → mapGet r.Attributes t = none) ∧
      (block.Blocks.filter (fun b => b.Type_ = t) ≠ [] →
        ∃ sub, mapGet r.Attributes t = some (.map sub) ∧
          (∀ k, mapGet sub k = mapGet kvs.reverse k) ∧
          (∀ k, k ∈ sub.map Prod.fst ↔ k ∈ (nestedAttributes block t).map (fun a => a.Name))) := by
  obtain ⟨r, hr⟩ := parseResource_total ord block type name more hlabels heval hnested hclash
  obtain ⟨kvs, h1, h2, h3⟩ := nestedEntry_of_parseResource ord block r t hr ht
  exact ⟨r, kvs, hr, h1, h2, h3⟩

/-- Witness for C13 (amended): a resource with the nested blocks `environment`
(`a = "1"`, `b = "2"`), `timeouts` and `environment` (`b = "3"`, `c = "4"`)
holds under `environment` the sub-mapping `a ↦ "1"`, `b ↦ "3"`, `c ↦ "4"`; and
a resource with the attribute `env = {a = "1"}` and the nested blocks
`env { b = "2" }` and `other { z = "3" }` holds under `other` the sub-mapping
`z ↦ "3"`. -/
theorem parseResource_nested_witness :
    (parseResource id resourceNested
      = some ⟨"aws_lambda_function", "f", ["aws_lambda_function", "f"],
          [("name", .str "f"),
            ("environment", .map [("a", .str "1"), ("b", .str "3"), ("c", .str "4")]),
            ("timeouts", .map [("create", .str "5m")])]⟩ ∧
    ∃ r kvs, parseResource id resourceNested = some r ∧
      List.Forall₂ (Evaluated id) (nestedAttributes resourceNested "environment") kvs ∧
      (resourceNested.Blocks.filter (fun b => b.Type_ = "environment") = [] →
        mapGet r.Attributes "environment" = none) ∧
      (resourceNested.Blocks.filter (fun b => b.Type_ = "environment") ≠ [] →
        ∃ sub, mapGet r.Attributes "environment" = some (.map sub) ∧
          (∀ k, mapGet sub k = mapGet kvs.reverse k) ∧
          (∀ k, k ∈ sub.map Prod.fst
            ↔ k ∈ (nestedAttributes resourceNested "environment").map (fun a => a.Name)))) ∧
    (parseResource id resourceEnvObject
      = some ⟨"a", "b", ["a", "b"],
          [("env", .map [("a", .str "1"), ("b", .str "2")]),
            ("other", .map [("z", .str "3")])]⟩ ∧
    ∃ r kvs, parseResource id resourceEnvObject = some r ∧
      List.Forall₂ (Evaluated id) (nestedAttributes resourceEnvObject "other") kvs ∧
      (resourceEnvObject.Blocks.filter (fun b => b.Type_ = "other") = [] →
        mapGet r.Attributes "other" = none) ∧
      (resourceEnvObject.Blocks.filter (fun b => b.Type_ = "other") ≠ [] →
        ∃ sub, mapGet r.Attributes "other" = some (.map sub) ∧
          (∀ k, mapGet sub k = mapGet kvs.reverse k) ∧
          (∀ k, k ∈ sub.map Prod.fst
            ↔ k ∈ (nestedAttributes resourceEnvObject "other").map (fun a => a.Name)))) :=
  ⟨⟨by decide,
    parseResource_nested id resourceNested "aws_lambda_function" "f" [] "environment"
    rfl
    (by
      intro a ha
      have : a = ⟨"name", quoted "f"⟩ := by simpa [resourceNested, Block.Attributes] using ha
      subst this
      exact ⟨.str "f", by decide⟩)
    (by
      intro b hb a ha
      have hb' : b = .mk "environment" [] [⟨"a", quoted "1"⟩, ⟨"b", quoted "2"⟩] [] ∨
          b = .mk "timeouts" [] [⟨"create", quoted "5m"⟩] [] ∨
          b = .mk "environment" [] [⟨"b", quoted "3"⟩, ⟨"c", quoted "4"⟩] [] := by
        simpa [resourceNested, Block.Blocks] using hb
      rcases hb' with h | h | h <;> subst h <;>
        simp only [Block.Attributes, List.mem_cons, List.mem_singleton, List.not_mem_nil,
          or_false] at ha
      · rcases ha with h | h <;> subst h
        · exact ⟨.str "1", by decide⟩
        · exact ⟨.str "2", by decide⟩
      · subst ha
        exact ⟨.str "5m", by decide⟩
      · rcases ha with h | h <;> subst h
        · exact ⟨.str "3", by decide⟩
        · exact ⟨.str "4", by decide⟩)
    (by
      intro b hb a ha hname
      have ha' : a = ⟨"name", quoted "f"⟩ := by
        simpa [resourceNested, Block.Attributes] using ha
      have hb' : b = .mk "environment" [] [⟨"a", quoted "1"⟩, ⟨"b", quoted "2"⟩] [] ∨
          b = .mk "timeouts" [] [⟨"create", quoted "5m"⟩] [] ∨
          b = .mk "environment" [] [⟨"b", quoted "3"⟩, ⟨"c", quoted "4"⟩] [] := by
        simpa [resourceNested, Block.Blocks] using hb
      subst ha'
      rcases hb' with h | h | h <;> subst h <;> exact absurd hname (by decide))
    (by decide)⟩,
  ⟨by decide,
    parseResource_nested id resourceEnvObject "a" "b" [] "other"
    rfl
    (by
      intro a ha
      have : a = ⟨"env", .ObjectConsExpr [(keyExpr "a", quoted "1")]⟩ := by
        simpa [resourceEnvObject, Block.Attributes] using ha
      subst this
      exact ⟨.map [("a", .str "1")], by decide⟩)
    (by
      intro b hb a ha
      have hb' : b = .mk "env" [] [⟨"b", quoted "2"⟩] [] ∨
          b = .mk "other" [] [⟨"z", quoted "3"⟩] [] := by
        simpa [resourceEnvObject, Block.Blocks] using hb
      rcases hb' with h | h <;> subst h <;>
        simp only [Block.Attributes, List.mem_singleton] at ha <;> subst ha
      · exact ⟨.str "2", by decide⟩
      · exact ⟨.str "3", by decide⟩)
    (by
      intro b hb a ha hname
      have ha' : a = ⟨"env", .ObjectConsExpr [(keyExpr "a", quoted "1")]⟩ := by
        simpa [resourceEnvObject, Block.Attributes] using ha
      have hb' : b = .mk "env" [] [⟨"b", quoted "2"⟩] [] ∨
          b = .mk "other" [] [⟨"z", quoted "3"⟩] [] := by
        simpa [resourceEnvObject, Block.Blocks] using hb
      subst ha'
      rcases hb' with h | h <;> subst h
      · exact ⟨[("a", .str "1")], by decide⟩
      · exact absurd hname (by decide))
    (by decide)⟩⟩

/-! ### Runs that reach a file whose parsing panics (C15) -/

theorem parseSingleFile_none_of_panic (ord : RangeOrder) (w : World) (f : String) (c : Config)
    (h : parseHCLFile ord w f = none) : parseSingleFile ord w f c = none := by
  simp [parseSingleFile, h]

theorem parseSingleFile_of_no_error (ord : RangeOrder) (w : World) (f : String) (c : Config)
    (h : fileGivesError ord w f = false) :
    parseSingleFile ord w f c = none ∨ ∃ c', parseSingleFile ord w f c = some (c', none) := by
  unfold fileGivesError at h
  unfold parseSingleFile
  cases hp : parseHCLFile ord w f with
  | none => exact Or.inl rfl
  | some p =>
    obtain ⟨oc, oe⟩ := p
    cases oe with
    | some e => rw [hp] at h; simp [returnsError] at h
    | none =>
      cases oc with
      | none => exact Or.inl rfl
      | some pc => exact Or.inr ⟨_, rfl⟩

theorem parseFiles_none_of_reached (ord : RangeOrder) (w : World) (f : String)
    (hf : parseHCLFile ord w f = none) :
    ∀ (pre post : List String) (c : Config),
      (∀ g ∈ pre, fileGivesError ord w g = false) →
      parseFiles ord w (pre ++ f :: post) c = none
  | [], post, c, _ => by
    simp [parseFiles, parseSingleFile_none_of_panic ord w f c hf]
  | g :: pre, post, c, h => by
    rcases parseSingleFile_of_no_error ord w g c (h g (List.mem_cons_self _ _)) with
      hn | ⟨c', hc'⟩
    · simp [parseFiles, hn]
    · simp only [List.cons_append, parseFiles, hc']
      exact parseFiles_none_of_reached ord w f hf pre post c'
        (fun x hx => h x (List.mem_cons_of_mem _ hx))

theorem parseDirectoryLoop_of_no_error (ord : RangeOrder) (w : World) :
    ∀ (entries : List WalkEntry) (c : Config),
      (∀ e ∈ entries, entryGivesError ord w e = false) →
      parseDirectoryLoop ord w entries c = none
        ∨ ∃ c', parseDirectoryLoop ord w entries c = some (c', none)
  | [], c, _ => Or.inr ⟨c, rfl⟩
  | e :: rest, c, h => by
    have he := h e (List.mem_cons_self _ _)
    have hrest : ∀ x ∈ rest, entryGivesError ord w x = false :=
      fun x hx => h x (List.mem_cons_of_mem _ hx)
    unfold parseDirectoryLoop
    cases herr : e.err with
    | true => simp [entryGivesError, herr] at he
    | false =>
      simp only [Bool.false_eq_true, if_false]
      cases hskip : entrySkipped e with
      | true =>
        unfold entrySkipped at hskip
        simp only [hskip, if_true]
        exact parseDirectoryLoop_of_no_error ord w rest c hrest
      | false =>
        have hfe : fileGivesError ord w e.file = false := by
          simpa [entryGivesError, herr, hskip] using he
        unfold entrySkipped at hskip
        simp only [hskip, Bool.false_eq_true, if_false]
        rcases parseSingleFile_of_no_error ord w e.file c hfe with hn | ⟨c', hc'⟩
        · exact Or.inl (by simp [hn])
        · simp only [hc']
          exact parseDirectoryLoop_of_no_error ord w rest c' hrest

theorem parseDirectoryLoop_none_of_reached (ord : RangeOrder) (w : World) (e : WalkEntry)
    (herr : e.err = false) (hskip : entrySkipped e = false)
    (hf : parseHCLFile ord w e.file = none) :
    ∀ (epre epost : List WalkEntry) (c : Config),
      (∀ x ∈ epre, entryGivesError ord w x = false) →
      parseDirectoryLoop ord w (epre ++ e :: epost) c = none
  | [], epost, c, _ => by
    unfold entrySkipped at hskip
    simp [parseDirectoryLoop, herr, hskip, parseSingleFile_none_of_panic ord w e.file c hf]
  | x :: epre, epost, c, h => by
    have hx := h x (List.mem_cons_self _ _)
    have hrest : ∀ y ∈ epre, entryGivesError ord w y = false :=
      fun y hy => h y (List.mem_cons_of_mem _ hy)
    simp only [List.cons_append]
    unfold parseDirectoryLoop
    cases hxerr : x.err with
    | true => simp [entryGivesError, hxerr] at hx
    | false =>
      simp only [Bool.false_eq_true, if_false]
      cases hxskip : entrySkipped x with
      | true =>
        unfold entrySkipped at hxskip
        simp only [hxskip, if_true]
        exact parseDirectoryLoop_none_of_reached ord w e herr hskip hf epre epost c hrest
      | false =>
        have hfe : fileGivesError ord w x.file = false := by
          simpa [entryGivesError, hxerr, hxskip] using hx
        unfold entrySkipped at hxskip
        simp only [hxskip, Bool.false_eq_true, if_false]
        rcases parseSingleFile_of_no_error ord w x.file c hfe with hn | ⟨c', hc'⟩
        · simp [hn]
        · simp only [hc']
          exact parseDirectoryLoop_none_of_reached ord w e herr hskip hf epre epost c' hrest

theorem parseDirectories_of_no_error (ord : RangeOrder) (w : World) :
    ∀ (directories : List String) (c : Config),
      (∀ d ∈ directories, ∀ e ∈ w.walk d, entryGivesError ord w e = false) →
      parseDirectories ord w directories c = none
        ∨ ∃ c', parseDirectories ord w directories c = some (c', none)
  | [], c, _ => Or.inr ⟨c, rfl⟩
  | d :: rest, c, h => by
    unfold parseDirectories parseDirectory
    rcases parseDirectoryLoop_of_no_error ord w (w.walk d) c (h d (List.mem_cons_self _ _)) with
      hn | ⟨c', hc'⟩
    · exact Or.inl (by simp [hn])
    · simp only [hc']
      exact parseDirectories_of_no_error ord w rest c'
        (fun x hx => h x (List.mem_cons_of_mem _ hx))

theorem parseDirectories_none_of_reached (ord : RangeOrder) (w : World) (d : String)
    (hd : ∀ c, parseDirectoryLoop ord w (w.walk d) c = none) :
    ∀ (dpre dpost : List String) (c : Config),
      (∀ x ∈ dpre, ∀ e ∈ w.walk x, entryGivesError ord w e = false) →
      parseDirectories ord w (dpre ++ d :: dpost) c = none
  | [], dpost, c, _ => by
    simp [parseDirectories, parseDirectory, hd c]
  | x :: dpre, dpost, c, h => by
    simp only [List.cons_append]
    unfold parseDirectories parseDirectory
    rcases parseDirectoryLoop_of_no_error ord w (w.walk x) c (h x (List.mem_cons_self _ _)) with
      hn | ⟨c', hc'⟩
    · simp [hn]
    · simp only [hc']
      exact parseDirectories_none_of_reached ord w d hd dpre dpost c'
        (fun y hy => h y (List.mem_cons_of_mem _ hy))

theorem Parse_none_of_file_reached (ord : RangeOrder) (w : World) (f : String)
    (hf : parseHCLFile ord w f = none) (directories pre post : List String)
    (hdirs : ∀ d ∈ directories, ∀ e ∈ w.walk d, entryGivesError ord w e = false)
    (hpre : ∀ g ∈ pre, fileGivesError ord w g = false) :
    Parse ord w directories (pre ++ f :: post) = none := by
  unfold Parse
  rcases parseDirectories_of_no_error ord w directories emptyConfig hdirs with hn | ⟨c', hc'⟩
  · simp [hn]
  · simp [hc', parseFiles_none_of_reached ord w f hf pre post c' hpre]

theorem Parse_none_of_entry_reached (ord : RangeOrder) (w : World) (e : WalkEntry)
    (herr : e.err = false) (hskip : entrySkipped e = false)
    (hf : parseHCLFile ord w e.file = none) (dpre dpost : List String) (d : String)
    (epre epost : List WalkEntry) (files : List String)
    (hwalk : w.walk d = epre ++ e :: epost)
    (hdirs : ∀ x ∈ dpre, ∀ y ∈ w.walk x, entryGivesError ord w y = false)
    (hpre : ∀ y ∈ epre, entryGivesError ord w y = false) :
    Parse ord w (dpre ++ d :: dpost) files = none := by
  unfold Parse
  have hd : ∀ c, parseDirectoryLoop ord w (w.walk d) c = none := by
    intro c
    rw [hwalk]
    exact parseDirectoryLoop_none_of_reached ord w e herr hskip hf epre epost c hpre
  simp [parseDirectories_none_of_reached ord w d hd dpre dpost emptyConfig hdirs]

/-- C15 (amended): for every module block whose `source` attribute evaluates to
a mapping, module extraction fails with a panic of the type assertion:
`parseModule` returns no Module; `parseConfig` does not return for a file with
this block among its top-level `module` blocks; and `Parse` does not return for
any run that reaches a `.tf` file holding such a block, wherever the file
stands in the run: as an explicit file, after directories none of whose walk
entries gives an error and after explicit files none of which gives an error;
or as an entry of a directory walk that is not skipped, after directories and
entries none of which gives an error.  The failure is a panic and is never
turned into an error result. -/
theorem parseModule_source_mapping_panics (ord : RangeOrder) (block : Block) (a : Attribute)
    (m : List (String × Value)) (ha : a ∈ block.Attributes) (hname : a.Name = "source")
    (hmap : evaluateExpression ord a.Expr = some (.map m)) :
    parseModule ord block = none ∧
    (∀ file : File, block ∈ file.Blocks → block.Type_ = "module" →
      parseConfig ord file = none) ∧
    (∀ (w : World) (f : String) (file : File),
      filepathExt f = ".tf" → w.fileExists f = true → w.parseHCLFile f = some file →
      block ∈ file.Blocks → block.Type_ = "module" →
      (∀ (directories pre post : List String),
        (∀ d ∈ directories, ∀ e ∈ w.walk d, entryGivesError ord w e = false) →
        (∀ g ∈ pre, fileGivesError ord w g = false) →
        Parse ord w directories (pre ++ f :: post) = none) ∧
      (∀ (dpre dpost : List String) (d : String) (epre epost : List WalkEntry)
          (e : WalkEntry) (files : List String),
        w.walk d = epre ++ e :: epost → e.file = f → e.err = false → e.isDir = false →
        stringsContains f ".terraform/" = false →
        (∀ x ∈ dpre, ∀ y ∈ w.walk x, entryGivesError ord w y = false) →
        (∀ y ∈ epre, entryGivesError ord w y = false) →
        Parse ord w (dpre ++ d :: dpost) files = none)) := by
  have hmod : parseModule ord block = none :=
    parseModuleLoop_none_of_source_map ord block.Attributes _ a m ha hname hmap
  have hcfg : ∀ file : File, block ∈ file.Blocks → block.Type_ = "module" →
      parseConfig ord file = none :=
    fun file hmem htype => parseConfigLoop_none_of_module ord file.Blocks [] [] [] block
      hmem htype hmod
  refine ⟨hmod, hcfg, ?_⟩
  intro w f file hext hex hfile hmem htype
  have hhcl : parseHCLFile ord w f = none := by
    simp [parseHCLFile, hext, hex, hfile, hcfg file hmem htype]
  refine ⟨?_, ?_⟩
  · intro directories pre post hdirs hpre
    exact Parse_none_of_file_reached ord w f hhcl directories pre post hdirs hpre
  · intro dpre dpost d epre epost e files hwalk hfile' herr hdir hterra hdirs hpre
    subst hfile'
    have hskip : entrySkipped e = false := by
      simp [entrySkipped, hdir, hterra, hext]
    exact Parse_none_of_entry_reached ord w e herr hskip hhcl dpre dpost d epre epost files
      hwalk hdirs hpre

/-- Witness for C15 (amended): the block `module "m"` with `source = {}`; a run
of the explicit files `notes.txt`, `m.tf`, `n.tf`, where `m.tf` holds the
block; and a run of the directory `d`, whose walk visits `d`, `d/notes.txt`
and `d/m.tf`, where `d/m.tf` holds the block. -/
theorem parseModule_source_mapping_panics_witness :
    parseModule id moduleSourceObject = none ∧
    parseConfig id ⟨[], [moduleSourceObject]⟩ = none ∧
    Parse id worldSourceObject [] ["notes.txt", "m.tf", "n.tf"] = none ∧
    Parse id worldWalkSourceObject ["d"] ["n.tf"] = none :=
  have h := parseModule_source_mapping_panics id moduleSourceObject
    ⟨"source", .ObjectConsExpr []⟩ []
    (by simp [moduleSourceObject, Block.Attributes]) rfl (by decide)
  ⟨h.1,
    h.2.1 ⟨[], [moduleSourceObject]⟩ (List.mem_singleton.mpr rfl) rfl,
    (h.2.2 worldSourceObject "m.tf" ⟨[], [moduleSourceObject]⟩ (by decide) (by decide) rfl
      (List.mem_singleton.mpr rfl) rfl).1 [] ["notes.txt"] ["n.tf"]
      (by intro d hd; cases hd) (by decide),
    (h.2.2 worldWalkSourceObject "d/m.tf" ⟨[], [moduleSourceObject]⟩ (by decide) (by decide) rfl
      (List.mem_singleton.mpr rfl) rfl).2 [] [] "d"
      [⟨"d", true, false⟩, ⟨"d/notes.txt", false, false⟩] [] ⟨"d/m.tf", false, false⟩ ["n.tf"]
      rfl rfl rfl rfl (by decide) (by intro x hx; cases hx) (by decide)⟩

end Hcl
